import Mathlib

/-!
# Browser-Mapping-Highlight-Plugin: the highlighting engine of `content-script.js`

A shallow embedding of the content script (term index, regex cache, segmentation of one
text node, text walk, highlight removal, the idle-scheduled passes and the message
handler) together with theorems about it.

JavaScript strings are sequences of UTF-16 code units; a code unit is represented by a
`Char`.  A matcher built with the flags `gi` (no `u`) compares code units after the
runtime's `Canonicalize` step; that step is the parameter `canon` of the definitions below,
so every theorem holds for whatever case folding the runtime implements.
-/

namespace BMHP

/-- A JavaScript string as the list of its code units. -/
abbrev JSString := List Char

/-! ## `escapeRegExp` and the matcher compiled from its result -/

/-- The character class of `escapeRegExp`, `/[.*+?^${}()|[\]\\]/`: the fourteen
`SyntaxCharacter`s of the ECMAScript pattern grammar. -/
def isSyntaxCharacter (c : Char) : Bool :=
  c = '.' || c = '*' || c = '+' || c = '?' || c = '^' || c = '$' || c = Char.ofNat 123 ||
  c = Char.ofNat 125 || c = '(' || c = ')' || c = '|' || c = '[' || c = ']' ||
  c = Char.ofNat 92

/-- The function `escapeRegExp(string)`: `string.replace(/[.*+?^${}()|[\]\\]/g, '\\$&')`, a
global replace of every character of the class by a backslash followed by the character. -/
def escapeRegExp : JSString → JSString
  | [] => []
  | c :: s =>
    if isSyntaxCharacter c then Char.ofNat 92 :: c :: escapeRegExp s
    else c :: escapeRegExp s

/-- The constructor `new RegExp(source, 'gi')` on the literal fragment of the pattern grammar: a
pattern made of `PatternCharacter`s (any code unit that is not a `SyntaxCharacter`) and of
identity escapes `\c` of a `SyntaxCharacter` denotes the string of those characters.
Patterns outside the fragment (an unescaped `SyntaxCharacter`, a backslash before anything
else, a trailing backslash) give `none`: they are operators, classes or syntax errors. -/
def literalOfPattern : JSString → Option JSString
  | [] => some []
  | c :: rest =>
    if c = Char.ofNat 92 then
      match rest with
      | [] => none
      | d :: rest2 =>
        if isSyntaxCharacter d then (literalOfPattern rest2).map (fun l => d :: l) else none
    else if isSyntaxCharacter c then none
    else (literalOfPattern rest).map (fun l => c :: l)

/-- Case-insensitive match of the literal `lit` against `text` at index `i`: the code units
`text[i .. i + lit.length)` exist and agree with `lit` after `canon`. -/
def matchesAt (canon : Char → Char) (lit text : JSString) (i : Nat) : Bool :=
  ((text.drop i).take lit.length).map canon == lit.map canon

/-- The call `regex.exec(text)` for a global regex whose `lastIndex` was just set to `lastIndex`:
the leftmost match starting at an index `>= lastIndex`, returned as
`(match.index, match[0])`, or `none` for `null`.  A source outside the literal fragment is
not interpreted. -/
def regexExec (canon : Char → Char) (source text : JSString) (lastIndex : Nat) :
    Option (Nat × JSString) :=
  match literalOfPattern source with
  | none => none
  | some lit =>
    ((List.range (text.length + 1 - lastIndex)).find?
        (fun k => matchesAt canon lit text (lastIndex + k))).map
      (fun k => (lastIndex + k, (text.drop (lastIndex + k)).take lit.length))

/-! ## Mappings and the term index (`getTermsToHighlight`) -/

/-- The two values of the `type` field of a term entry. -/
inductive TermType where
  | searchTerm
  | mappedTerm
deriving DecidableEq, Repr

/-- The string a `type` stands for: `'search-term'` or `'mapped-term'`. -/
def TermType.str : TermType → String
  | .searchTerm => "search-term"
  | .mappedTerm => "mapped-term"

/-- One element of `currentMappings`. -/
structure Mapping where
  searchTerms : List JSString
  mappedTerms : List JSString
  searchColor : String
  mappedColor : String
deriving DecidableEq, Repr

/-- One element of `termsToHighlight`: `{term, type, group, color, length}`. -/
structure TermEntry where
  term : JSString
  type : TermType
  group : Nat
  color : String
  length : Nat
deriving DecidableEq, Repr

/-- The entries one mapping pushes (the body of the outer `forEach`): its non-empty
search terms, then its non-empty mapped terms. -/
def entriesOfMapping (mapping : Mapping) (groupIndex : Nat) : List TermEntry :=
  (mapping.searchTerms.filter (fun term => !term.isEmpty)).map
      (fun term => { term := term, type := .searchTerm, group := groupIndex,
                     color := mapping.searchColor, length := term.length }) ++
  (mapping.mappedTerms.filter (fun term => !term.isEmpty)).map
      (fun term => { term := term, type := .mappedTerm, group := groupIndex,
                     color := mapping.mappedColor, length := term.length })

/-- The list `termsToHighlight` before sorting, for the mappings at indexes
`groupIndex, groupIndex + 1, ...`. -/
def collectEntries : List Mapping → Nat → List TermEntry
  | [], _ => []
  | mapping :: rest, groupIndex =>
    entriesOfMapping mapping groupIndex ++ collectEntries rest (groupIndex + 1)

/-- The comparator `(a, b) => b.length - a.length` read as an order: `a` may stand before
`b` when the difference is not positive. -/
def longerFirst (a b : TermEntry) : Prop := b.length ≤ a.length

instance : DecidableRel longerFirst := fun a b => inferInstanceAs (Decidable (b.length ≤ a.length))

instance : IsTotal TermEntry longerFirst := ⟨fun a b => by unfold longerFirst; omega⟩

instance : IsTrans TermEntry longerFirst := ⟨fun a b c h1 h2 => by unfold longerFirst at *; omega⟩

/-- The function `getTermsToHighlight()`, on the value of `currentMappings`.
`Array.prototype.sort` is stable, so it is the insertion sort by the comparator. -/
def getTermsToHighlight (currentMappings : List Mapping) : List TermEntry :=
  (collectEntries currentMappings 0).insertionSort longerFirst

/-! ## Segmenting one text value (`processTextNode`, lines 243 to 300) -/

/-- A node pushed on `fragments`: a text node from `createTextNode`, or the highlight
`span` with the class `multi-find-highlight <type> group-<group>`, the background `color`
and `textContent = matchedText`. -/
inductive Frag where
  | textNode (data : JSString)
  | span (type : TermType) (group : Nat) (color : String) (textContent : JSString)
deriving DecidableEq, Repr

/-- The text a fragment node carries. -/
def Frag.text : Frag → JSString
  | .textNode data => data
  | .span _ _ _ textContent => textContent

/-- A fragment is a highlight span. -/
def Frag.isSpan : Frag → Bool
  | .textNode _ => false
  | .span _ _ _ _ => true

/-- The text of a fragment sequence: the concatenation of its nodes' text. -/
def fragsText (fragments : List Frag) : JSString :=
  (fragments.map Frag.text).flatten

/-- The method `text.substring(start, stop)` for `start <= stop`. -/
def substring (text : JSString) (start stop : Nat) : JSString :=
  (text.drop start).take (stop - start)

/-- The `regexCache` map: cache key to the source of the cached regex (all have flags `gi`). -/
abbrev RegexCache := List (JSString × JSString)

/-- The cache key, the template literal of `group`, `term` and `type` joined by `-`. -/
def cacheKey (group : Nat) (term : JSString) (type : TermType) : JSString :=
  (Nat.toDigits 10 group) ++ '-' :: (term ++ '-' :: type.str.toList)

/-- The local variables of `processTextNode` that the loops update, with the cache. -/
structure ScanState where
  regexCache : RegexCache
  lastIndex : Nat
  matched : Bool
  fragments : List Frag
deriving DecidableEq, Repr

/-- The `while ((match = regex.exec(text)) !== null)` loop for one entry, at most `fuel`
iterations.  Line 262 and line 291 set `regex.lastIndex = lastIndex` before every `exec`, so
each search starts at `lastIndex`.  (`scanLoop_exit` shows that the loop entered with
`text.length + 1` iterations to spare always ends by `exec` returning `null`.) -/
def scanLoop (canon : Char → Char) (text source : JSString) (e : TermEntry) :
    Nat → ScanState → ScanState
  | 0, st => st
  | fuel + 1, st =>
    match regexExec canon source text st.lastIndex with
    | none => st
    | some (start, matchedText) =>
      let stop := start + matchedText.length
      if st.lastIndex ≤ start ∧ stop ≤ text.length then
        scanLoop canon text source e fuel
          { regexCache := st.regexCache
            lastIndex := stop
            matched := true
            fragments :=
              (if st.lastIndex < start then
                  st.fragments ++ [Frag.textNode (substring text st.lastIndex start)]
                else st.fragments) ++ [Frag.span e.type e.group e.color matchedText] }
      else st

/-- The body of `termsToHighlight.forEach` for one entry: the guard, the cache lookup
or the construction of the regex, and the scan loop. -/
def highlightTerm (canon : Char → Char) (text : JSString) (st : ScanState) (e : TermEntry) :
    ScanState :=
  if e.term.isEmpty || text.length ≤ st.lastIndex then st
  else
    let key := cacheKey e.group e.term e.type
    match st.regexCache.lookup key with
    | some regex => scanLoop canon text regex e (text.length + 1) st
    | none =>
      let regex := escapeRegExp e.term
      scanLoop canon text regex e (text.length + 1)
        { st with regexCache := (key, regex) :: st.regexCache }

/-- Lines 243 to 300 of `processTextNode`: the `forEach` over the entries, then the
trailing text node.  The result holds `matched`, the final `fragments` and the cache. -/
def buildFragments (canon : Char → Char) (regexCache : RegexCache) (text : JSString)
    (termsToHighlight : List TermEntry) : ScanState :=
  let st := termsToHighlight.foldl (highlightTerm canon text)
    { regexCache := regexCache, lastIndex := 0, matched := false, fragments := [] }
  if st.lastIndex < text.length then
    { st with fragments := st.fragments ++ [Frag.textNode (substring text st.lastIndex text.length)] }
  else st


/-- Every cached regex was compiled from the term of its key (what line 258 and 259 store). -/
def CacheOk (c : RegexCache) : Prop :=
  ∀ k src, (k, src) ∈ c → ∃ g t ty, k = cacheKey g t ty ∧ src = escapeRegExp t

/-- The coverage invariant of the scan: the fragments built so far spell `text[0 .. lastIndex)`. -/
def Covers (text : JSString) (st : ScanState) : Prop :=
  st.lastIndex ≤ text.length ∧ fragsText st.fragments = text.take st.lastIndex

/-- The fragment `f` of the sequence starts at offset `p` of the text the sequence spells. -/
def FragAt (fragments : List Frag) (p : Nat) (f : Frag) : Prop :=
  ∃ pre post, fragments = pre ++ f :: post ∧ (fragsText pre).length = p

/-- The literal `lit` has no occurrence in `text` at an index from `c` on. -/
def NoOcc (canon : Char → Char) (text lit : JSString) (c : Nat) : Prop :=
  ∀ j, c ≤ j → j ≤ text.length → matchesAt canon lit text j = false

/-- A span starting at offset `p` was made for an entry of `entries` that occurs at `p`, spells
the text found there, and is as long as any entry of `entries` occurring at `p`. -/
def GoodSpan (canon : Char → Char) (text : JSString) (entries : List TermEntry) (p : Nat) :
    Frag → Prop
  | .textNode _ => True
  | .span ty g col s =>
    ∃ e ∈ entries, e.type = ty ∧ e.group = g ∧ e.color = col ∧
      matchesAt canon e.term text p = true ∧ s = substring text p (p + e.term.length) ∧
      ∀ e2 ∈ entries, matchesAt canon e2.term text p = true → e2.term.length ≤ e.term.length

/-- The invariant of the `forEach` over the entries, `done` being the entries already visited. -/
structure PriorityInv (canon : Char → Char) (text : JSString) (done : List TermEntry)
    (st : ScanState) : Prop where
  covers : Covers text st
  cache : CacheOk st.regexCache
  noOcc : ∀ e ∈ done, NoOcc canon text e.term st.lastIndex
  good : ∀ p f, FragAt st.fragments p f → GoodSpan canon text done p f


/-! ## The document -/

/-- A DOM node.  Every node object has an identity `id`; an element carries its `tagName`, its
`classList`, the names of its other attributes, its inline `style` and its child nodes.
`tagName` is the string the DOM reports: upper case for an HTML element of an HTML document
(`DIV`, `SCRIPT`), the name as written for an element of another namespace, such as the
inline SVG elements `svg` and `text`. -/
inductive Node where
  | text (id : Nat) (nodeValue : JSString)
  | comment (id : Nat) (nodeValue : JSString)
  | element (id : Nat) (tagName : String) (classList : List String) (attributes : List String)
      (style : List (String × String)) (children : List Node)
deriving Repr

/-- The identity of a node object. -/
def Node.id : Node → Nat
  | .text id _ => id
  | .comment id _ => id
  | .element id _ _ _ _ _ => id

/-- The class every highlight span carries. -/
def highlightClass : String := "multi-find-highlight"

/-- The tag names `walkTextNodes` never enters. -/
def excludedTags : List String :=
  ["SCRIPT", "STYLE", "NOSCRIPT", "IFRAME", "OBJECT", "SVG", "CANVAS"]

/-- The attribute that opts an element out. -/
def ignoreAttribute : String := "data-multi-find-ignore"

/-- The code units `String.prototype.trim` strips: `WhiteSpace` and `LineTerminator`. -/
def isWhiteSpace (c : Char) : Bool :=
  let n := c.toNat
  n = 9 || n = 10 || n = 11 || n = 12 || n = 13 || n = 32 || n = 160 || n = 5760 ||
  (8192 ≤ n && n ≤ 8202) || n = 8232 || n = 8233 || n = 8239 || n = 8287 || n = 12288 ||
  n = 65279

/-- The test `node.classList.contains('multi-find-highlight')`, false for a non-element. -/
def Node.isHighlight : Node → Bool
  | .element _ _ classList _ _ _ => classList.contains highlightClass
  | _ => false

mutual
/-- The function `walkTextNodes(node, callback)`: the identities of the nodes `callback` is
called on, in call order. -/
def walkTextNodes : Node → List Nat
  | .comment _ _ => []
  | .element _ tagName classList attributes _ children =>
    if classList.contains highlightClass || excludedTags.contains tagName then []
    else if attributes.contains ignoreAttribute then []
    else walkChildren children
  | .text id nodeValue => if nodeValue.all isWhiteSpace then [] else [id]
/-- The `while (child)` loop of `walkTextNodes` over a child list. -/
def walkChildren : List Node → List Nat
  | [] => []
  | child :: rest => walkTextNodes child ++ walkChildren rest
end

mutual
/-- The node object with identity `id` in the subtree of a node. -/
def findNode (id : Nat) : Node → Option Node
  | .text i v => if i = id then some (.text i v) else none
  | .comment i v => if i = id then some (.comment i v) else none
  | .element i t c a s children =>
    if i = id then some (.element i t c a s children) else findNodeList id children
/-- The node object with identity `id` in a list of subtrees. -/
def findNodeList (id : Nat) : List Node → Option Node
  | [] => none
  | n :: rest =>
    match findNode id n with
    | some r => some r
    | none => findNodeList id rest
end

mutual
/-- The parent (`parentNode`) of the node `id`, when `id` lies strictly below the given node. -/
def parentOf (id : Nat) : Node → Option Node
  | .element i t c a s children => parentOfList id (.element i t c a s children) children
  | _ => none
/-- The parent of the node `id` searched among the children of `parent` and below them. -/
def parentOfList (id : Nat) (parent : Node) : List Node → Option Node
  | [] => none
  | n :: rest =>
    if n.id = id then some parent
    else
      match parentOf id n with
      | some r => some r
      | none => parentOfList id parent rest
end

mutual
/-- The call `parent.replaceChild(fragment, old)` seen from the root of the tree: the child
`old` of its parent makes way for the children `new` of the fragment. -/
def replaceIn (old : Nat) (new : List Node) : Node → Node
  | .element i t c a s children => .element i t c a s (replaceInList old new children)
  | n => n
/-- The replacement of the node `old` in a child list, or below it. -/
def replaceInList (old : Nat) (new : List Node) : List Node → List Node
  | [] => []
  | n :: rest =>
    if n.id = old then new ++ rest
    else replaceIn old new n :: replaceInList old new rest
end

mutual
/-- Removes every child of the element `id` (the effect on it of moving its children away). -/
def clearChildren (id : Nat) : Node → Node
  | .element i t c a s children =>
    if i = id then .element i t c a s [] else .element i t c a s (clearChildrenList id children)
  | n => n
/-- The list version of `clearChildren`. -/
def clearChildrenList (id : Nat) : List Node → List Node
  | [] => []
  | n :: rest => clearChildren id n :: clearChildrenList id rest
end

mutual
/-- The method `cloneNode(true)`: a deep copy made of new node objects, whose identities are
taken from `next` on. -/
def cloneNode : Node → Nat → Node × Nat
  | .text _ v, next => (.text next v, next + 1)
  | .comment _ v, next => (.comment next v, next + 1)
  | .element _ t c a s children, next =>
    let r := cloneList children (next + 1)
    (.element next t c a s r.1, r.2)
/-- The deep copy of a child list. -/
def cloneList : List Node → Nat → List Node × Nat
  | [], next => ([], next)
  | n :: rest, next =>
    let r1 := cloneNode n next
    let r2 := cloneList rest r1.2
    (r1.1 :: r2.1, r2.2)
end

mutual
/-- The result of `querySelectorAll('.multi-find-highlight')` below and at a node: the
identities of the elements with the class, in document order. -/
def queryHighlights : Node → List Nat
  | .element i _ classList _ _ children =>
    (if classList.contains highlightClass then [i] else []) ++ queryHighlightsList children
  | _ => []
/-- The list version of `queryHighlights`. -/
def queryHighlightsList : List Node → List Nat
  | [] => []
  | n :: rest => queryHighlights n ++ queryHighlightsList rest
end

mutual
/-- The text content of a subtree: its text nodes' values in document order. -/
def textContent : Node → JSString
  | .text _ v => v
  | .comment _ _ => []
  | .element _ _ _ _ _ children => textContentList children
/-- The text content of a list of subtrees. -/
def textContentList : List Node → JSString
  | [] => []
  | n :: rest => textContent n ++ textContentList rest
end

/-- The child nodes of a node object (`childNodes`), empty for a non-element. -/
def Node.children : Node → List Node
  | .element _ _ _ _ _ children => children
  | _ => []

/-- The DOM nodes of the `fragments` array: a text node for a plain piece, and for a match the
`span` with its class name, its inline style and, through `textContent`, one text child.  New
node objects take their identities from `next` on. -/
def materialize : List Frag → Nat → List Node × Nat
  | [], next => ([], next)
  | .textNode data :: rest, next =>
    let r := materialize rest (next + 1)
    (.text next data :: r.1, r.2)
  | .span type group color matchedText :: rest, next =>
    let r := materialize rest (next + 2)
    (.element next "SPAN" [highlightClass, type.str, "group-" ++ toString group] []
        [("background-color", color), ("box-shadow", "0 0 0 1px " ++ color),
         ("font-family", "inherit"), ("font-size", "inherit"), ("line-height", "inherit"),
         ("letter-spacing", "inherit")]
        (if matchedText.isEmpty then [] else [.text (next + 1) matchedText]) :: r.1, r.2)

/-! ## The engine: globals of the content script, the page and the host's idle queue -/

/-- A callback registered with `requestIdleCallback` and not yet run. -/
inductive IdleTask where
  | applyHighlights
  | processNextChunk (textNodes : List Nat) (index : Nat) (termsToHighlight : List TermEntry)
  | processNewContent (nodes : List (Option Nat))
deriving Repr

/-- The state the content script runs in: its four globals (the observer is left out), the
page (`document.body`, the subtrees that left the document but are still referenced, the
next fresh node identity), the pending idle callbacks and the number of exceptions that
reached the host uncaught. -/
structure Engine where
  currentMappings : List Mapping
  regexCache : RegexCache
  isProcessing : Bool
  body : Node
  detached : List Node
  nextId : Nat
  idleQueue : List IdleTask
  uncaught : Nat
deriving Repr

/-- The node object with identity `id`, in the document or detached. -/
def Engine.node (s : Engine) (id : Nat) : Option Node :=
  findNodeList id (s.body :: s.detached)

/-- The `parentNode` of the node `id`: `none` stands for `null`. -/
def Engine.parentNode (s : Engine) (id : Nat) : Option Node :=
  (s.body :: s.detached).findSome? (parentOf id)

/-- The function `processTextNode(textNode, termsToHighlight)`.  `Except.error` is a thrown
`TypeError` (line 305 on a `parentNode` that is `null`), with the state reached when it is
thrown. -/
def processTextNode (canon : Char → Char) (s : Engine) (textNode : Nat)
    (termsToHighlight : List TermEntry) : Except Engine Engine :=
  match s.node textNode with
  | some (.text _ text) =>
    let parentNode := s.parentNode textNode
    if (match parentNode with
        | some p => p.isHighlight
        | none => false) then .ok s
    else
      let st := buildFragments canon s.regexCache text termsToHighlight
      let s1 := { s with regexCache := st.regexCache }
      if st.matched && decide (0 < st.fragments.length) then
        match parentNode with
        | none => .error s1
        | some _ =>
          let r := materialize st.fragments s.nextId
          .ok { s1 with body := replaceIn textNode r.1 s.body
                        detached := replaceInList textNode r.1 s.detached
                        nextId := r.2 }
      else .ok s1
  | _ => .ok s

/-- The `forEach`/`while` application of `processTextNode` to the nodes of a list, in order,
stopping at the first exception. -/
def processAll (canon : Char → Char) (termsToHighlight : List TermEntry) :
    List Nat → Engine → Except Engine Engine
  | [], s => .ok s
  | textNode :: rest, s =>
    match processTextNode canon s textNode termsToHighlight with
    | .error s1 => .error s1
    | .ok s1 => processAll canon termsToHighlight rest s1

/-- The function `processNextChunk(deadline)` of one pass.  `deadline` is the number of times
`deadline.timeRemaining() > 10` holds during the call. -/
def processNextChunk (canon : Char → Char) (textNodes : List Nat)
    (termsToHighlight : List TermEntry) : Nat → Nat → Engine → Except Engine Engine
  | 0, index, s =>
    if index < textNodes.length then
      .ok { s with idleQueue :=
        s.idleQueue ++ [IdleTask.processNextChunk textNodes index termsToHighlight] }
    else .ok { s with isProcessing := false }
  | deadline + 1, index, s =>
    match textNodes[index]? with
    | some textNode =>
      match processTextNode canon s textNode termsToHighlight with
      | .error s1 => .error s1
      | .ok s1 => processNextChunk canon textNodes termsToHighlight deadline (index + 1) s1
    | none => .ok { s with isProcessing := false }

/-- The function `applyHighlights()`.  Nothing in its `try` block throws on a well-typed
mapping list and an existing body, so the `catch` branch is not entered; the chunks run
later, from the idle queue, outside the `try`. -/
def applyHighlights (s : Engine) : Engine :=
  if s.currentMappings.length = 0 || s.isProcessing then s
  else
    let termsToHighlight := getTermsToHighlight s.currentMappings
    let textNodes := walkTextNodes s.body
    { s with isProcessing := true
             idleQueue := s.idleQueue ++ [IdleTask.processNextChunk textNodes 0 termsToHighlight] }

/-- The body of `nodes.forEach` in `processNewContent`, over the remaining nodes: each node is
walked when its turn comes, then its text nodes are processed.  A `null` node makes
`walkTextNodes` throw. -/
def processNodes (canon : Char → Char) (termsToHighlight : List TermEntry) :
    List (Option Nat) → Engine → Except Engine Engine
  | [], s => .ok s
  | none :: _, s => .error s
  | some node :: rest, s =>
    let textNodes :=
      match s.node node with
      | some n => walkTextNodes n
      | none => []
    match processAll canon termsToHighlight textNodes s with
    | .error s1 => .error s1
    | .ok s1 => processNodes canon termsToHighlight rest s1

/-- The function `processNewContent(nodes)`. -/
def processNewContent (canon : Char → Char) (nodes : List (Option Nat)) (s : Engine) :
    Except Engine Engine :=
  if s.isProcessing || s.currentMappings.length = 0 then .ok s
  else processNodes canon (getTermsToHighlight s.currentMappings) nodes s

/-- One step of `highlights.forEach` in `removeAllHighlights`, on the document body, the
contents of the one `fragment` and the fresh identity counter: the children of `highlight`
move to the end of the fragment, then a deep copy of the whole fragment takes the place of
`highlight` in its parent.  (The parent of the body itself is not part of the model.) -/
def removeHighlight (st : Node × List Node × Nat) (highlight : Nat) : Node × List Node × Nat :=
  let body := st.1
  let fragment := st.2.1
  let moved :=
    match findNodeList highlight (body :: fragment) with
    | some h => h.children
    | none => []
  let body1 := clearChildren highlight body
  let fragment1 := clearChildrenList highlight fragment ++ moved
  let copy := cloneList fragment1 st.2.2
  (replaceIn highlight copy.1 body1, replaceInList highlight copy.1 fragment1, copy.2)

/-- The function `removeAllHighlights()`. -/
def removeAllHighlights (s : Engine) : Engine :=
  let r := (queryHighlights s.body).foldl removeHighlight (s.body, [], s.nextId)
  { s with body := r.1, nextId := r.2.2 }

/-- The `chrome.runtime.onMessage` listener for a request with `action === 'updateData'`;
`mappings` is `request.mappings || []`. -/
def onUpdateData (mappings : List Mapping) (s : Engine) : Engine :=
  let s1 := if s.isProcessing then removeAllHighlights s else s
  let s2 := { s1 with currentMappings := mappings, regexCache := [] }
  if 0 < s2.currentMappings.length then
    { s2 with idleQueue := s2.idleQueue ++ [IdleTask.applyHighlights] }
  else removeAllHighlights s2

/-- A record of the batch a `MutationObserver` callback receives (the observer watches
`childList` and `characterData` over the subtree of the body). -/
inductive MutationRecord where
  | childList (addedNodes : List Nat)
  | characterData (target : Nat)
deriving Repr

/-- The nodes one record contributes to `addedNodes`: the added element nodes, or the parent
of a changed text node (`null` when it has none). -/
def affectedNodes (s : Engine) : MutationRecord → List (Option Nat)
  | .childList addedNodes =>
    (addedNodes.filter (fun id =>
      match s.node id with
      | some (.element _ _ _ _ _ _) => true
      | _ => false)).map some
  | .characterData target =>
    match s.node target with
    | some (.text _ _) => [(s.parentNode target).map Node.id]
    | _ => []

/-- The `MutationObserver` callback. -/
def onMutations (mutations : List MutationRecord) (s : Engine) : Engine :=
  let addedNodes := mutations.flatMap (affectedNodes s)
  if 0 < addedNodes.length && 0 < s.currentMappings.length then
    { s with idleQueue := s.idleQueue ++ [IdleTask.processNewContent addedNodes] }
  else s

/-- The host runs the oldest pending idle callback, with the given `deadline`.  An exception
the callback lets escape ends it and is reported by the host; nothing else is undone. -/
def runIdle (canon : Char → Char) (deadline : Nat) (s : Engine) : Engine :=
  match s.idleQueue with
  | [] => s
  | task :: rest =>
    let s0 := { s with idleQueue := rest }
    match task with
    | .applyHighlights => applyHighlights s0
    | .processNextChunk textNodes index termsToHighlight =>
      match processNextChunk canon textNodes termsToHighlight deadline index s0 with
      | .ok s1 => s1
      | .error s1 => { s1 with uncaught := s1.uncaught + 1 }
    | .processNewContent nodes =>
      match processNewContent canon nodes s0 with
      | .ok s1 => s1
      | .error s1 => { s1 with uncaught := s1.uncaught + 1 }

/-- The full pass as one uninterrupted run: the nodes `walkTextNodes(document.body)` collects,
each given to `processTextNode` in order. -/
def highlightPass (canon : Char → Char) (termsToHighlight : List TermEntry) (s : Engine) :
    Except Engine Engine :=
  processAll canon termsToHighlight (walkTextNodes s.body) s

/-! ## Concrete inputs -/

/-- The runtime's `Canonicalize` on ASCII code units, where it is `toUpperCase`; used for the
concrete ASCII inputs only. -/
def canonicalizeAscii (c : Char) : Char := c.toUpper

/-- The mapping set of the scenario: `foo` mapped to `bar`, colours `#111` and `#222`. -/
def fooBarMappings : List Mapping :=
  [{ searchTerms := ["foo".toList], mappedTerms := ["bar".toList],
     searchColor := "#111", mappedColor := "#222" }]

/-- A page script takes the node `id` out of the document (`node.remove()`); the node object
stays alive, detached, as long as something references it. -/
def pageRemoveNode (id : Nat) (s : Engine) : Engine :=
  match findNode id s.body with
  | some n => { s with body := replaceIn id [] s.body, detached := n :: s.detached }
  | none => s

/-- An engine at rest on a page: no cache, no pending callback. -/
def idleEngine (currentMappings : List Mapping) (body : Node) (nextId : Nat) : Engine :=
  { currentMappings := currentMappings, regexCache := [], isProcessing := false, body := body,
    detached := [], nextId := nextId, idleQueue := [], uncaught := 0 }

/-- The state an `Except` result carries, thrown or not. -/
def stateOf : Except Engine Engine → Engine
  | .ok s => s
  | .error s => s

/-- The mapping set of the witness of C3: `ab` with the longer `abc` as mapped term. -/
def abAbcMappings : List Mapping :=
  [{ searchTerms := ["ab".toList], mappedTerms := ["abc".toList],
     searchColor := "#111", mappedColor := "#222" }]

/-- A mapping set with one search term, `foo`. -/
def fooMappings : List Mapping :=
  [{ searchTerms := ["foo".toList], mappedTerms := [],
     searchColor := "#111", mappedColor := "#222" }]

/-- A mapping set with one search term, `qux`. -/
def quxMappings : List Mapping :=
  [{ searchTerms := ["qux".toList], mappedTerms := [],
     searchColor := "#333", mappedColor := "#444" }]

/-- A mapping set with the one-letter terms `a` and `b`. -/
def abMappings : List Mapping :=
  [{ searchTerms := ["a".toList], mappedTerms := ["b".toList],
     searchColor := "#111", mappedColor := "#222" }]

/-- The entry for `Cat` used in the case-insensitivity examples. -/
def catEntry : TermEntry :=
  { term := "Cat".toList, type := .searchTerm, group := 0, color := "#fff34d", length := 3 }

/-- The style of a highlight span of the given colour. -/
def spanStyle (color : String) : List (String × String) :=
  [("background-color", color), ("box-shadow", "0 0 0 1px " ++ color),
   ("font-family", "inherit"), ("font-size", "inherit"), ("line-height", "inherit"),
   ("letter-spacing", "inherit")]

/-- A body with the single text node `ab`. -/
def abBody : Node := .element 0 "BODY" [] [] [] [.text 1 "ab".toList]

/-- A body whose only paragraph lies inside a `div` carrying `data-multi-find-ignore`. -/
def ignoredBody : Node :=
  .element 0 "BODY" [] [] []
    [.element 1 "DIV" [] [ignoreAttribute] [] [.element 2 "P" [] [] [] [.text 3 "foo".toList]]]

/-- A body with two paragraphs, each holding the text `foo`. -/
def twoFooBody : Node :=
  .element 0 "BODY" [] [] []
    [.element 1 "P" [] [] [] [.text 2 "foo".toList],
     .element 3 "P" [] [] [] [.text 4 "foo".toList]]

/-- A body with two paragraphs, `foo` and `foo qux`. -/
def fooQuxBody : Node :=
  .element 0 "BODY" [] [] []
    [.element 1 "P" [] [] [] [.text 2 "foo".toList],
     .element 3 "P" [] [] [] [.text 4 "foo qux".toList]]

/-- An `Except` result is a normal return. -/
def returned : Except Engine Engine → Bool
  | .ok _ => true
  | .error _ => false

/-- The highlight span `processTextNode` makes for a search term of group 0. -/
def searchSpan (id : Nat) (color : String) (matchedText : JSString) : Node :=
  .element id "SPAN" [highlightClass, "search-term", "group-0"] [] (spanStyle color)
    [.text (id + 1) matchedText]

/-! ## Well-formed documents -/

mutual
/-- The identities of all node objects of a subtree, in document order. -/
def nodeIds : Node → List Nat
  | .text i _ => [i]
  | .comment i _ => [i]
  | .element i _ _ _ _ children => i :: nodeIdsList children
/-- The identities of all node objects of a list of subtrees. -/
def nodeIdsList : List Node → List Nat
  | [] => []
  | n :: rest => nodeIds n ++ nodeIdsList rest
end

mutual
/-- The text nodes `walkTextNodes` reports, each with its value. -/
def visibleTexts : Node → List (Nat × JSString)
  | .comment _ _ => []
  | .element _ tagName classList attributes _ children =>
    if classList.contains highlightClass || excludedTags.contains tagName then []
    else if attributes.contains ignoreAttribute then []
    else visibleTextsList children
  | .text id nodeValue => if nodeValue.all isWhiteSpace then [] else [(id, nodeValue)]
/-- The list version of `visibleTexts`. -/
def visibleTextsList : List Node → List (Nat × JSString)
  | [] => []
  | child :: rest => visibleTexts child ++ visibleTextsList rest
end

/-- The node is an element (`nodeType === Node.ELEMENT_NODE`). -/
def Node.isElement : Node → Bool
  | .element _ _ _ _ _ _ => true
  | _ => false

/-- A page whose body is an element, whose node objects are pairwise distinct and older than
the next identity, with nothing detached. -/
def WellFormed (s : Engine) : Prop :=
  s.body.isElement = true ∧ s.detached = [] ∧ (nodeIds s.body).Nodup ∧
    ∀ i ∈ nodeIds s.body, i < s.nextId

/-- A body with the single text node `foo and bar and foobar`. -/
def fooBarBody : Node := .element 0 "BODY" [] [] [] [.text 1 "foo and bar and foobar".toList]

/-- The entry `getTermsToHighlight` makes for the search term `foo` of `fooMappings`. -/
def fooEntry : TermEntry :=
  { term := "foo".toList, type := .searchTerm, group := 0, color := "#111", length := 3 }

/-! ## The term index in the words of the specification -/

/-- What the specification lets the mapping at index `g` emit: one entry per non-empty search
term in order (role search, the mapping's search colour), then one entry per non-empty mapped
term in order (role mapped, the mapping's mapped colour). -/
def emittedBy (gm : Nat × Mapping) : List TermEntry :=
  (gm.2.searchTerms.filter (fun term => decide (term ≠ []))).map
      (fun term => { term := term, type := .searchTerm, group := gm.1,
                     color := gm.2.searchColor, length := term.length }) ++
  (gm.2.mappedTerms.filter (fun term => decide (term ≠ []))).map
      (fun term => { term := term, type := .mappedTerm, group := gm.1,
                     color := gm.2.mappedColor, length := term.length })

/-- The emission sequence as the specification words it: the entries emitted by each mapping
with its index, in the order of the mappings. -/
def emissionSequence (mappings : List Mapping) : List TermEntry :=
  mappings.enum.flatMap emittedBy

/-- The entries of the given length, in the order they have in the list. -/
def entriesOfLength (n : Nat) (entries : List TermEntry) : List TermEntry :=
  entries.filter (fun e => decide (e.length = n))

/-- A mapping set with an empty term and ties of length: `ab`, the empty term and `c` mapped
to `xyz` and `de`, then `fg` without mapped terms. -/
def tieMappings : List Mapping :=
  [{ searchTerms := ["ab".toList, [], "c".toList], mappedTerms := ["xyz".toList, "de".toList],
     searchColor := "#111", mappedColor := "#222" },
   { searchTerms := ["fg".toList], mappedTerms := [],
     searchColor := "#333", mappedColor := "#444" }]

/-! ## The text walk as a filter of the text leaves -/

/-- A node at which `walkTextNodes` returns before visiting anything below it (lines 311 to
322): a comment node, an element with the class `multi-find-highlight`, an element whose
`tagName` is one of the strings of `excludedTags`, an element with the attribute
`data-multi-find-ignore`. -/
def stopsWalk : Node → Bool
  | .comment _ _ => true
  | .text _ _ => false
  | .element _ tagName classList attributes _ _ =>
    classList.contains highlightClass || excludedTags.contains tagName ||
      attributes.contains ignoreAttribute

mutual
/-- Every text leaf of a subtree in depth-first document order, with the chain of its
ancestors inside the walked tree, nearest first; `chain` holds the ancestors of the node. -/
def textLeaves (chain : List Node) : Node → List (List Node × Nat × JSString)
  | .text id nodeValue => [(chain, id, nodeValue)]
  | .comment _ _ => []
  | .element i t c a s children =>
    textLeavesList (.element i t c a s children :: chain) children
/-- The text leaves of a list of subtrees, in order. -/
def textLeavesList (chain : List Node) : List Node → List (List Node × Nat × JSString)
  | [] => []
  | n :: rest => textLeaves chain n ++ textLeavesList chain rest
end

/-- A text leaf the code visits: its content is not entirely white space and the walk returns
early at no node of its ancestor chain. -/
def visitedLeaf (leaf : List Node × Nat × JSString) : Bool :=
  !(leaf.2.2.all isWhiteSpace) && leaf.1.all (fun ancestor => !stopsWalk ancestor)

/-! ## The text walk in the words of the specification -/

/-- The exclusion set of the specification: script, style, noscript, iframe, object, svg and
canvas elements. -/
def excludedElements : List String :=
  ["script", "style", "noscript", "iframe", "object", "svg", "canvas"]

/-- An element name without regard to letter case. -/
def lowerCaseName (tagName : String) : String :=
  String.mk (tagName.toList.map Char.toLower)

/-- An element whose tag is in the exclusion set of the specification, whatever the letter
case in which the DOM reports its name. -/
def hasExcludedTag (tagName : String) : Bool :=
  excludedElements.contains (lowerCaseName tagName)

/-- A node below which the specification lets the walk visit nothing: a comment node, an
element tagged as already highlighted, an element whose tag is in the exclusion set, an
element marked opt-out. -/
def blocksWalk : Node → Bool
  | .comment _ _ => true
  | .text _ _ => false
  | .element _ tagName classList attributes _ _ =>
    classList.contains highlightClass || hasExcludedTag tagName ||
      attributes.contains ignoreAttribute

/-- A text leaf the specification lets the walk visit: its content is not entirely white space
and no node of its ancestor chain blocks the walk. -/
def eligibleLeaf (leaf : List Node × Nat × JSString) : Bool :=
  !(leaf.2.2.all isWhiteSpace) && leaf.1.all (fun ancestor => !blocksWalk ancestor)

/-- A tree with an excluded tag, a comment, an ignored element, a highlight span and white
space next to two eligible text leaves. -/
def walkBody : Node :=
  .element 0 "BODY" [] [] []
    [.text 1 "one".toList,
     .element 2 "SCRIPT" [] [] [] [.text 3 "code".toList],
     .comment 4 "note".toList,
     .element 5 "DIV" [] [] []
       [.text 6 "  ".toList,
        .element 7 "SPAN" [highlightClass] [] [] [.text 8 "hit".toList],
        .element 9 "P" [] [ignoreAttribute] [] [.text 10 "skip".toList],
        .text 11 "two".toList]]

/-- A body holding an inline SVG image with the text `foo`: the DOM reports the tag names of
the SVG elements in lower case. -/
def svgBody : Node :=
  .element 0 "BODY" [] [] []
    [.element 1 "svg" [] [] [] [.element 2 "text" [] [] [] [.text 3 "foo".toList]]]

/-! ## Stored and imported records, and their normalization -/

/-- A record of `data.mappings` or of an imported file, in the legacy shape (scalar
`mappedTerm`) or the current one (`mappedTerms`); `none` is an absent field. -/
structure RawMapping where
  searchTerms : Option (List JSString)
  mappedTerm : Option JSString
  mappedTerms : Option (List JSString)
  searchColor : Option String
  mappedColor : Option String
deriving DecidableEq, Repr

/-- The expression `color || fallback`: an absent or empty colour gives the fallback. -/
def colorOr (color : Option String) (fallback : String) : String :=
  match color with
  | some c => if c = "" then fallback else c
  | none => fallback

/-- The test `mapping.mappedTerm && !mapping.mappedTerms`: a non-empty scalar and no array
(an array, even an empty one, is truthy). -/
def isLegacyRecord (mapping : RawMapping) : Bool :=
  (match mapping.mappedTerm with
   | some term => !term.isEmpty
   | none => false) && mapping.mappedTerms.isNone

/-- The callback of `data.mappings.map` in `initHighlighter` (content script, lines 42 to 58). -/
def normalizeStored (mapping : RawMapping) : Mapping :=
  if isLegacyRecord mapping then
    { searchTerms := mapping.searchTerms.getD []
      mappedTerms := [mapping.mappedTerm.getD []]
      searchColor := colorOr mapping.searchColor "#fff34d"
      mappedColor := colorOr mapping.mappedColor "#4dd0e1" }
  else
    { searchTerms := mapping.searchTerms.getD []
      mappedTerms := mapping.mappedTerms.getD []
      searchColor := colorOr mapping.searchColor "#fff34d"
      mappedColor := colorOr mapping.mappedColor "#4dd0e1" }

/-- The in-place migration of the popup (`mapping.mappedTerms = [mapping.mappedTerm]; delete
mapping.mappedTerm`). -/
def migrateRecord (mapping : RawMapping) : RawMapping :=
  if isLegacyRecord mapping then
    { mapping with mappedTerms := some [mapping.mappedTerm.getD []], mappedTerm := none }
  else mapping

/-- The object the popup builds from the migrated record. -/
def withDefaults (mapping : RawMapping) : Mapping :=
  { searchTerms := mapping.searchTerms.getD []
    mappedTerms := mapping.mappedTerms.getD []
    searchColor := colorOr mapping.searchColor "#fff34d"
    mappedColor := colorOr mapping.mappedColor "#4dd0e1" }

/-- The callback of `mappings.map` in the popup's `init` (popup.js, lines 33 to 47). -/
def normalizePopup (mapping : RawMapping) : Mapping :=
  withDefaults (migrateRecord mapping)

/-- The callback of `importData.mappings.map` in `handleFileImport` (popup.js, lines 490 to
505), the same statements as in `init`. -/
def normalizeImport (mapping : RawMapping) : Mapping :=
  withDefaults (migrateRecord mapping)

/-- The function `initHighlighter`, from the callback of `chrome.storage.local.get` on:
`stored` is `data.mappings` when it is an array.  `startMutationObserver` changes none of
the modelled state. -/
def initHighlighter (stored : Option (List RawMapping)) (s : Engine) : Engine :=
  let s1 :=
    match stored with
    | some mappings => { s with currentMappings := mappings.map normalizeStored }
    | none => s
  if 0 < s1.currentMappings.length then applyHighlights s1 else s1

/-- The mapping list of the popup after `init`: `stored` is `data.mappings` when it is an
array, else the list stays empty. -/
def popupInit (stored : Option (List RawMapping)) : List Mapping :=
  match stored with
  | some mappings => mappings.map normalizePopup
  | none => []

/-- The mapping list of the popup after `handleFileImport`: `imported` is
`importData.mappings` when it is an array, else the list stays as it was. -/
def popupImport (imported : Option (List RawMapping)) (mappings : List Mapping) :
    List Mapping :=
  match imported with
  | some records => records.map normalizeImport
  | none => mappings

/-- A record of the current shape whose two sequences are empty. -/
def emptyRecord : RawMapping :=
  { searchTerms := some [], mappedTerm := none, mappedTerms := some [],
    searchColor := none, mappedColor := none }

/-! ## Highlight removal: engine-made markers and the place of a node in the tree -/

mutual
/-- Every highlight span of the subtree is as `processTextNode` makes it: it holds a single
text node.  (Such spans are not nested.) -/
def engineMade : Node → Bool
  | .text _ _ => true
  | .comment _ _ => true
  | .element _ _ classList _ _ children =>
    if classList.contains highlightClass then
      (match children with
       | [.text _ _] => true
       | _ => false)
    else engineMadeList children
/-- The list version of `engineMade`. -/
def engineMadeList : List Node → Bool
  | [] => true
  | n :: rest => engineMade n && engineMadeList rest
end

mutual
/-- The outermost highlight spans of a subtree in document order, each with its text. -/
def markerTexts : Node → List (Nat × JSString)
  | .text _ _ => []
  | .comment _ _ => []
  | .element i _ classList _ _ children =>
    if classList.contains highlightClass then [(i, textContentList children)]
    else markerTextsList children
/-- The list version of `markerTexts`. -/
def markerTextsList : List Node → List (Nat × JSString)
  | [] => []
  | n :: rest => markerTexts n ++ markerTextsList rest
end

/-- New text nodes with the given values, their identities taken from `next` on: what
`cloneNode(true)` makes of a fragment that holds text nodes with these values. -/
def textCopies (next : Nat) : List JSString → List Node
  | [] => []
  | t :: rest => .text next t :: textCopies (next + 1) rest

/-- The revert in the words of the claim: the markers, taken in document order with their
texts, are replaced one after the other, the `k`-th by copies of the text nodes of the
markers 1 to `k`; `earlier` holds the texts of the markers already replaced. -/
def replaceMarkers : List (Nat × JSString) → List JSString → Nat → Node → Node × Nat
  | [], _, next, body => (body, next)
  | (marker, t) :: rest, earlier, next, body =>
    replaceMarkers rest (earlier ++ [t]) (next + earlier.length + 1)
      (replaceIn marker (textCopies next (earlier ++ [t])) body)

/-- The number of code units the revert adds to the text content: before the text of each
marker, the texts of all earlier markers. -/
def addedText : List JSString → List JSString → Nat
  | _, [] => 0
  | earlier, t :: rest => earlier.flatten.length + addedText (earlier ++ [t]) rest

/-- An element seen from one of its child positions: its own data and the children to the
left and to the right of the position. -/
structure Frame where
  id : Nat
  tagName : String
  classList : List String
  attributes : List String
  style : List (String × String)
  left : List Node
  right : List Node

/-- The element of a frame with the nodes `cur` at the position. -/
def Frame.close (f : Frame) (cur : List Node) : Node :=
  .element f.id f.tagName f.classList f.attributes f.style (f.left ++ cur ++ f.right)

/-- The tree around a position, innermost frame first, closed over the nodes `cur`. -/
def plugList : List Frame → List Node → List Node
  | [], cur => cur
  | f :: up, cur => plugList up [f.close cur]

/-- What a document-order listing `F` (with `hdr` for the element itself) yields before the
position. -/
def ctxPre {α : Type} (F : List Node → List α) (hdr : Frame → List α) : List Frame → List α
  | [] => []
  | f :: up => ctxPre F hdr up ++ (hdr f ++ F f.left)

/-- What a document-order listing `F` yields after the position. -/
def ctxPost {α : Type} (F : List Node → List α) : List Frame → List α
  | [] => []
  | f :: up => F f.right ++ ctxPost F up

/-- No frame is a highlight span, and the siblings in every frame are engine-made. -/
def ctxMade (up : List Frame) : Prop :=
  ∀ f ∈ up, f.classList.contains highlightClass = false ∧
    engineMadeList f.left = true ∧ engineMadeList f.right = true

/-- The text node of a pair of identity and value. -/
def textOf (p : Nat × JSString) : Node := .text p.1 p.2

/-- The invariant of `highlights.forEach` in `removeAllHighlights` on an engine-made
document: `remaining` are the markers still in the body, `earlier` the texts of the markers
already replaced, which are the values of the text nodes the fragment holds. -/
structure RevertInv (body : Node) (fragment : List Node) (next : Nat)
    (remaining : List (Nat × JSString)) (earlier : List JSString) : Prop where
  element : body.isElement = true
  notMarker : body.isHighlight = false
  made : engineMade body = true
  nodup : (nodeIds body).Nodup
  bound : ∀ x ∈ nodeIds body, x < next
  markers : markerTexts body = remaining
  fragment : ∃ pairs : List (Nat × JSString), fragment = pairs.map textOf ∧
    pairs.map Prod.snd = earlier ∧ ∀ p ∈ pairs, p.1 < next ∧ p.1 ∉ nodeIds body

/-- A body as a full pass leaves it: the spans for `a` and `b` in place of the text `ab`. -/
def abHighlighted : Node :=
  .element 0 "BODY" [] [] []
    [.element 2 "SPAN" [highlightClass, "search-term", "group-0"] [] (spanStyle "#111")
       [.text 3 "a".toList],
     .element 4 "SPAN" [highlightClass, "mapped-term", "group-0"] [] (spanStyle "#222")
       [.text 5 "b".toList]]
/-! ## Lemmas on the matcher -/

theorem fragsText_append (a b : List Frag) : fragsText (a ++ b) = fragsText a ++ fragsText b := by
  simp [fragsText]

theorem matchesAt_length {canon : Char → Char} {lit text : JSString} {i : Nat}
    (hi : i ≤ text.length) (h : matchesAt canon lit text i = true) :
    i + lit.length ≤ text.length := by
  unfold matchesAt at h
  have h1 := congrArg List.length (eq_of_beq h)
  simp only [List.length_map, List.length_take, List.length_drop] at h1
  omega

theorem regexExec_some {canon : Char → Char} {source text : JSString} {lastIndex start : Nat}
    {matchedText : JSString} (h : regexExec canon source text lastIndex = some (start, matchedText)) :
    ∃ lit, literalOfPattern source = some lit ∧ lastIndex ≤ start ∧ start ≤ text.length ∧
      matchesAt canon lit text start = true ∧
      matchedText = (text.drop start).take lit.length ∧
      ∀ j, lastIndex ≤ j → j < start → matchesAt canon lit text j = false := by
  unfold regexExec at h
  cases hl : literalOfPattern source with
  | none => simp [hl] at h
  | some lit =>
    simp only [hl, Option.map_eq_some'] at h
    obtain ⟨k, hk, hk2⟩ := h
    simp only [Prod.mk.injEq] at hk2
    obtain ⟨rfl, rfl⟩ := hk2
    rw [List.find?_range_eq_some] at hk
    obtain ⟨hp, hmem, hlt⟩ := hk
    rw [List.mem_range] at hmem
    refine ⟨lit, rfl, by omega, by omega, hp, rfl, ?_⟩
    intro j hj1 hj2
    have := hlt (j - lastIndex) (by omega)
    have e : lastIndex + (j - lastIndex) = j := by omega
    rw [e] at this
    simpa using this

theorem regexExec_none {canon : Char → Char} {source text lit : JSString} {lastIndex : Nat}
    (hl : literalOfPattern source = some lit)
    (h : regexExec canon source text lastIndex = none) :
    ∀ j, lastIndex ≤ j → j ≤ text.length → matchesAt canon lit text j = false := by
  unfold regexExec at h
  simp only [hl, Option.map_eq_none'] at h
  rw [List.find?_range_eq_none] at h
  intro j hj1 hj2
  have := h (j - lastIndex) (by omega)
  have e : lastIndex + (j - lastIndex) = j := by omega
  rw [e] at this
  simpa using this

theorem regexExec_matched_length {canon : Char → Char} {source text : JSString}
    {lastIndex start : Nat} {matchedText : JSString}
    (h : regexExec canon source text lastIndex = some (start, matchedText)) :
    start + matchedText.length ≤ text.length ∧ matchedText = substring text start (start + matchedText.length) := by
  obtain ⟨lit, _, _, h2, h3, h4, _⟩ := regexExec_some h
  have := matchesAt_length h2 h3
  subst h4
  have hl : ((text.drop start).take lit.length).length = lit.length := by
    simp only [List.length_take, List.length_drop]; omega
  refine ⟨by rw [hl]; exact this, ?_⟩
  unfold substring
  rw [hl]; simp

theorem take_append_substring (text : JSString) {a b : Nat} (h : a ≤ b) :
    text.take a ++ substring text a b = text.take b := by
  unfold substring
  have : b = a + (b - a) := by omega
  conv_rhs => rw [this, List.take_add]

theorem scanLoop_covers (canon : Char → Char) (text source : JSString) (e : TermEntry)
    (fuel : Nat) (st : ScanState) (h : Covers text st) :
    Covers text (scanLoop canon text source e fuel st) := by
  induction fuel generalizing st with
  | zero => exact h
  | succ fuel ih =>
    unfold scanLoop
    cases hx : regexExec canon source text st.lastIndex with
    | none => exact h
    | some p =>
      obtain ⟨start, matchedText⟩ := p
      simp only
      by_cases hc : st.lastIndex ≤ start ∧ start + matchedText.length ≤ text.length
      · rw [if_pos hc]
        apply ih
        obtain ⟨hlen, hsub⟩ := regexExec_matched_length hx
        refine ⟨hc.2, ?_⟩
        simp only
        rw [fragsText_append, ← take_append_substring text (Nat.le_add_right start matchedText.length),
          ← take_append_substring text hc.1, ← h.2]
        have hs : fragsText [Frag.span e.type e.group e.color matchedText] = matchedText := by
          simp [fragsText, Frag.text]
        rw [hs, ← hsub]
        by_cases hlt : st.lastIndex < start
        · rw [if_pos hlt, fragsText_append]; simp [fragsText, Frag.text]
        · rw [if_neg hlt]
          have hse : start = st.lastIndex := by omega
          subst hse
          simp [substring]
      · rw [if_neg hc]; exact h

theorem highlightTerm_covers (canon : Char → Char) (text : JSString) (st : ScanState)
    (e : TermEntry) (h : Covers text st) : Covers text (highlightTerm canon text st e) := by
  unfold highlightTerm
  split_ifs
  · exact h
  · simp only
    split
    · exact scanLoop_covers _ _ _ _ _ _ h
    · exact scanLoop_covers _ _ _ _ _ _ h

theorem foldl_highlightTerm_covers (canon : Char → Char) (text : JSString)
    (terms : List TermEntry) (st : ScanState) (h : Covers text st) :
    Covers text (terms.foldl (highlightTerm canon text) st) := by
  induction terms generalizing st with
  | nil => exact h
  | cons e rest ih => exact ih _ (highlightTerm_covers canon text st e h)

theorem buildFragments_text (canon : Char → Char) (regexCache : RegexCache) (text : JSString)
    (termsToHighlight : List TermEntry) :
    fragsText (buildFragments canon regexCache text termsToHighlight).fragments = text := by
  have h := foldl_highlightTerm_covers canon text termsToHighlight
    { regexCache := regexCache, lastIndex := 0, matched := false, fragments := [] }
    ⟨Nat.zero_le _, by simp [fragsText]⟩
  unfold buildFragments
  simp only
  split_ifs with hlt
  · simp only
    rw [fragsText_append, h.2]
    simp only [fragsText, Frag.text, List.map_cons, List.map_nil, List.flatten_cons,
      List.flatten_nil, List.append_nil]
    rw [take_append_substring text (Nat.le_of_lt hlt)]
    simp
  · rw [h.2]
    have := h.1
    apply List.take_of_length_le
    omega


/-! ## The escaped pattern is a literal -/

theorem not_syntax_ne_backslash {c : Char} (h : isSyntaxCharacter c = false) :
    c ≠ Char.ofNat 92 := by
  intro hc
  subst hc
  simp [isSyntaxCharacter] at h

theorem literalOfPattern_escapeRegExp (term : JSString) :
    literalOfPattern (escapeRegExp term) = some term := by
  induction term with
  | nil => rfl
  | cons c s ih =>
    unfold escapeRegExp
    cases hc : isSyntaxCharacter c with
    | true =>
      simp only [if_true]
      unfold literalOfPattern
      simp [hc, ih]
    | false =>
      have hne := not_syntax_ne_backslash hc
      simp only [Bool.false_eq_true, if_false]
      unfold literalOfPattern
      simp [hc, ih, hne]

/-! ## The cache key determines the term -/

theorem digitChar_ne_dash (n : Nat) : Nat.digitChar (n % 10) ≠ '-' := by
  have h : n % 10 < 10 := Nat.mod_lt _ (by decide)
  generalize n % 10 = d at h
  interval_cases d <;> decide

theorem toDigitsCore_no_dash (fuel n : Nat) (acc : List Char) (h : ∀ c ∈ acc, c ≠ '-') :
    ∀ c ∈ Nat.toDigitsCore 10 fuel n acc, c ≠ '-' := by
  induction fuel generalizing n acc with
  | zero => simpa [Nat.toDigitsCore] using h
  | succ fuel ih =>
    unfold Nat.toDigitsCore
    simp only
    split_ifs
    · intro c hc
      rcases List.mem_cons.1 hc with rfl | hc
      · exact digitChar_ne_dash _
      · exact h c hc
    · apply ih
      intro c hc
      rcases List.mem_cons.1 hc with rfl | hc
      · exact digitChar_ne_dash _
      · exact h c hc

theorem toDigits_no_dash (n : Nat) : ∀ c ∈ Nat.toDigits 10 n, c ≠ '-' :=
  toDigitsCore_no_dash _ _ [] (by simp)

theorem split_at_dash : ∀ (a b x y : List Char), (∀ c ∈ a, c ≠ '-') → (∀ c ∈ b, c ≠ '-') →
    a ++ '-' :: x = b ++ '-' :: y → a = b ∧ x = y
  | [], [], x, y, _, _, h => by simpa using h
  | [], d :: b, x, y, _, hb, h => by
    simp only [List.nil_append, List.cons_append, List.cons.injEq] at h
    exact absurd h.1.symm (hb d (List.mem_cons_self _ _))
  | c :: a, [], x, y, ha, _, h => by
    simp only [List.nil_append, List.cons_append, List.cons.injEq] at h
    exact absurd h.1 (ha c (List.mem_cons_self _ _))
  | c :: a, d :: b, x, y, ha, hb, h => by
    simp only [List.cons_append, List.cons.injEq] at h
    obtain ⟨h1, h2⟩ := split_at_dash a b x y
      (fun c hc => ha c (List.mem_cons_of_mem _ hc))
      (fun c hc => hb c (List.mem_cons_of_mem _ hc)) h.2
    exact ⟨by rw [h.1, h1], h2⟩

theorem cacheKey_term {g g2 : Nat} {t t2 : JSString} {ty ty2 : TermType}
    (h : cacheKey g t ty = cacheKey g2 t2 ty2) : t = t2 := by
  unfold cacheKey at h
  obtain ⟨_, h2⟩ := split_at_dash _ _ _ _ (toDigits_no_dash g) (toDigits_no_dash g2) h
  have h3 := List.append_inj' h2 (by cases ty <;> cases ty2 <;> rfl)
  exact h3.1

theorem lookup_of_cacheOk {c : RegexCache} (hc : CacheOk c) {g : Nat} {t : JSString}
    {ty : TermType} {src : JSString} (h : c.lookup (cacheKey g t ty) = some src) :
    src = escapeRegExp t := by
  have hmem : (cacheKey g t ty, src) ∈ c := by
    induction c with
    | nil => simp at h
    | cons p c ih =>
      obtain ⟨k, v⟩ := p
      rw [List.lookup_cons] at h
      cases hk : cacheKey g t ty == k with
      | true =>
        simp only [hk] at h
        have hk2 := eq_of_beq hk
        simp only [Option.some.injEq] at h
        subst h; subst hk2
        exact List.mem_cons_self _ _
      | false =>
        simp only [hk] at h
        exact List.mem_cons_of_mem _ (ih (fun k s hks => hc k s (List.mem_cons_of_mem _ hks)) h)
  obtain ⟨g2, t2, ty2, hk, hs⟩ := hc _ _ hmem
  rw [hs, cacheKey_term hk]

theorem cacheOk_cons {c : RegexCache} (hc : CacheOk c) (g : Nat) (t : JSString) (ty : TermType) :
    CacheOk ((cacheKey g t ty, escapeRegExp t) :: c) := by
  intro k s hks
  rcases List.mem_cons.1 hks with h | h
  · simp only [Prod.mk.injEq] at h
    exact ⟨g, t, ty, h.1, h.2⟩
  · exact hc k s h


/-! ## The scan loop: exit, cache and priority -/

theorem scanLoop_regexCache (canon : Char → Char) (text source : JSString) (e : TermEntry)
    (fuel : Nat) (st : ScanState) :
    (scanLoop canon text source e fuel st).regexCache = st.regexCache := by
  induction fuel generalizing st with
  | zero => rfl
  | succ fuel ih =>
    unfold scanLoop
    cases hx : regexExec canon source text st.lastIndex with
    | none => rfl
    | some p =>
      obtain ⟨start, matchedText⟩ := p
      simp only
      by_cases hc : st.lastIndex ≤ start ∧ start + matchedText.length ≤ text.length
      · rw [if_pos hc, ih]
      · rw [if_neg hc]

theorem regexExec_accept {canon : Char → Char} {source text : JSString} {lastIndex start : Nat}
    {matchedText : JSString} (h : regexExec canon source text lastIndex = some (start, matchedText)) :
    lastIndex ≤ start ∧ start + matchedText.length ≤ text.length :=
  ⟨(regexExec_some h).choose_spec.2.1, (regexExec_matched_length h).1⟩

theorem regexExec_matched_eq {canon : Char → Char} {source text lit : JSString}
    {lastIndex start : Nat} {matchedText : JSString}
    (hl : literalOfPattern source = some lit)
    (h : regexExec canon source text lastIndex = some (start, matchedText)) :
    matchesAt canon lit text start = true ∧ matchedText.length = lit.length ∧
      matchedText = substring text start (start + lit.length) ∧ start ≤ text.length ∧
      ∀ j, lastIndex ≤ j → j < start → matchesAt canon lit text j = false := by
  obtain ⟨lit2, h1, _, h3, h4, h5, h6⟩ := regexExec_some h
  rw [hl] at h1
  cases h1
  have hlen := matchesAt_length h3 h4
  have hm : matchedText.length = lit.length := by
    subst h5
    simp only [List.length_take, List.length_drop]; omega
  refine ⟨h4, hm, ?_, h3, h6⟩
  rw [← hm]
  exact (regexExec_matched_length h).2

/-- With one iteration to spare per remaining code unit, the loop ends because `exec`
finds nothing, never because the bound is reached. -/
theorem scanLoop_exit (canon : Char → Char) (text source lit : JSString) (e : TermEntry)
    (hl : literalOfPattern source = some lit) (hne : lit ≠ [])
    (fuel : Nat) (st : ScanState) (hfuel : text.length < fuel + st.lastIndex)
    (hle : st.lastIndex ≤ text.length) :
    regexExec canon source text (scanLoop canon text source e fuel st).lastIndex = none := by
  induction fuel generalizing st with
  | zero => omega
  | succ fuel ih =>
    unfold scanLoop
    cases hx : regexExec canon source text st.lastIndex with
    | none => simpa using hx
    | some p =>
      obtain ⟨start, matchedText⟩ := p
      simp only
      have hacc := regexExec_accept hx
      rw [if_pos hacc]
      obtain ⟨_, hm, _⟩ := regexExec_matched_eq hl hx
      have hpos : 0 < lit.length := List.length_pos.2 hne
      apply ih
      · simp only; omega
      · exact hacc.2

theorem fragAt_concat {fragments : List Frag} {g f : Frag} {p : Nat}
    (h : FragAt (fragments ++ [g]) p f) :
    FragAt fragments p f ∨ (f = g ∧ p = (fragsText fragments).length) := by
  obtain ⟨pre, post, heq, hp⟩ := h
  rcases List.eq_nil_or_concat post with rfl | ⟨post2, x, rfl⟩
  · have h2 : fragments ++ [g] = pre ++ [f] := heq
    have h3 := List.append_inj' h2 rfl
    right
    refine ⟨?_, ?_⟩
    · have := h3.2; simp only [List.cons.injEq, and_true] at this; exact this.symm
    · rw [h3.1]; exact hp.symm
  · left
    have h2 : fragments ++ [g] = (pre ++ f :: post2) ++ [x] := by
      rw [heq]; simp
    have h3 := List.append_inj' h2 rfl
    exact ⟨pre, post2, h3.1, hp⟩

theorem goodSpan_mono {canon : Char → Char} {text : JSString} {done : List TermEntry}
    {e : TermEntry} (hsorted : ∀ e0 ∈ done, e.term.length ≤ e0.term.length) {p : Nat} {f : Frag}
    (h : GoodSpan canon text done p f) : GoodSpan canon text (done ++ [e]) p f := by
  cases f with
  | textNode d => trivial
  | span ty g col s =>
    obtain ⟨e0, he0, h1, h2, h3, h4, h5, h6⟩ := h
    refine ⟨e0, List.mem_append_left _ he0, h1, h2, h3, h4, h5, ?_⟩
    intro e2 he2 hm
    rcases List.mem_append.1 he2 with h7 | h7
    · exact h6 e2 h7 hm
    · rw [List.mem_singleton] at h7
      subst h7
      exact hsorted e0 he0

theorem scanLoop_priority (canon : Char → Char) (text source : JSString) (e : TermEntry)
    (done : List TermEntry) (c0 : Nat)
    (hl : literalOfPattern source = some e.term)
    (hdone : ∀ e2 ∈ done, NoOcc canon text e2.term c0)
    (fuel : Nat) (st : ScanState) (hcov : Covers text st) (hc0 : c0 ≤ st.lastIndex)
    (hgood : ∀ p f, FragAt st.fragments p f → GoodSpan canon text (done ++ [e]) p f) :
    c0 ≤ (scanLoop canon text source e fuel st).lastIndex ∧
    ∀ p f, FragAt (scanLoop canon text source e fuel st).fragments p f →
      GoodSpan canon text (done ++ [e]) p f := by
  induction fuel generalizing st with
  | zero => exact ⟨hc0, hgood⟩
  | succ fuel ih =>
    unfold scanLoop
    cases hx : regexExec canon source text st.lastIndex with
    | none => exact ⟨hc0, hgood⟩
    | some pr =>
      obtain ⟨start, matchedText⟩ := pr
      simp only
      have hacc := regexExec_accept hx
      rw [if_pos hacc]
      obtain ⟨hm1, hm2, hm3, hm4, _⟩ := regexExec_matched_eq hl hx
      have hcov2 := scanLoop_covers canon text source e 1 st hcov
      have hstep : scanLoop canon text source e 1 st =
          { regexCache := st.regexCache
            lastIndex := start + matchedText.length
            matched := true
            fragments :=
              (if st.lastIndex < start then
                  st.fragments ++ [Frag.textNode (substring text st.lastIndex start)]
                else st.fragments) ++ [Frag.span e.type e.group e.color matchedText] } := by
        simp [scanLoop, hx, hacc]
      rw [hstep] at hcov2
      apply ih _ hcov2
      · simp only; omega
      · intro p f hf
        simp only at hf
        rcases fragAt_concat hf with h1 | ⟨rfl, hp⟩
        · by_cases hlt : st.lastIndex < start
          · rw [if_pos hlt] at h1
            rcases fragAt_concat h1 with h2 | ⟨rfl, _⟩
            · exact hgood p f h2
            · trivial
          · rw [if_neg hlt] at h1
            exact hgood p f h1
        · have hp2 : p = start := by
            rw [hp]
            by_cases hlt : st.lastIndex < start
            · rw [if_pos hlt, fragsText_append, hcov.2]
              simp only [fragsText, Frag.text, List.map_cons, List.map_nil, List.flatten_cons,
                List.flatten_nil, List.append_nil, List.length_append, List.length_take, substring,
                List.length_drop]
              omega
            · rw [if_neg hlt, hcov.2]
              simp only [List.length_take]
              omega
          subst hp2
          refine ⟨e, by simp, rfl, rfl, rfl, hm1, hm3, ?_⟩
          intro e2 he2 hocc
          rcases List.mem_append.1 he2 with h7 | h7
          · have := hdone e2 h7 _ (by omega) hm4
            rw [this] at hocc
            cases hocc
          · rw [List.mem_singleton] at h7
            subst h7
            exact le_rfl


theorem matchesAt_nonempty_end {canon : Char → Char} {lit text : JSString} (hne : lit ≠ [])
    {j : Nat} (hj : text.length ≤ j) : matchesAt canon lit text j = false := by
  cases h : matchesAt canon lit text j with
  | false => rfl
  | true =>
    exfalso
    unfold matchesAt at h
    have h1 := congrArg List.length (eq_of_beq h)
    simp only [List.length_map, List.length_take, List.length_drop] at h1
    have hpos : 0 < lit.length := List.length_pos.2 hne
    omega

/-- Under a sound cache, the regex used for an entry is the one compiled from its term. -/
theorem highlightTerm_eq (canon : Char → Char) (text : JSString) (st : ScanState)
    (e : TermEntry) (hc : CacheOk st.regexCache) (hne : e.term ≠ [])
    (hlt : st.lastIndex < text.length) :
    ∃ cache, CacheOk cache ∧
      highlightTerm canon text st e =
        scanLoop canon text (escapeRegExp e.term) e (text.length + 1)
          { st with regexCache := cache } := by
  unfold highlightTerm
  have h1 : (e.term.isEmpty || decide (text.length ≤ st.lastIndex)) = false := by
    simp [List.isEmpty_iff, hne, hlt]
  rw [h1]
  simp only [Bool.false_eq_true, if_false]
  cases hlook : st.regexCache.lookup (cacheKey e.group e.term e.type) with
  | some regex =>
    simp only
    rw [lookup_of_cacheOk hc hlook]
    exact ⟨st.regexCache, hc, rfl⟩
  | none =>
    simp only
    exact ⟨_, cacheOk_cons hc _ _ _, rfl⟩

theorem highlightTerm_priority (canon : Char → Char) (text : JSString) (done : List TermEntry)
    (e : TermEntry) (st : ScanState) (hne : e.term ≠ [])
    (hsorted : ∀ e0 ∈ done, e.term.length ≤ e0.term.length)
    (h : PriorityInv canon text done st) :
    PriorityInv canon text (done ++ [e]) (highlightTerm canon text st e) := by
  by_cases hlt : st.lastIndex < text.length
  · obtain ⟨cache, hcache, heq⟩ := highlightTerm_eq canon text st e h.cache hne hlt
    have hl := literalOfPattern_escapeRegExp e.term
    have hcov : Covers text { st with regexCache := cache } := h.covers
    have hpr := scanLoop_priority canon text (escapeRegExp e.term) e done st.lastIndex hl h.noOcc
      (text.length + 1) { st with regexCache := cache } hcov (le_refl _)
      (fun p f hf => goodSpan_mono hsorted (h.good p f hf))
    have hexit := scanLoop_exit canon text (escapeRegExp e.term) e.term e hl hne
      (text.length + 1) { st with regexCache := cache } (by simp only; omega) h.covers.1
    rw [← heq] at hpr hexit
    refine ⟨?_, ?_, ?_, hpr.2⟩
    · rw [heq]; exact scanLoop_covers _ _ _ _ _ _ hcov
    · rw [heq, scanLoop_regexCache]; exact hcache
    · intro e2 he2
      rcases List.mem_append.1 he2 with h7 | h7
      · intro j hj1 hj2
        exact h.noOcc e2 h7 j (le_trans hpr.1 hj1) hj2
      · rw [List.mem_singleton] at h7
        subst h7
        exact regexExec_none hl hexit
  · have heq : highlightTerm canon text st e = st := by
      unfold highlightTerm
      have : (e.term.isEmpty || decide (text.length ≤ st.lastIndex)) = true := by
        simp [Nat.le_of_not_lt hlt]
      rw [this]; simp
    rw [heq]
    refine ⟨h.covers, h.cache, ?_, fun p f hf => goodSpan_mono hsorted (h.good p f hf)⟩
    intro e2 he2
    rcases List.mem_append.1 he2 with h7 | h7
    · exact h.noOcc e2 h7
    · rw [List.mem_singleton] at h7
      subst h7
      intro j hj1 _
      exact matchesAt_nonempty_end hne (by omega)

theorem foldl_highlightTerm_priority (canon : Char → Char) (text : JSString) :
    ∀ (rest done : List TermEntry) (st : ScanState),
      (∀ e ∈ rest, e.term ≠ []) →
      List.Pairwise (fun a b : TermEntry => b.term.length ≤ a.term.length) (done ++ rest) →
      PriorityInv canon text done st →
      PriorityInv canon text (done ++ rest) (rest.foldl (highlightTerm canon text) st)
  | [], done, st, _, _, h => by simpa using h
  | e :: rest, done, st, hne, hp, h => by
    have hsorted : ∀ e0 ∈ done, e.term.length ≤ e0.term.length := by
      intro e0 he0
      rw [List.pairwise_append] at hp
      exact hp.2.2 e0 he0 e (List.mem_cons_self _ _)
    have h2 := highlightTerm_priority canon text done e st (hne e (List.mem_cons_self _ _)) hsorted h
    have h3 := foldl_highlightTerm_priority canon text rest (done ++ [e])
      (highlightTerm canon text st e) (fun x hx => hne x (List.mem_cons_of_mem _ hx))
      (by simpa using hp) h2
    simpa using h3

theorem buildFragments_priority (canon : Char → Char) (regexCache : RegexCache)
    (hc : CacheOk regexCache) (text : JSString) (terms : List TermEntry)
    (hne : ∀ e ∈ terms, e.term ≠ [])
    (hp : List.Pairwise (fun a b : TermEntry => b.term.length ≤ a.term.length) terms)
    (p : Nat) (f : Frag)
    (hf : FragAt (buildFragments canon regexCache text terms).fragments p f) :
    GoodSpan canon text terms p f := by
  have h0 : PriorityInv canon text []
      { regexCache := regexCache, lastIndex := 0, matched := false, fragments := [] } := by
    refine ⟨⟨Nat.zero_le _, by simp [fragsText]⟩, hc, by simp, ?_⟩
    intro p f hf
    obtain ⟨pre, post, h1, _⟩ := hf
    simp at h1
  have h := foldl_highlightTerm_priority canon text terms [] _ hne (by simpa using hp) h0
  simp only [List.nil_append] at h
  unfold buildFragments at hf
  simp only at hf
  split_ifs at hf with hlt
  · simp only at hf
    rcases fragAt_concat hf with h1 | ⟨rfl, _⟩
    · exact h.good p f h1
    · trivial
  · exact h.good p f hf

/-! ## The term index -/

theorem entriesOfMapping_spec (mapping : Mapping) (groupIndex : Nat) :
    ∀ e ∈ entriesOfMapping mapping groupIndex, e.term ≠ [] ∧ e.length = e.term.length := by
  intro e he
  unfold entriesOfMapping at he
  rcases List.mem_append.1 he with h | h
  all_goals
    obtain ⟨t, ht, rfl⟩ := List.mem_map.1 h
    have := (List.mem_filter.1 ht).2
    refine ⟨fun h0 => ?_, rfl⟩
    simp only at h0
    subst h0
    simp at this

theorem collectEntries_spec (mappings : List Mapping) (groupIndex : Nat) :
    ∀ e ∈ collectEntries mappings groupIndex, e.term ≠ [] ∧ e.length = e.term.length := by
  induction mappings generalizing groupIndex with
  | nil => intro e he; simp [collectEntries] at he
  | cons m rest ih =>
    intro e he
    unfold collectEntries at he
    rcases List.mem_append.1 he with h | h
    · exact entriesOfMapping_spec m groupIndex e h
    · exact ih _ e h

theorem getTermsToHighlight_spec (mappings : List Mapping) :
    ∀ e ∈ getTermsToHighlight mappings, e.term ≠ [] ∧ e.length = e.term.length := by
  intro e he
  unfold getTermsToHighlight at he
  exact collectEntries_spec mappings 0 e ((List.perm_insertionSort _ _).mem_iff.1 he)

theorem getTermsToHighlight_sorted (mappings : List Mapping) :
    List.Pairwise (fun a b : TermEntry => b.term.length ≤ a.term.length)
      (getTermsToHighlight mappings) := by
  have h : List.Sorted longerFirst (getTermsToHighlight mappings) :=
    List.sorted_insertionSort _ _
  have hs := getTermsToHighlight_spec mappings
  refine List.Pairwise.imp_of_mem ?_ h
  intro a b ha hb hab
  unfold longerFirst at hab
  rw [(hs a ha).2, (hs b hb).2] at hab
  exact hab

/-! ## Searching from a matching index -/

theorem regexExec_here {canon : Char → Char} {source lit text : JSString} {i : Nat}
    (hl : literalOfPattern source = some lit) (hi : i ≤ text.length)
    (hm : matchesAt canon lit text i = true) :
    regexExec canon source text i = some (i, (text.drop i).take lit.length) := by
  unfold regexExec
  simp only [hl]
  have hr : text.length + 1 - i = (text.length - i) + 1 := by omega
  rw [hr, List.range_succ_eq_map, List.find?_cons]
  simp [hm]

theorem regexExec_none_of {canon : Char → Char} {source lit text : JSString} {i : Nat}
    (hl : literalOfPattern source = some lit)
    (h : ∀ j, i ≤ j → j ≤ text.length → matchesAt canon lit text j = false) :
    regexExec canon source text i = none := by
  unfold regexExec
  simp only [hl, Option.map_eq_none']
  rw [List.find?_range_eq_none]
  intro k hk
  rw [h (i + k) (by omega) (by omega)]
  rfl

theorem regexExec_at_iff (canon : Char → Char) (term text : JSString) (i : Nat) :
    (∃ m, regexExec canon (escapeRegExp term) text i = some (i, m)) ↔
      (i + term.length ≤ text.length ∧
        (substring text i (i + term.length)).map canon = term.map canon) := by
  have hl := literalOfPattern_escapeRegExp term
  have hsub : substring text i (i + term.length) = (text.drop i).take term.length := by
    simp [substring]
  constructor
  · rintro ⟨m, hm⟩
    obtain ⟨h1, _, _, h4, _⟩ := regexExec_matched_eq hl hm
    refine ⟨matchesAt_length h4 h1, ?_⟩
    rw [hsub]
    exact eq_of_beq h1
  · rintro ⟨h1, h2⟩
    refine ⟨_, regexExec_here hl (by omega) ?_⟩
    unfold matchesAt
    rw [← hsub, h2]
    exact beq_self_eq_true _

/-! ## A text that is the term up to case -/

theorem buildFragments_whole (canon : Char → Char) (regexCache : RegexCache)
    (hc : CacheOk regexCache) (e : TermEntry) (text : JSString) (hne : e.term ≠ [])
    (heq : text.map canon = e.term.map canon) :
    (buildFragments canon regexCache text [e]).fragments =
        [Frag.span e.type e.group e.color text] ∧
      (buildFragments canon regexCache text [e]).matched = true := by
  have hlen : text.length = e.term.length := by
    have := congrArg List.length heq
    simpa using this
  have hpos : 0 < e.term.length := List.length_pos.2 hne
  have hl := literalOfPattern_escapeRegExp e.term
  have hm0 : matchesAt canon e.term text 0 = true := by
    unfold matchesAt
    rw [List.drop_zero, ← hlen, List.take_length, heq]
    exact beq_self_eq_true _
  have hx0 := regexExec_here hl (Nat.zero_le _) hm0
  have hx1 : regexExec canon (escapeRegExp e.term) text text.length = none :=
    regexExec_none_of hl (fun j hj _ => matchesAt_nonempty_end hne hj)
  have htake : (List.drop 0 text).take e.term.length = text := by
    rw [List.drop_zero, ← hlen, List.take_length]
  rw [htake] at hx0
  obtain ⟨cache, _, hstep⟩ := highlightTerm_eq canon text
    { regexCache := regexCache, lastIndex := 0, matched := false, fragments := [] }
    e hc hne (by simp only; omega)
  have hloop : scanLoop canon text (escapeRegExp e.term) e (text.length + 1)
      { regexCache := cache, lastIndex := 0, matched := false, fragments := [] } =
      { regexCache := cache, lastIndex := text.length, matched := true,
        fragments := [Frag.span e.type e.group e.color text] } := by
    rw [scanLoop]
    simp only [hx0, Nat.zero_add, Nat.zero_le, le_refl, and_self, if_true, lt_self_iff_false,
      if_false, List.nil_append]
    have h2 : text.length = (text.length - 1) + 1 := by omega
    rw [h2, scanLoop, ← h2]
    simp only [hx1]
  unfold buildFragments
  simp only [List.foldl_cons, List.foldl_nil]
  rw [hstep, hloop]
  simp

/-! ## One entry: the plain pieces hold no further occurrence -/

theorem matchesAt_substring {canon : Char → Char} {lit v : JSString} {a b j : Nat}
    (hne : lit ≠ [])
    (h : matchesAt canon lit (substring v a b) j = true) :
    matchesAt canon lit v (a + j) = true ∧ a + j + lit.length ≤ b := by
  have hpos : 0 < lit.length := List.length_pos.2 hne
  unfold matchesAt substring at h
  have h0 := eq_of_beq h
  have h1 := congrArg List.length h0
  simp only [List.length_map, List.length_take, List.length_drop] at h1
  have hlen : j + lit.length ≤ b - a := by omega
  refine ⟨?_, by omega⟩
  unfold matchesAt
  rw [← h0, List.drop_take, List.take_take, List.drop_drop]
  have : min lit.length (b - a - j) = lit.length := by omega
  rw [this]
  exact beq_self_eq_true _

theorem highlightTerm_cacheOk (canon : Char → Char) (text : JSString) (st : ScanState)
    (e : TermEntry) (hc : CacheOk st.regexCache) :
    CacheOk (highlightTerm canon text st e).regexCache := by
  unfold highlightTerm
  split_ifs
  · exact hc
  · simp only
    split
    · rw [scanLoop_regexCache]; exact hc
    · rw [scanLoop_regexCache]; exact cacheOk_cons hc _ _ _

theorem foldl_highlightTerm_cacheOk (canon : Char → Char) (text : JSString)
    (terms : List TermEntry) (st : ScanState) (hc : CacheOk st.regexCache) :
    CacheOk (terms.foldl (highlightTerm canon text) st).regexCache := by
  induction terms generalizing st with
  | nil => exact hc
  | cons e rest ih => exact ih _ (highlightTerm_cacheOk canon text st e hc)

theorem buildFragments_cacheOk (canon : Char → Char) (regexCache : RegexCache)
    (text : JSString) (terms : List TermEntry) (hc : CacheOk regexCache) :
    CacheOk (buildFragments canon regexCache text terms).regexCache := by
  have h := foldl_highlightTerm_cacheOk canon text terms
    { regexCache := regexCache, lastIndex := 0, matched := false, fragments := [] } hc
  unfold buildFragments
  simp only
  split_ifs
  · exact h
  · exact h

/-- The plain pieces made so far hold no occurrence of `lit`. -/
theorem scanLoop_plain (canon : Char → Char) (text source : JSString) (e : TermEntry)
    (hl : literalOfPattern source = some e.term) (hne : e.term ≠ [])
    (fuel : Nat) (st : ScanState) (hcov : Covers text st)
    (hq : ∀ d, Frag.textNode d ∈ st.fragments → NoOcc canon d e.term 0) :
    ∀ d, Frag.textNode d ∈ (scanLoop canon text source e fuel st).fragments →
      NoOcc canon d e.term 0 := by
  induction fuel generalizing st with
  | zero => exact hq
  | succ fuel ih =>
    unfold scanLoop
    cases hx : regexExec canon source text st.lastIndex with
    | none => exact hq
    | some pr =>
      obtain ⟨start, matchedText⟩ := pr
      simp only
      have hacc := regexExec_accept hx
      rw [if_pos hacc]
      obtain ⟨_, _, _, hm4, hm5⟩ := regexExec_matched_eq hl hx
      have hcov2 := scanLoop_covers canon text source e 1 st hcov
      have hstep : scanLoop canon text source e 1 st =
          { regexCache := st.regexCache
            lastIndex := start + matchedText.length
            matched := true
            fragments :=
              (if st.lastIndex < start then
                  st.fragments ++ [Frag.textNode (substring text st.lastIndex start)]
                else st.fragments) ++ [Frag.span e.type e.group e.color matchedText] } := by
        simp [scanLoop, hx, hacc]
      rw [hstep] at hcov2
      apply ih _ hcov2
      intro d hd
      simp only [List.mem_append, List.mem_singleton] at hd
      rcases hd with hd | hd
      · by_cases hlt : st.lastIndex < start
        · rw [if_pos hlt] at hd
          simp only [List.mem_append, List.mem_singleton, Frag.textNode.injEq] at hd
          rcases hd with hd | rfl
          · exact hq d hd
          · intro j _ _
            cases hmj : matchesAt canon e.term (substring text st.lastIndex start) j with
            | false => rfl
            | true =>
              exfalso
              obtain ⟨h1, h2⟩ := matchesAt_substring hne hmj
              have hpos : 0 < e.term.length := List.length_pos.2 hne
              have := hm5 (st.lastIndex + j) (by omega) (by omega)
              rw [this] at h1
              cases h1
        · rw [if_neg hlt] at hd
          exact hq d hd
      · cases hd

theorem buildFragments_plain (canon : Char → Char) (regexCache : RegexCache)
    (hc : CacheOk regexCache) (e : TermEntry) (hne : e.term ≠ []) (text : JSString) :
    ∀ d, Frag.textNode d ∈ (buildFragments canon regexCache text [e]).fragments →
      NoOcc canon d e.term 0 := by
  have hl := literalOfPattern_escapeRegExp e.term
  have hcov0 : Covers text
      { regexCache := regexCache, lastIndex := 0, matched := false, fragments := [] } :=
    ⟨Nat.zero_le _, by simp [fragsText]⟩
  by_cases hlt : 0 < text.length
  · obtain ⟨cache, _, heq⟩ := highlightTerm_eq canon text
      { regexCache := regexCache, lastIndex := 0, matched := false, fragments := [] }
      e hc hne hlt
    have hcov1 : Covers text
        { regexCache := cache, lastIndex := 0, matched := false, fragments := [] } := hcov0
    have hplain := scanLoop_plain canon text (escapeRegExp e.term) e hl hne (text.length + 1)
      _ hcov1 (by intro d hd; simp at hd)
    have hexit := scanLoop_exit canon text (escapeRegExp e.term) e.term e hl hne
      (text.length + 1) { regexCache := cache, lastIndex := 0, matched := false, fragments := [] }
      (by simp only; omega) (Nat.zero_le _)
    have hcov := scanLoop_covers canon text (escapeRegExp e.term) e (text.length + 1) _ hcov1
    simp only at heq
    rw [← heq] at hplain hexit hcov
    intro d hd
    unfold buildFragments at hd
    simp only [List.foldl_cons, List.foldl_nil] at hd
    split_ifs at hd with hlast
    · simp only [List.mem_append, List.mem_singleton, Frag.textNode.injEq] at hd
      rcases hd with hd | rfl
      · exact hplain d hd
      · intro j _ _
        cases hmj : matchesAt canon e.term (substring text _ text.length) j with
        | false => rfl
        | true =>
          exfalso
          obtain ⟨h1, h2⟩ := matchesAt_substring hne hmj
          have := regexExec_none hl hexit _ (Nat.le_add_right _ j) (by omega)
          rw [this] at h1
          cases h1
    · exact hplain d hd
  · have ht : text = [] := List.length_eq_zero.1 (by omega)
    subst ht
    intro d hd
    have : (buildFragments canon regexCache [] [e]).fragments = [] := by
      simp [buildFragments, highlightTerm]
    rw [this] at hd
    cases hd

theorem buildFragments_quiet (canon : Char → Char) (regexCache : RegexCache)
    (hc : CacheOk regexCache) (e : TermEntry) (text : JSString)
    (hq : NoOcc canon text e.term 0) :
    (buildFragments canon regexCache text [e]).matched = false := by
  have hl := literalOfPattern_escapeRegExp e.term
  have hx : regexExec canon (escapeRegExp e.term) text 0 = none :=
    regexExec_none_of hl (fun j h1 h2 => hq j h1 h2)
  have hstep : ∀ cache, (scanLoop canon text (escapeRegExp e.term) e (text.length + 1)
      { regexCache := cache, lastIndex := 0, matched := false, fragments := [] }).matched =
        false := by
    intro cache
    rw [scanLoop]
    simp only [hx]
  have hfold : (highlightTerm canon text
      { regexCache := regexCache, lastIndex := 0, matched := false, fragments := [] } e).matched =
        false := by
    unfold highlightTerm
    split_ifs
    · rfl
    · simp only
      split
      · rename_i regex hlook
        rw [lookup_of_cacheOk hc hlook]
        exact hstep _
      · exact hstep _
  unfold buildFragments
  simp only [List.foldl_cons, List.foldl_nil]
  split_ifs
  · exact hfold
  · exact hfold

/-! ## Trees with distinct node identities -/

mutual
theorem walkTextNodes_eq : ∀ n : Node, walkTextNodes n = (visibleTexts n).map Prod.fst
  | .text i v => by
    unfold walkTextNodes visibleTexts
    split_ifs <;> rfl
  | .comment _ _ => by
    unfold walkTextNodes visibleTexts
    rfl
  | .element _ _ _ _ _ children => by
    unfold walkTextNodes visibleTexts
    split_ifs
    · rfl
    · rfl
    · exact walkChildren_eq children
theorem walkChildren_eq : ∀ ns : List Node, walkChildren ns = (visibleTextsList ns).map Prod.fst
  | [] => by
    unfold walkChildren visibleTextsList
    rfl
  | n :: rest => by
    unfold walkChildren visibleTextsList
    rw [List.map_append, walkTextNodes_eq n, walkChildren_eq rest]
end

mutual
theorem visibleTexts_sub : ∀ (n : Node) (p : Nat × JSString), p ∈ visibleTexts n →
    p.1 ∈ nodeIds n
  | .text i v, p, h => by
    unfold visibleTexts at h
    unfold nodeIds
    split_ifs at h
    · cases h
    · simp only [List.mem_singleton] at h
      subst h
      simp
  | .comment _ _, p, h => by
    unfold visibleTexts at h
    cases h
  | .element _ _ _ _ _ children, p, h => by
    unfold visibleTexts at h
    unfold nodeIds
    split_ifs at h
    · cases h
    · cases h
    · exact List.mem_cons_of_mem _ (visibleTextsList_sub children p h)
theorem visibleTextsList_sub : ∀ (ns : List Node) (p : Nat × JSString),
    p ∈ visibleTextsList ns → p.1 ∈ nodeIdsList ns
  | [], p, h => by
    unfold visibleTextsList at h
    cases h
  | n :: rest, p, h => by
    unfold visibleTextsList at h
    unfold nodeIdsList
    rcases List.mem_append.1 h with h1 | h1
    · exact List.mem_append_left _ (visibleTexts_sub n p h1)
    · exact List.mem_append_right _ (visibleTextsList_sub rest p h1)
end

mutual
theorem findNode_none (id : Nat) : ∀ n : Node, id ∉ nodeIds n → findNode id n = none
  | .text i v, h => by
    unfold nodeIds at h
    unfold findNode
    have : i ≠ id := fun e => h (by simp [e])
    simp [this]
  | .comment i v, h => by
    unfold nodeIds at h
    unfold findNode
    have : i ≠ id := fun e => h (by simp [e])
    simp [this]
  | .element i _ _ _ _ children, h => by
    unfold nodeIds at h
    unfold findNode
    have h1 : i ≠ id := fun e => h (by simp [e])
    have h2 : id ∉ nodeIdsList children := fun e => h (List.mem_cons_of_mem _ e)
    simp only [h1, if_false]
    exact findNodeList_none id children h2
theorem findNodeList_none (id : Nat) : ∀ ns : List Node, id ∉ nodeIdsList ns →
    findNodeList id ns = none
  | [], _ => by
    unfold findNodeList
    rfl
  | n :: rest, h => by
    unfold nodeIdsList at h
    unfold findNodeList
    rw [findNode_none id n (fun e => h (List.mem_append_left _ e))]
    exact findNodeList_none id rest (fun e => h (List.mem_append_right _ e))
end

mutual
theorem parentOf_none (id : Nat) : ∀ n : Node, id ∉ nodeIds n → parentOf id n = none
  | .text i v, _ => by
    unfold parentOf
    rfl
  | .comment i v, _ => by
    unfold parentOf
    rfl
  | .element i t c a s children, h => by
    unfold nodeIds at h
    unfold parentOf
    exact parentOfList_none id _ children (fun e => h (List.mem_cons_of_mem _ e))
theorem parentOfList_none (id : Nat) (parent : Node) : ∀ ns : List Node,
    id ∉ nodeIdsList ns → parentOfList id parent ns = none
  | [], _ => by
    unfold parentOfList
    rfl
  | n :: rest, h => by
    unfold nodeIdsList at h
    unfold parentOfList
    have h1 : id ∉ nodeIds n := fun e => h (List.mem_append_left _ e)
    have h2 : n.id ≠ id := by
      intro e
      apply h1
      cases n <;> simp [nodeIds, Node.id] at e ⊢ <;> simp [e]
    rw [if_neg h2, parentOf_none id n h1]
    exact parentOfList_none id parent rest (fun e => h (List.mem_append_right _ e))
end

theorem id_mem_nodeIds (n : Node) : n.id ∈ nodeIds n := by
  cases n <;> simp [nodeIds, Node.id]

mutual
theorem replaceIn_none (id : Nat) (new : List Node) : ∀ n : Node, id ∉ nodeIds n →
    replaceIn id new n = n
  | .text i v, _ => by
    unfold replaceIn
    rfl
  | .comment i v, _ => by
    unfold replaceIn
    rfl
  | .element i t c a s children, h => by
    unfold nodeIds at h
    unfold replaceIn
    rw [replaceInList_none id new children (fun e => h (List.mem_cons_of_mem _ e))]
theorem replaceInList_none (id : Nat) (new : List Node) : ∀ ns : List Node,
    id ∉ nodeIdsList ns → replaceInList id new ns = ns
  | [], _ => by
    unfold replaceInList
    rfl
  | n :: rest, h => by
    unfold nodeIdsList at h
    unfold replaceInList
    have h1 : id ∉ nodeIds n := fun e => h (List.mem_append_left _ e)
    have h2 : n.id ≠ id := fun e => h1 (e ▸ id_mem_nodeIds n)
    rw [if_neg h2, replaceIn_none id new n h1,
      replaceInList_none id new rest (fun e => h (List.mem_append_right _ e))]
end

mutual
theorem findNode_visible (id : Nat) (v : JSString) : ∀ n : Node, (id, v) ∈ visibleTexts n →
    (nodeIds n).Nodup → findNode id n = some (.text id v)
  | .text i w, h, _ => by
    unfold visibleTexts at h
    unfold findNode
    split_ifs at h
    · cases h
    · simp only [List.mem_singleton, Prod.mk.injEq] at h
      obtain ⟨rfl, rfl⟩ := h
      simp
  | .comment _ _, h, _ => by
    unfold visibleTexts at h
    cases h
  | .element i t c a s children, h, hnd => by
    unfold visibleTexts at h
    unfold nodeIds at hnd
    unfold findNode
    split_ifs at h
    · cases h
    · cases h
    · have hmem := visibleTextsList_sub children _ h
      have hne : i ≠ id := fun e => (List.nodup_cons.1 hnd).1 (e ▸ hmem)
      rw [if_neg hne]
      exact findNodeList_visible id v children h (List.nodup_cons.1 hnd).2
theorem findNodeList_visible (id : Nat) (v : JSString) : ∀ ns : List Node,
    (id, v) ∈ visibleTextsList ns → (nodeIdsList ns).Nodup →
    findNodeList id ns = some (.text id v)
  | [], h, _ => by
    unfold visibleTextsList at h
    cases h
  | n :: rest, h, hnd => by
    unfold visibleTextsList at h
    unfold nodeIdsList at hnd
    unfold findNodeList
    obtain ⟨hn1, hn2, hdisj⟩ := List.nodup_append.1 hnd
    rcases List.mem_append.1 h with h1 | h1
    · rw [findNode_visible id v n h1 hn1]
    · have hmem := visibleTextsList_sub rest _ h1
      have hnot : id ∉ nodeIds n := fun e => hdisj e hmem
      rw [findNode_none id n hnot]
      exact findNodeList_visible id v rest h1 hn2
end

theorem visible_not_highlight {i : Nat} {t : String} {c a : List String}
    {s : List (String × String)} {children : List Node} {p : Nat × JSString}
    (h : p ∈ visibleTexts (.element i t c a s children)) :
    (Node.element i t c a s children).isHighlight = false ∧ p ∈ visibleTextsList children := by
  unfold visibleTexts at h
  unfold Node.isHighlight
  split_ifs at h with h1 h2
  · cases h
  · cases h
  · simp only [Bool.or_eq_true, not_or, Bool.not_eq_true] at h1
    exact ⟨h1.1, h⟩

mutual
theorem parentOf_visible (id : Nat) (v : JSString) : ∀ n : Node, (id, v) ∈ visibleTexts n →
    (nodeIds n).Nodup → n.id ≠ id → ∃ p, parentOf id n = some p ∧ p.isHighlight = false
  | .text i w, h, _, hne => by
    unfold visibleTexts at h
    split_ifs at h
    · cases h
    · simp only [List.mem_singleton, Prod.mk.injEq] at h
      exact absurd h.1.symm hne
  | .comment _ _, h, _, _ => by
    unfold visibleTexts at h
    cases h
  | .element i t c a s children, h, hnd, _ => by
    obtain ⟨hh, hin⟩ := visible_not_highlight h
    unfold nodeIds at hnd
    unfold parentOf
    exact parentOfList_visible id v _ hh children hin (List.nodup_cons.1 hnd).2
theorem parentOfList_visible (id : Nat) (v : JSString) (parent : Node)
    (hp : parent.isHighlight = false) : ∀ ns : List Node,
    (id, v) ∈ visibleTextsList ns → (nodeIdsList ns).Nodup →
    ∃ p, parentOfList id parent ns = some p ∧ p.isHighlight = false
  | [], h, _ => by
    unfold visibleTextsList at h
    cases h
  | n :: rest, h, hnd => by
    unfold visibleTextsList at h
    unfold nodeIdsList at hnd
    unfold parentOfList
    obtain ⟨hn1, hn2, hdisj⟩ := List.nodup_append.1 hnd
    by_cases hid : n.id = id
    · rw [if_pos hid]
      exact ⟨parent, rfl, hp⟩
    · rw [if_neg hid]
      rcases List.mem_append.1 h with h1 | h1
      · obtain ⟨p, hp1, hp2⟩ := parentOf_visible id v n h1 hn1 hid
        rw [hp1]
        exact ⟨p, rfl, hp2⟩
      · have hmem := visibleTextsList_sub rest _ h1
        have hnot : id ∉ nodeIds n := fun e => hdisj e hmem
        rw [parentOf_none id n hnot]
        exact parentOfList_visible id v parent hp rest h1 hn2
end

theorem visibleTextsList_cons (n : Node) (rest : List Node) :
    visibleTextsList (n :: rest) = visibleTexts n ++ visibleTextsList rest := by
  rw [visibleTextsList]

theorem nodeIdsList_cons (n : Node) (rest : List Node) :
    nodeIdsList (n :: rest) = nodeIds n ++ nodeIdsList rest := by
  rw [nodeIdsList]

theorem replaceInList_cons (id : Nat) (new : List Node) (n : Node) (rest : List Node) :
    replaceInList id new (n :: rest) =
      if n.id = id then new ++ rest else replaceIn id new n :: replaceInList id new rest := by
  rw [replaceInList]

theorem visibleTextsList_append (a b : List Node) :
    visibleTextsList (a ++ b) = visibleTextsList a ++ visibleTextsList b := by
  induction a with
  | nil => simp [visibleTextsList]
  | cons n rest ih =>
    rw [List.cons_append, visibleTextsList_cons, visibleTextsList_cons, ih, List.append_assoc]

theorem nodeIdsList_append (a b : List Node) :
    nodeIdsList (a ++ b) = nodeIdsList a ++ nodeIdsList b := by
  induction a with
  | nil => simp [nodeIdsList]
  | cons n rest ih =>
    rw [List.cons_append, nodeIdsList_cons, nodeIdsList_cons, ih, List.append_assoc]

/-- What a visible text node turns into when the node `id` is replaced by nodes whose visible
text nodes are `newVis`. -/
theorem flatMap_swap_none (id : Nat) (newVis : List (Nat × JSString))
    (l : List (Nat × JSString)) (h : ∀ p ∈ l, p.1 ≠ id) :
    l.flatMap (fun p => if p.1 = id then newVis else [p]) = l := by
  induction l with
  | nil => rfl
  | cons p rest ih =>
    rw [List.flatMap_cons, if_neg (h p (List.mem_cons_self _ _)),
      ih (fun q hq => h q (List.mem_cons_of_mem _ hq))]
    rfl

theorem visibleTexts_ne (id : Nat) (n : Node) (h : id ∉ nodeIds n) :
    ∀ p ∈ visibleTexts n, p.1 ≠ id :=
  fun p hp e => h (e ▸ visibleTexts_sub n p hp)

theorem visibleTextsList_ne (id : Nat) (ns : List Node) (h : id ∉ nodeIdsList ns) :
    ∀ p ∈ visibleTextsList ns, p.1 ≠ id :=
  fun p hp e => h (e ▸ visibleTextsList_sub ns p hp)

mutual
theorem visibleTexts_replaceIn (id : Nat) (v : JSString) (new : List Node) : ∀ n : Node,
    (id, v) ∈ visibleTexts n → (nodeIds n).Nodup → n.id ≠ id →
    visibleTexts (replaceIn id new n) =
      (visibleTexts n).flatMap (fun p => if p.1 = id then visibleTextsList new else [p])
  | .text i w, h, _, hne => by
    unfold visibleTexts at h
    split_ifs at h
    · cases h
    · simp only [List.mem_singleton, Prod.mk.injEq] at h
      exact absurd h.1.symm hne
  | .comment _ _, h, _, _ => by
    unfold visibleTexts at h
    cases h
  | .element i t c a s children, h, hnd, _ => by
    have hin := (visible_not_highlight h).2
    unfold nodeIds at hnd
    have ih := visibleTextsList_replaceInList id v new children hin (List.nodup_cons.1 hnd).2
    unfold replaceIn
    unfold visibleTexts at h ⊢
    split_ifs at h ⊢
    · cases h
    · cases h
    · exact ih
theorem visibleTextsList_replaceInList (id : Nat) (v : JSString) (new : List Node) :
    ∀ ns : List Node, (id, v) ∈ visibleTextsList ns → (nodeIdsList ns).Nodup →
    visibleTextsList (replaceInList id new ns) =
      (visibleTextsList ns).flatMap (fun p => if p.1 = id then visibleTextsList new else [p])
  | [], h, _ => by
    unfold visibleTextsList at h
    cases h
  | n :: rest, h, hnd => by
    rw [visibleTextsList_cons] at h
    rw [nodeIdsList_cons] at hnd
    obtain ⟨hn1, hn2, hdisj⟩ := List.nodup_append.1 hnd
    rw [replaceInList_cons, visibleTextsList_cons, List.flatMap_append]
    by_cases hid : n.id = id
    · rw [if_pos hid]
      have hidn : id ∈ nodeIds n := hid ▸ id_mem_nodeIds n
      have hrest : id ∉ nodeIdsList rest := fun e => hdisj hidn e
      have h1 : (id, v) ∈ visibleTexts n := by
        rcases List.mem_append.1 h with h1 | h1
        · exact h1
        · exact absurd (visibleTextsList_sub rest _ h1) hrest
      have hvis : visibleTexts n = [(id, v)] := by
        cases n with
        | text i w =>
          unfold visibleTexts at h1 ⊢
          split_ifs at h1 ⊢
          · cases h1
          · simp only [List.mem_singleton, Prod.mk.injEq] at h1
            rw [h1.1, h1.2]
        | comment i w =>
          unfold visibleTexts at h1
          cases h1
        | element i t c a s children =>
          exfalso
          have hin := (visible_not_highlight h1).2
          have hmem := visibleTextsList_sub children _ hin
          unfold nodeIds at hn1
          simp only [Node.id] at hid
          exact (List.nodup_cons.1 hn1).1 (hid ▸ hmem)
      rw [visibleTextsList_append, hvis,
        flatMap_swap_none id _ _ (visibleTextsList_ne id rest hrest)]
      simp
    · rw [if_neg hid, visibleTextsList_cons]
      rcases List.mem_append.1 h with h1 | h1
      · have hrest : id ∉ nodeIdsList rest := fun e => hdisj (visibleTexts_sub n _ h1) e
        rw [visibleTexts_replaceIn id v new n h1 hn1 hid, replaceInList_none id new rest hrest,
          flatMap_swap_none id _ _ (visibleTextsList_ne id rest hrest)]
      · have hnot : id ∉ nodeIds n := fun e => hdisj e (visibleTextsList_sub rest _ h1)
        rw [visibleTextsList_replaceInList id v new rest h1 hn2, replaceIn_none id new n hnot,
          flatMap_swap_none id _ _ (visibleTexts_ne id n hnot)]
end

mutual
theorem nodeIds_replaceIn (id : Nat) (new : List Node) : ∀ (n : Node) (x : Nat),
    x ∈ nodeIds (replaceIn id new n) → x ∈ nodeIds n ∨ x ∈ nodeIdsList new
  | .text i w, x, h => by
    unfold replaceIn at h
    exact Or.inl h
  | .comment i w, x, h => by
    unfold replaceIn at h
    exact Or.inl h
  | .element i t c a s children, x, h => by
    unfold replaceIn at h
    unfold nodeIds at h ⊢
    rcases List.mem_cons.1 h with h1 | h1
    · exact Or.inl (h1 ▸ List.mem_cons_self _ _)
    · rcases nodeIdsList_replaceInList id new children x h1 with h2 | h2
      · exact Or.inl (List.mem_cons_of_mem _ h2)
      · exact Or.inr h2
theorem nodeIdsList_replaceInList (id : Nat) (new : List Node) : ∀ (ns : List Node) (x : Nat),
    x ∈ nodeIdsList (replaceInList id new ns) → x ∈ nodeIdsList ns ∨ x ∈ nodeIdsList new
  | [], x, h => by
    unfold replaceInList at h
    exact Or.inl h
  | n :: rest, x, h => by
    rw [replaceInList_cons] at h
    rw [nodeIdsList_cons]
    split_ifs at h
    · rw [nodeIdsList_append] at h
      rcases List.mem_append.1 h with h1 | h1
      · exact Or.inr h1
      · exact Or.inl (List.mem_append_right _ h1)
    · rw [nodeIdsList_cons] at h
      rcases List.mem_append.1 h with h1 | h1
      · rcases nodeIds_replaceIn id new n x h1 with h2 | h2
        · exact Or.inl (List.mem_append_left _ h2)
        · exact Or.inr h2
      · rcases nodeIdsList_replaceInList id new rest x h1 with h2 | h2
        · exact Or.inl (List.mem_append_right _ h2)
        · exact Or.inr h2
end

mutual
theorem nodup_replaceIn (id : Nat) (new : List Node) (hnew : (nodeIdsList new).Nodup) :
    ∀ n : Node, (nodeIds n).Nodup → (∀ x ∈ nodeIdsList new, x ∉ nodeIds n) →
    (nodeIds (replaceIn id new n)).Nodup
  | .text i w, h, _ => by
    unfold replaceIn
    exact h
  | .comment i w, h, _ => by
    unfold replaceIn
    exact h
  | .element i t c a s children, h, hfresh => by
    unfold replaceIn
    unfold nodeIds at h hfresh ⊢
    obtain ⟨h1, h2⟩ := List.nodup_cons.1 h
    refine List.nodup_cons.2 ⟨?_, ?_⟩
    · intro hx
      rcases nodeIdsList_replaceInList id new children i hx with h3 | h3
      · exact h1 h3
      · exact hfresh i h3 (List.mem_cons_self _ _)
    · exact nodup_replaceInList id new hnew children h2
        (fun x hx e => hfresh x hx (List.mem_cons_of_mem _ e))
theorem nodup_replaceInList (id : Nat) (new : List Node) (hnew : (nodeIdsList new).Nodup) :
    ∀ ns : List Node, (nodeIdsList ns).Nodup → (∀ x ∈ nodeIdsList new, x ∉ nodeIdsList ns) →
    (nodeIdsList (replaceInList id new ns)).Nodup
  | [], h, _ => by
    unfold replaceInList
    exact h
  | n :: rest, h, hfresh => by
    rw [replaceInList_cons]
    rw [nodeIdsList_cons] at h hfresh
    obtain ⟨hn1, hn2, hdisj⟩ := List.nodup_append.1 h
    have hf1 : ∀ x ∈ nodeIdsList new, x ∉ nodeIds n :=
      fun x hx e => hfresh x hx (List.mem_append_left _ e)
    have hf2 : ∀ x ∈ nodeIdsList new, x ∉ nodeIdsList rest :=
      fun x hx e => hfresh x hx (List.mem_append_right _ e)
    split_ifs with hid
    · rw [nodeIdsList_append]
      exact List.nodup_append.2 ⟨hnew, hn2, fun x hx e => hf2 x hx e⟩
    · rw [nodeIdsList_cons]
      refine List.nodup_append.2 ⟨nodup_replaceIn id new hnew n hn1 hf1,
        nodup_replaceInList id new hnew rest hn2 hf2, ?_⟩
      intro x hx1 hx2
      by_cases hin : id ∈ nodeIds n
      · have hrest : id ∉ nodeIdsList rest := fun e => hdisj hin e
        rw [replaceInList_none id new rest hrest] at hx2
        rcases nodeIds_replaceIn id new n x hx1 with h3 | h3
        · exact hdisj h3 hx2
        · exact hf2 x h3 hx2
      · rw [replaceIn_none id new n hin] at hx1
        rcases nodeIdsList_replaceInList id new rest x hx2 with h3 | h3
        · exact hdisj hx1 h3
        · exact hf1 x h3 hx1
end

/-! ## The nodes `processTextNode` inserts -/

theorem materialize_spec : ∀ (fragments : List Frag) (next : Nat),
    next ≤ (materialize fragments next).2 ∧
    (∀ x ∈ nodeIdsList (materialize fragments next).1,
      next ≤ x ∧ x < (materialize fragments next).2) ∧
    (nodeIdsList (materialize fragments next).1).Nodup ∧
    (∀ p ∈ visibleTextsList (materialize fragments next).1, Frag.textNode p.2 ∈ fragments)
  | [], next => by
    simp [materialize, nodeIdsList, visibleTextsList]
  | .textNode data :: rest, next => by
    obtain ⟨h1, h2, h3, h4⟩ := materialize_spec rest (next + 1)
    simp only [materialize]
    refine ⟨by omega, ?_, ?_, ?_⟩
    · intro x hx
      rw [nodeIdsList_cons] at hx
      simp only [nodeIds, List.singleton_append, List.mem_cons] at hx
      rcases hx with rfl | hx
      · omega
      · have := h2 x hx
        omega
    · rw [nodeIdsList_cons]
      simp only [nodeIds, List.singleton_append]
      refine List.nodup_cons.2 ⟨fun hx => ?_, h3⟩
      have := h2 next hx
      omega
    · intro p hp
      rw [visibleTextsList_cons] at hp
      rcases List.mem_append.1 hp with hp | hp
      · unfold visibleTexts at hp
        split_ifs at hp
        · cases hp
        · simp only [List.mem_singleton] at hp
          subst hp
          exact List.mem_cons_self _ _
      · exact List.mem_cons_of_mem _ (h4 p hp)
  | .span type group color matchedText :: rest, next => by
    obtain ⟨h1, h2, h3, h4⟩ := materialize_spec rest (next + 2)
    simp only [materialize]
    refine ⟨by omega, ?_, ?_, ?_⟩
    · intro x hx
      rw [nodeIdsList_cons] at hx
      rcases List.mem_append.1 hx with hx | hx
      · cases matchedText with
        | nil =>
          simp [nodeIds, nodeIdsList] at hx
          omega
        | cons c m =>
          simp [nodeIds, nodeIdsList] at hx
          omega
      · have := h2 x hx
        omega
    · rw [nodeIdsList_cons]
      refine List.nodup_append.2 ⟨?_, h3, ?_⟩
      · cases matchedText with
        | nil => simp [nodeIds, nodeIdsList]
        | cons c m => simp [nodeIds, nodeIdsList]
      · intro x hx1 hx2
        have := h2 x hx2
        cases matchedText with
        | nil =>
          simp [nodeIds, nodeIdsList] at hx1
          omega
        | cons c m =>
          simp [nodeIds, nodeIdsList] at hx1
          omega
    · intro p hp
      rw [visibleTextsList_cons] at hp
      rcases List.mem_append.1 hp with hp | hp
      · exfalso
        unfold visibleTexts at hp
        simp at hp
      · exact List.mem_cons_of_mem _ (h4 p hp)

mutual
theorem walkTextNodes_sublist : ∀ n : Node, List.Sublist (walkTextNodes n) (nodeIds n)
  | .text i v => by
    unfold walkTextNodes nodeIds
    split_ifs
    · exact List.nil_sublist _
    · exact List.Sublist.refl _
  | .comment _ _ => by
    unfold walkTextNodes
    exact List.nil_sublist _
  | .element _ _ _ _ _ children => by
    unfold walkTextNodes nodeIds
    split_ifs
    · exact List.nil_sublist _
    · exact List.nil_sublist _
    · exact List.Sublist.cons _ (walkChildren_sublist children)
theorem walkChildren_sublist : ∀ ns : List Node,
    List.Sublist (walkChildren ns) (nodeIdsList ns)
  | [] => by
    unfold walkChildren
    exact List.nil_sublist _
  | n :: rest => by
    rw [nodeIdsList_cons]
    unfold walkChildren
    exact List.Sublist.append (walkTextNodes_sublist n) (walkChildren_sublist rest)
end

/-- On a well-formed page, `processTextNode` applied to a text node the walk reports finds the
node and a parent that is no highlight span: it returns, having replaced the node when there
was a match. -/
theorem processTextNode_visible (canon : Char → Char) (s : Engine) (hwf : WellFormed s)
    (id : Nat) (v : JSString) (hv : (id, v) ∈ visibleTexts s.body) (terms : List TermEntry) :
    processTextNode canon s id terms =
      if (buildFragments canon s.regexCache v terms).matched &&
          decide (0 < (buildFragments canon s.regexCache v terms).fragments.length) then
        .ok { s with
          regexCache := (buildFragments canon s.regexCache v terms).regexCache
          body := replaceIn id
            (materialize (buildFragments canon s.regexCache v terms).fragments s.nextId).1 s.body
          detached := []
          nextId :=
            (materialize (buildFragments canon s.regexCache v terms).fragments s.nextId).2 }
      else .ok { s with regexCache := (buildFragments canon s.regexCache v terms).regexCache } := by
  obtain ⟨hel, hdet, hnd, _⟩ := hwf
  have hfind := findNode_visible id v s.body hv hnd
  have hroot : s.body.id ≠ id := by
    intro e
    cases hb : s.body with
    | text i w => rw [hb] at hel; cases hel
    | comment i w => rw [hb] at hel; cases hel
    | element i t c a st children =>
      rw [hb] at hv hnd e
      have hin := (visible_not_highlight hv).2
      have hmem := visibleTextsList_sub children _ hin
      unfold nodeIds at hnd
      simp only [Node.id] at e
      exact (List.nodup_cons.1 hnd).1 (e ▸ hmem)
  obtain ⟨p, hp1, hp2⟩ := parentOf_visible id v s.body hv hnd hroot
  have hnode : s.node id = some (.text id v) := by
    unfold Engine.node
    rw [findNodeList, hfind]
  have hparent : s.parentNode id = some p := by
    unfold Engine.parentNode
    rw [List.findSome?_cons, hp1]
  unfold processTextNode
  rw [hnode]
  simp only [hparent, hp2, Bool.false_eq_true, if_false, hdet]
  split_ifs
  · rw [replaceInList]
  · rfl

/-! ## One entry: a pass and a second pass -/

theorem scanLoop_matched (canon : Char → Char) (text source : JSString) (e : TermEntry)
    (fuel : Nat) (st : ScanState) (h : st.matched = true ∧ st.fragments ≠ []) :
    (scanLoop canon text source e fuel st).matched = true ∧
      (scanLoop canon text source e fuel st).fragments ≠ [] := by
  induction fuel generalizing st with
  | zero => exact h
  | succ fuel ih =>
    unfold scanLoop
    cases hx : regexExec canon source text st.lastIndex with
    | none => exact h
    | some pr =>
      obtain ⟨start, matchedText⟩ := pr
      simp only
      by_cases hc : st.lastIndex ≤ start ∧ start + matchedText.length ≤ text.length
      · rw [if_pos hc]
        exact ih _ ⟨rfl, by simp⟩
      · rw [if_neg hc]
        exact h

theorem buildFragments_unmatched (canon : Char → Char) (regexCache : RegexCache)
    (hc : CacheOk regexCache) (e : TermEntry) (hne : e.term ≠ []) (text : JSString)
    (h : ((buildFragments canon regexCache text [e]).matched &&
      decide (0 < (buildFragments canon regexCache text [e]).fragments.length)) = false) :
    NoOcc canon text e.term 0 := by
  have hl := literalOfPattern_escapeRegExp e.term
  by_cases hlt : 0 < text.length
  · obtain ⟨cache, _, heq⟩ := highlightTerm_eq canon text
      { regexCache := regexCache, lastIndex := 0, matched := false, fragments := [] }
      e hc hne hlt
    simp only at heq
    cases hx : regexExec canon (escapeRegExp e.term) text 0 with
    | none => exact regexExec_none hl hx
    | some pr =>
      exfalso
      obtain ⟨start, matchedText⟩ := pr
      have hacc := regexExec_accept hx
      have hm : (highlightTerm canon text
          { regexCache := regexCache, lastIndex := 0, matched := false, fragments := [] }
          e).matched = true ∧
          (highlightTerm canon text
          { regexCache := regexCache, lastIndex := 0, matched := false, fragments := [] }
          e).fragments ≠ [] := by
        rw [heq, scanLoop]
        simp only [hx, hacc, and_self, if_true]
        exact scanLoop_matched _ _ _ _ _ _ ⟨rfl, by simp⟩
      have hb : (buildFragments canon regexCache text [e]).matched = true ∧
          (buildFragments canon regexCache text [e]).fragments ≠ [] := by
        unfold buildFragments
        simp only [List.foldl_cons, List.foldl_nil]
        split_ifs
        · exact ⟨hm.1, by simp⟩
        · exact hm
      rw [hb.1] at h
      have hpos : 0 < (buildFragments canon regexCache text [e]).fragments.length :=
        List.length_pos.2 hb.2
      simp [hpos] at h
  · intro j hj1 hj2
    exact matchesAt_nonempty_end hne (by omega)

theorem visible_value_unique {body : Node} (hnd : (nodeIds body).Nodup) {id : Nat}
    {v w : JSString} (hv : (id, v) ∈ visibleTexts body) (hw : (id, w) ∈ visibleTexts body) :
    v = w := by
  have h1 := findNode_visible id v body hv hnd
  have h2 := findNode_visible id w body hw hnd
  rw [h1] at h2
  simp only [Option.some.injEq, Node.text.injEq, true_and] at h2
  exact h2

theorem visible_ne_root {body : Node} (hel : body.isElement = true)
    (hnd : (nodeIds body).Nodup) {p : Nat × JSString} (hv : p ∈ visibleTexts body) :
    body.id ≠ p.1 := by
  intro e
  cases body with
  | text i w => cases hel
  | comment i w => cases hel
  | element i t c a st children =>
    have hin := (visible_not_highlight hv).2
    have hmem := visibleTextsList_sub children _ hin
    unfold nodeIds at hnd
    simp only [Node.id] at e
    exact (List.nodup_cons.1 hnd).1 (e ▸ hmem)

theorem replaceIn_isElement (id : Nat) (new : List Node) (n : Node) :
    (replaceIn id new n).isElement = n.isElement := by
  cases n <;> simp [replaceIn, Node.isElement]

theorem processTextNode_single (canon : Char → Char) (e : TermEntry) (hne : e.term ≠ [])
    (s : Engine) (hwf : WellFormed s) (hc : CacheOk s.regexCache) (id : Nat) (v : JSString)
    (hv : (id, v) ∈ visibleTexts s.body) :
    ∃ s1, processTextNode canon s id [e] = .ok s1 ∧ WellFormed s1 ∧ CacheOk s1.regexCache ∧
      (NoOcc canon v e.term 0 → s1.body = s.body) ∧
      (∀ p ∈ visibleTexts s1.body,
        (p ∈ visibleTexts s.body ∧ p.1 ≠ id) ∨ NoOcc canon p.2 e.term 0) ∧
      (∀ p ∈ visibleTexts s.body, p.1 ≠ id → p ∈ visibleTexts s1.body) := by
  have hcache := buildFragments_cacheOk canon s.regexCache v [e] hc
  rw [processTextNode_visible canon s hwf id v hv [e]]
  obtain ⟨hel, hdet, hnd, hbound⟩ := hwf
  by_cases hcond : ((buildFragments canon s.regexCache v [e]).matched &&
      decide (0 < (buildFragments canon s.regexCache v [e]).fragments.length)) = true
  · rw [if_pos hcond]
    obtain ⟨m1, m2, m3, m4⟩ :=
      materialize_spec (buildFragments canon s.regexCache v [e]).fragments s.nextId
    have hfresh : ∀ x ∈ nodeIdsList
        (materialize (buildFragments canon s.regexCache v [e]).fragments s.nextId).1,
        x ∉ nodeIds s.body := by
      intro x hx hx2
      have h1 := (m2 x hx).1
      have h2 := hbound x hx2
      omega
    have hroot := visible_ne_root hel hnd hv
    have hvis := visibleTexts_replaceIn id v
      (materialize (buildFragments canon s.regexCache v [e]).fragments s.nextId).1
      s.body hv hnd hroot
    refine ⟨_, rfl, ⟨?_, rfl, ?_, ?_⟩, hcache, ?_, ?_, ?_⟩
    · simp only
      rw [replaceIn_isElement]
      exact hel
    · exact nodup_replaceIn id _ m3 s.body hnd hfresh
    · intro i hi
      simp only at hi ⊢
      rcases nodeIds_replaceIn id _ s.body i hi with h1 | h1
      · have := hbound i h1
        omega
      · exact (m2 i h1).2
    · intro hq
      have := buildFragments_quiet canon s.regexCache hc e v hq
      rw [this] at hcond
      simp at hcond
    · intro p hp
      simp only at hp
      rw [hvis, List.mem_flatMap] at hp
      obtain ⟨p0, hp0, hp1⟩ := hp
      by_cases hid : p0.1 = id
      · rw [if_pos hid] at hp1
        right
        exact buildFragments_plain canon s.regexCache hc e hne v p.2 (m4 p hp1)
      · rw [if_neg hid, List.mem_singleton] at hp1
        subst hp1
        exact Or.inl ⟨hp0, hid⟩
    · intro p hp hid
      simp only
      rw [hvis, List.mem_flatMap]
      exact ⟨p, hp, by rw [if_neg hid]; exact List.mem_singleton_self _⟩
  · rw [if_neg hcond]
    have hq := buildFragments_unmatched canon s.regexCache hc e hne v
      (by simpa using hcond)
    refine ⟨_, rfl, ⟨hel, hdet, hnd, hbound⟩, hcache, fun _ => rfl, ?_, fun p hp _ => hp⟩
    intro p hp
    simp only at hp
    by_cases hid : p.1 = id
    · right
      have hp2 : (id, p.2) ∈ visibleTexts s.body := by
        rw [← hid]
        exact hp
      rw [visible_value_unique hnd hp2 hv]
      exact hq
    · exact Or.inl ⟨hp, hid⟩

/-- The first pass: when every visible text node is still to be processed or holds no
occurrence, processing the remaining nodes returns and leaves no occurrence in any visible
text node. -/
theorem processAll_single_first (canon : Char → Char) (e : TermEntry) (hne : e.term ≠ []) :
    ∀ (todo : List Nat) (s : Engine), WellFormed s → CacheOk s.regexCache → todo.Nodup →
      (∀ id ∈ todo, ∃ v, (id, v) ∈ visibleTexts s.body) →
      (∀ p ∈ visibleTexts s.body, p.1 ∈ todo ∨ NoOcc canon p.2 e.term 0) →
      ∃ s1, processAll canon [e] todo s = .ok s1 ∧ WellFormed s1 ∧ CacheOk s1.regexCache ∧
        ∀ p ∈ visibleTexts s1.body, NoOcc canon p.2 e.term 0
  | [], s, hwf, hc, _, _, hq => by
    refine ⟨s, rfl, hwf, hc, ?_⟩
    intro p hp
    rcases hq p hp with h | h
    · cases h
    · exact h
  | id :: rest, s, hwf, hc, hnd, hvis, hq => by
    obtain ⟨v, hv⟩ := hvis id (List.mem_cons_self _ _)
    obtain ⟨s1, h1, hwf1, hc1, _, hB, hC⟩ :=
      processTextNode_single canon e hne s hwf hc id v hv
    obtain ⟨hnd1, hnd2⟩ := List.nodup_cons.1 hnd
    have hrec := processAll_single_first canon e hne rest s1 hwf1 hc1 hnd2
      (by
        intro id2 hid2
        obtain ⟨v2, hv2⟩ := hvis id2 (List.mem_cons_of_mem _ hid2)
        exact ⟨v2, hC _ hv2 (fun e2 => hnd1 (by simpa using e2 ▸ hid2))⟩)
      (by
        intro p hp
        rcases hB p hp with ⟨h2, h3⟩ | h2
        · rcases hq p h2 with h4 | h4
          · rcases List.mem_cons.1 h4 with h5 | h5
            · exact absurd h5 h3
            · exact Or.inl h5
          · exact Or.inr h4
        · exact Or.inr h2)
    obtain ⟨s2, h2, hwf2, hc2, hq2⟩ := hrec
    refine ⟨s2, ?_, hwf2, hc2, hq2⟩
    rw [processAll, h1]
    exact h2

/-- The second pass: when no visible text node holds an occurrence, processing visible text
nodes returns and leaves the body as it is. -/
theorem processAll_single_second (canon : Char → Char) (e : TermEntry) (hne : e.term ≠ []) :
    ∀ (todo : List Nat) (s : Engine), WellFormed s → CacheOk s.regexCache →
      (∀ id ∈ todo, ∃ v, (id, v) ∈ visibleTexts s.body) →
      (∀ p ∈ visibleTexts s.body, NoOcc canon p.2 e.term 0) →
      ∃ s1, processAll canon [e] todo s = .ok s1 ∧ s1.body = s.body
  | [], s, _, _, _, _ => ⟨s, rfl, rfl⟩
  | id :: rest, s, hwf, hc, hvis, hq => by
    obtain ⟨v, hv⟩ := hvis id (List.mem_cons_self _ _)
    obtain ⟨s1, h1, hwf1, hc1, hA, _, _⟩ :=
      processTextNode_single canon e hne s hwf hc id v hv
    have hb : s1.body = s.body := hA (hq _ hv)
    obtain ⟨s2, h2, hb2⟩ := processAll_single_second canon e hne rest s1 hwf1 hc1
      (by rw [hb]; exact fun id2 hid2 => hvis id2 (List.mem_cons_of_mem _ hid2))
      (by rw [hb]; exact hq)
    refine ⟨s2, ?_, hb2.trans hb⟩
    rw [processAll, h1]
    exact h2

theorem highlightPass_twice_single (canon : Char → Char) (e : TermEntry) (hne : e.term ≠ [])
    (s : Engine) (hwf : WellFormed s) (hc : CacheOk s.regexCache) :
    ∃ s1 s2, highlightPass canon [e] s = .ok s1 ∧ highlightPass canon [e] s1 = .ok s2 ∧
      s2.body = s1.body := by
  have hvis : ∀ (b : Node), ∀ id ∈ walkTextNodes b, ∃ v, (id, v) ∈ visibleTexts b := by
    intro b id hid
    rw [walkTextNodes_eq, List.mem_map] at hid
    obtain ⟨p, hp, rfl⟩ := hid
    exact ⟨p.2, hp⟩
  obtain ⟨s1, h1, hwf1, hc1, hq1⟩ := processAll_single_first canon e hne
    (walkTextNodes s.body) s hwf hc
    ((walkTextNodes_sublist s.body).nodup hwf.2.2.1) (hvis s.body)
    (by
      intro p hp
      left
      rw [walkTextNodes_eq]
      exact List.mem_map_of_mem _ hp)
  obtain ⟨s2, h2, hb⟩ := processAll_single_second canon e hne
    (walkTextNodes s1.body) s1 hwf1 hc1 (hvis s1.body) hq1
  exact ⟨s1, s2, h1, h2, hb⟩

/-! ## The bound on the scan loop and on a chunk -/

/-- Iterations beyond `text.length + 1 - lastIndex` are never used: the result of the loop
does not depend on how many more are allowed. -/
theorem scanLoop_more_fuel (canon : Char → Char) (text source lit : JSString) (e : TermEntry)
    (hl : literalOfPattern source = some lit) (hne : lit ≠ [])
    (fuel : Nat) (st : ScanState) (hfuel : text.length < fuel + st.lastIndex)
    (hle : st.lastIndex ≤ text.length) (k : Nat) :
    scanLoop canon text source e (fuel + k) st = scanLoop canon text source e fuel st := by
  induction fuel generalizing st with
  | zero => omega
  | succ fuel ih =>
    have hk : fuel + 1 + k = (fuel + k) + 1 := by omega
    rw [hk, scanLoop, scanLoop]
    cases hx : regexExec canon source text st.lastIndex with
    | none => rfl
    | some p =>
      obtain ⟨start, matchedText⟩ := p
      simp only
      have hacc := regexExec_accept hx
      rw [if_pos hacc, if_pos hacc]
      obtain ⟨_, hm, _⟩ := regexExec_matched_eq hl hx
      have hpos : 0 < lit.length := List.length_pos.2 hne
      apply ih
      · simp only; omega
      · exact hacc.2

/-- A chunk whose deadline allows all remaining nodes is the uninterrupted run over them,
followed by `isProcessing = false`. -/
theorem processNextChunk_enough (canon : Char → Char) (textNodes : List Nat)
    (terms : List TermEntry) :
    ∀ (deadline index : Nat) (s : Engine), textNodes.length ≤ index + deadline →
      processNextChunk canon textNodes terms deadline index s =
        match processAll canon terms (textNodes.drop index) s with
        | .ok s1 => .ok { s1 with isProcessing := false }
        | .error s1 => .error s1
  | 0, index, s, h => by
    have hd : textNodes.drop index = [] := List.drop_eq_nil_of_le (by omega)
    rw [processNextChunk, hd, processAll, if_neg (by omega)]
  | deadline + 1, index, s, h => by
    rw [processNextChunk]
    by_cases hlt : index < textNodes.length
    · rw [List.getElem?_eq_getElem hlt, List.drop_eq_getElem_cons hlt, processAll]
      simp only
      cases hp : processTextNode canon s textNodes[index] terms with
      | error s1 => rfl
      | ok s1 =>
        simp only
        exact processNextChunk_enough canon textNodes terms deadline (index + 1) s1 (by omega)
    · have hd : textNodes.drop index = [] := List.drop_eq_nil_of_le (by omega)
      rw [List.getElem?_eq_none (by omega), hd, processAll]

/-! ## The term index is the stable sort of the emission sequence -/

theorem collectEntries_eq (mappings : List Mapping) (groupIndex : Nat) :
    collectEntries mappings groupIndex = (mappings.enumFrom groupIndex).flatMap emittedBy := by
  induction mappings generalizing groupIndex with
  | nil => rfl
  | cons m rest ih =>
    rw [collectEntries, List.enumFrom_cons, List.flatMap_cons, ih]
    congr 1
    unfold entriesOfMapping emittedBy
    have hf : ∀ l : List JSString,
        l.filter (fun term => !term.isEmpty) = l.filter (fun term => decide (term ≠ [])) := by
      intro l
      apply List.filter_congr
      intro t _
      cases t <;> simp
    rw [hf, hf]

theorem collectEntries_emission (mappings : List Mapping) :
    collectEntries mappings 0 = emissionSequence mappings :=
  collectEntries_eq mappings 0

theorem entriesOfLength_orderedInsert (n : Nat) (a : TermEntry) (l : List TermEntry) :
    entriesOfLength n (l.orderedInsert longerFirst a) = entriesOfLength n (a :: l) := by
  induction l with
  | nil => rfl
  | cons b l ih =>
    rw [List.orderedInsert]
    by_cases hab : longerFirst a b
    · rw [if_pos hab]
    · rw [if_neg hab]
      unfold longerFirst at hab
      unfold entriesOfLength at ih ⊢
      rw [List.filter_cons, ih]
      by_cases ha : a.length = n
      · have hb : ¬ b.length = n := by omega
        simp [List.filter_cons, ha, hb]
      · simp [List.filter_cons, ha]

theorem entriesOfLength_insertionSort (n : Nat) (l : List TermEntry) :
    entriesOfLength n (l.insertionSort longerFirst) = entriesOfLength n l := by
  induction l with
  | nil => rfl
  | cons a l ih =>
    rw [List.insertionSort, entriesOfLength_orderedInsert]
    unfold entriesOfLength at ih ⊢
    rw [List.filter_cons, List.filter_cons, ih]

/-- A list sorted by descending length is determined by its entries of each length. -/
theorem sorted_determined : ∀ (l1 l2 : List TermEntry),
    List.Pairwise (fun a b : TermEntry => b.length ≤ a.length) l1 →
    List.Pairwise (fun a b : TermEntry => b.length ≤ a.length) l2 →
    (∀ n, entriesOfLength n l1 = entriesOfLength n l2) → l1 = l2
  | [], [], _, _, _ => rfl
  | [], b :: l2, _, _, h => by
    have := h b.length
    simp [entriesOfLength] at this
  | a :: l1, [], _, _, h => by
    have := h a.length
    simp [entriesOfLength] at this
  | a :: l1, b :: l2, h1, h2, h => by
    have hmem1 : ∀ x n, x ∈ entriesOfLength n (a :: l1) ↔ x ∈ entriesOfLength n (b :: l2) := by
      intro x n; rw [h n]
    have ha : a ∈ b :: l2 := by
      have := (hmem1 a a.length).1 (by simp [entriesOfLength])
      exact (List.mem_filter.1 this).1
    have hb : b ∈ a :: l1 := by
      have := (hmem1 b b.length).2 (by simp [entriesOfLength])
      exact (List.mem_filter.1 this).1
    have hle1 : a.length ≤ b.length := by
      rcases List.mem_cons.1 ha with e | e
      · rw [e]
      · exact (List.pairwise_cons.1 h2).1 a e
    have hle2 : b.length ≤ a.length := by
      rcases List.mem_cons.1 hb with e | e
      · rw [e]
      · exact (List.pairwise_cons.1 h1).1 b e
    have hlen : a.length = b.length := by omega
    have hab : a = b := by
      have := h a.length
      simp only [entriesOfLength, List.filter_cons, decide_True, if_true, hlen] at this
      simp only [hlen.symm, decide_True, if_true] at this
      exact (List.cons.inj this).1
    subst hab
    have htail : ∀ n, entriesOfLength n l1 = entriesOfLength n l2 := by
      intro n
      have := h n
      unfold entriesOfLength at this ⊢
      rw [List.filter_cons, List.filter_cons] at this
      by_cases hn : a.length = n
      · simp only [hn, decide_True, if_true] at this
        exact (List.cons.inj this).2
      · simp only [hn, decide_False, Bool.false_eq_true, if_false] at this
        exact this
    rw [sorted_determined l1 l2 (List.pairwise_cons.1 h1).2 (List.pairwise_cons.1 h2).2 htail]

/-! ## The walk visits the eligible text leaves -/

theorem eligible_blocked (chain : List Node)
    (hc : chain.all (fun ancestor => !stopsWalk ancestor) = false) :
    ∀ l : List (List Node × Nat × JSString), (∀ x ∈ l, ∃ pre, x.1 = pre ++ chain) →
      l.filter visitedLeaf = [] := by
  intro l hl
  rw [List.filter_eq_nil_iff]
  intro x hx
  obtain ⟨pre, hpre⟩ := hl x hx
  unfold visitedLeaf
  rw [hpre, List.all_append, hc]
  simp

mutual
theorem textLeaves_chain (chain : List Node) : ∀ (n : Node),
    ∀ x ∈ textLeaves chain n, ∃ pre, x.1 = pre ++ chain
  | .text i v, x, hx => by
    unfold textLeaves at hx
    simp only [List.mem_singleton] at hx
    exact ⟨[], by rw [hx]; rfl⟩
  | .comment _ _, x, hx => by
    unfold textLeaves at hx
    cases hx
  | .element i t c a s children, x, hx => by
    unfold textLeaves at hx
    obtain ⟨pre, hpre⟩ := textLeavesList_chain (.element i t c a s children :: chain) children x hx
    exact ⟨pre ++ [.element i t c a s children], by rw [hpre]; simp⟩
theorem textLeavesList_chain (chain : List Node) : ∀ (ns : List Node),
    ∀ x ∈ textLeavesList chain ns, ∃ pre, x.1 = pre ++ chain
  | [], x, hx => by
    unfold textLeavesList at hx
    cases hx
  | n :: rest, x, hx => by
    unfold textLeavesList at hx
    rcases List.mem_append.1 hx with h | h
    · exact textLeaves_chain chain n x h
    · exact textLeavesList_chain chain rest x h
end

mutual
theorem walkTextNodes_leaves (chain : List Node)
    (hc : chain.all (fun ancestor => !stopsWalk ancestor) = true) : ∀ n : Node,
    walkTextNodes n = ((textLeaves chain n).filter visitedLeaf).map (fun leaf => leaf.2.1)
  | .text i v => by
    unfold walkTextNodes textLeaves
    simp only [List.filter_cons, List.filter_nil, visitedLeaf, hc, Bool.and_true]
    cases v.all isWhiteSpace <;> rfl
  | .comment _ _ => by
    unfold walkTextNodes textLeaves
    rfl
  | .element i t c a s children => by
    by_cases hb : stopsWalk (.element i t c a s children) = true
    · have hc2 : (Node.element i t c a s children :: chain).all
          (fun ancestor => !stopsWalk ancestor) = false := by
        simp [hb]
      have hnil := eligible_blocked _ hc2 _
        (textLeavesList_chain (.element i t c a s children :: chain) children)
      unfold textLeaves
      rw [hnil]
      unfold walkTextNodes
      unfold stopsWalk at hb
      simp only [Bool.or_eq_true] at hb
      rcases hb with hb | hb
      · simp only [Bool.or_eq_true, hb, if_true]
        rfl
      · split_ifs <;> rfl
    · have hc2 : (Node.element i t c a s children :: chain).all
          (fun ancestor => !stopsWalk ancestor) = true := by
        simp only [List.all_cons, hc, Bool.and_true]
        simpa using hb
      unfold textLeaves
      rw [← walkChildren_leaves _ hc2 children]
      unfold walkTextNodes
      unfold stopsWalk at hb
      simp only [Bool.or_eq_true, not_or] at hb
      rw [if_neg (by simpa using hb.1), if_neg hb.2]
theorem walkChildren_leaves (chain : List Node)
    (hc : chain.all (fun ancestor => !stopsWalk ancestor) = true) : ∀ ns : List Node,
    walkChildren ns =
      ((textLeavesList chain ns).filter visitedLeaf).map (fun leaf => leaf.2.1)
  | [] => by
    unfold walkChildren textLeavesList
    rfl
  | n :: rest => by
    unfold walkChildren textLeavesList
    rw [List.filter_append, List.map_append, ← walkTextNodes_leaves chain hc n,
      ← walkChildren_leaves chain hc rest]
end

/-! ## The busy flag is only read by the incremental pass -/

theorem processTextNode_isProcessing (canon : Char → Char) (s : Engine) (textNode : Nat)
    (terms : List TermEntry) :
    (stateOf (processTextNode canon s textNode terms)).isProcessing = s.isProcessing := by
  unfold processTextNode
  split
  · simp only
    split_ifs
    · rfl
    · split <;> rfl
    · rfl
  · rfl

theorem processAll_isProcessing (canon : Char → Char) (terms : List TermEntry) :
    ∀ (textNodes : List Nat) (s : Engine),
      (stateOf (processAll canon terms textNodes s)).isProcessing = s.isProcessing
  | [], s => rfl
  | textNode :: rest, s => by
    have h := processTextNode_isProcessing canon s textNode terms
    rw [processAll]
    cases hp : processTextNode canon s textNode terms with
    | error s1 =>
      rw [hp] at h
      exact h
    | ok s1 =>
      rw [hp] at h
      simp only
      rw [processAll_isProcessing canon terms rest s1]
      exact h

theorem processNodes_isProcessing (canon : Char → Char) (terms : List TermEntry) :
    ∀ (nodes : List (Option Nat)) (s : Engine),
      (stateOf (processNodes canon terms nodes s)).isProcessing = s.isProcessing
  | [], s => rfl
  | none :: _, s => rfl
  | some node :: rest, s => by
    rw [processNodes]
    generalize (match s.node node with
      | some n => walkTextNodes n
      | none => []) = textNodes
    have h := processAll_isProcessing canon terms textNodes s
    cases hp : processAll canon terms textNodes s with
    | error s1 =>
      rw [hp] at h
      exact h
    | ok s1 =>
      rw [hp] at h
      simp only
      rw [processNodes_isProcessing canon terms rest s1]
      exact h

theorem processNewContent_isProcessing (canon : Char → Char) (nodes : List (Option Nat))
    (s : Engine) :
    (stateOf (processNewContent canon nodes s)).isProcessing = s.isProcessing := by
  unfold processNewContent
  split_ifs
  · rfl
  · exact processNodes_isProcessing canon _ nodes s

/-! ## The place of a node in the tree -/

theorem plugList_append (up1 up2 : List Frame) (cur : List Node) :
    plugList (up1 ++ up2) cur = plugList up2 (plugList up1 cur) := by
  induction up1 generalizing cur with
  | nil => rfl
  | cons f up ih =>
    rw [List.cons_append, plugList, plugList, ih]

mutual
theorem decompose_node : ∀ (n : Node) (h : Nat), h ∈ nodeIds n → n.id ≠ h →
    ∃ up hn, up ≠ [] ∧ hn.id = h ∧ [n] = plugList up [hn]
  | .text i v, h, hm, hne => by
    unfold nodeIds at hm
    simp only [List.mem_singleton] at hm
    exact absurd hm.symm hne
  | .comment i v, h, hm, hne => by
    unfold nodeIds at hm
    simp only [List.mem_singleton] at hm
    exact absurd hm.symm hne
  | .element i t c a s children, h, hm, hne => by
    unfold nodeIds at hm
    rcases List.mem_cons.1 hm with e | hin
    · exact absurd e.symm hne
    · have := decompose_children children h hin i t c a s []
      simpa using this
theorem decompose_children : ∀ (todo : List Node) (h : Nat), h ∈ nodeIdsList todo →
    ∀ (i : Nat) (t : String) (c a : List String) (s : List (String × String))
      (done : List Node),
      ∃ up hn, up ≠ [] ∧ hn.id = h ∧
        [Node.element i t c a s (done ++ todo)] = plugList up [hn]
  | [], h, hm, _, _, _, _, _, _ => by
    unfold nodeIdsList at hm
    cases hm
  | n :: rest, h, hm, i, t, c, a, s, done => by
    rw [nodeIdsList_cons] at hm
    by_cases hin : h ∈ nodeIds n
    · by_cases hid : n.id = h
      · refine ⟨[⟨i, t, c, a, s, done, rest⟩], n, by simp, hid, ?_⟩
        simp [plugList, Frame.close]
      · obtain ⟨up, hn, _, h2, h3⟩ := decompose_node n h hin hid
        refine ⟨up ++ [⟨i, t, c, a, s, done, rest⟩], hn, by simp, h2, ?_⟩
        rw [plugList_append, ← h3]
        simp [plugList, Frame.close]
    · have hrest : h ∈ nodeIdsList rest := by
        rcases List.mem_append.1 hm with e | e
        · exact absurd e hin
        · exact e
      obtain ⟨up, hn, h1, h2, h3⟩ := decompose_children rest h hrest i t c a s (done ++ [n])
      refine ⟨up, hn, h1, h2, ?_⟩
      rw [← h3]
      simp
end

/-- A document-order listing splits at a position into what comes before, the listing of the
nodes there, and what comes after. -/
theorem plugList_listing {α : Type} (F : List Node → List α) (hdr : Frame → List α)
    (happ : ∀ a b, F (a ++ b) = F a ++ F b)
    (hel : ∀ (f : Frame) (cur : List Node), F [f.close cur] = hdr f ++ F (f.left ++ cur ++ f.right)) :
    ∀ (up : List Frame) (cur : List Node),
      F (plugList up cur) = ctxPre F hdr up ++ F cur ++ ctxPost F up
  | [], cur => by simp [plugList, ctxPre, ctxPost]
  | f :: up, cur => by
    rw [plugList, plugList_listing F hdr happ hel up, hel, happ, happ]
    simp [ctxPre, ctxPost, List.append_assoc]

theorem nodeIdsList_single (n : Node) : nodeIdsList [n] = nodeIds n := by
  rw [nodeIdsList_cons, nodeIdsList, List.append_nil]

theorem nodeIdsList_close (f : Frame) (cur : List Node) :
    nodeIdsList [f.close cur] = [f.id] ++ nodeIdsList (f.left ++ cur ++ f.right) := by
  rw [nodeIdsList_single, Frame.close, nodeIds]
  rfl

theorem nodeIdsList_plug (up : List Frame) (cur : List Node) :
    nodeIdsList (plugList up cur) =
      ctxPre nodeIdsList (fun f => [f.id]) up ++ nodeIdsList cur ++ ctxPost nodeIdsList up :=
  plugList_listing nodeIdsList (fun f => [f.id]) nodeIdsList_append nodeIdsList_close up cur

theorem textContentList_cons (n : Node) (rest : List Node) :
    textContentList (n :: rest) = textContent n ++ textContentList rest := by
  rw [textContentList]

theorem textContentList_append (a b : List Node) :
    textContentList (a ++ b) = textContentList a ++ textContentList b := by
  induction a with
  | nil => simp [textContentList]
  | cons n rest ih =>
    rw [List.cons_append, textContentList_cons, textContentList_cons, ih, List.append_assoc]

theorem textContentList_single (n : Node) : textContentList [n] = textContent n := by
  rw [textContentList_cons, textContentList, List.append_nil]

theorem textContentList_close (f : Frame) (cur : List Node) :
    textContentList [f.close cur] = [] ++ textContentList (f.left ++ cur ++ f.right) := by
  rw [textContentList_single, Frame.close, textContent]
  rfl

theorem textContentList_plug (up : List Frame) (cur : List Node) :
    textContentList (plugList up cur) =
      ctxPre textContentList (fun _ => []) up ++ textContentList cur ++
        ctxPost textContentList up :=
  plugList_listing textContentList (fun _ => []) textContentList_append
    textContentList_close up cur

/-- With distinct identities, a node at the position is in none of the siblings of the frame
around it, and is not the frame's element. -/
theorem frame_fresh {f : Frame} {up : List Frame} {cur : List Node} {h : Nat}
    (hnd : (nodeIdsList (plugList (f :: up) cur)).Nodup) (hin : h ∈ nodeIdsList cur) :
    (nodeIdsList (plugList up [f.close cur])).Nodup ∧ h ∈ nodeIdsList [f.close cur] ∧
      f.id ≠ h ∧ h ∉ nodeIdsList f.left ∧ h ∉ nodeIdsList f.right := by
  rw [plugList] at hnd
  refine ⟨hnd, ?_⟩
  rw [nodeIdsList_plug] at hnd
  have h1 : (nodeIdsList [f.close cur]).Nodup :=
    (List.nodup_append.1 (List.nodup_append.1 hnd).1).2.1
  rw [nodeIdsList_close, nodeIdsList_append, nodeIdsList_append] at h1 ⊢
  simp only [List.singleton_append, List.nodup_cons, List.mem_append, not_or,
    List.nodup_append, List.mem_cons] at h1 ⊢
  obtain ⟨⟨⟨hf1, hf2⟩, hf3⟩, ⟨hl, hc, hd1⟩, hr, hd2⟩ := h1
  refine ⟨Or.inr (Or.inl (Or.inr hin)), ?_, ?_, ?_⟩
  · intro e
    exact hf2 (e ▸ hin)
  · intro e
    exact hd1 e hin
  · intro e
    exact hd2 (List.mem_append_right _ hin) e

theorem findNodeList_cons (id : Nat) (n : Node) (rest : List Node) :
    findNodeList id (n :: rest) =
      match findNode id n with
      | some r => some r
      | none => findNodeList id rest := by
  rw [findNodeList]

theorem findNodeList_append_left (id : Nat) (a b : List Node) (h : id ∉ nodeIdsList a) :
    findNodeList id (a ++ b) = findNodeList id b := by
  induction a with
  | nil => rfl
  | cons n rest ih =>
    rw [nodeIdsList_cons] at h
    rw [List.cons_append, findNodeList_cons,
      findNode_none id n (fun e => h (List.mem_append_left _ e))]
    exact ih (fun e => h (List.mem_append_right _ e))

theorem findNodeList_append_right (id : Nat) (a b : List Node) (h : id ∉ nodeIdsList b) :
    findNodeList id (a ++ b) = findNodeList id a := by
  induction a with
  | nil =>
    rw [List.nil_append, findNodeList_none id b h]
    rfl
  | cons n rest ih =>
    rw [List.cons_append, findNodeList_cons, findNodeList_cons, ih]

theorem findNodeList_close (id : Nat) (f : Frame) (cur : List Node) (hf : f.id ≠ id)
    (hl : id ∉ nodeIdsList f.left) (hr : id ∉ nodeIdsList f.right) :
    findNodeList id [f.close cur] = findNodeList id cur := by
  rw [findNodeList_cons, Frame.close, findNode, if_neg hf, List.append_assoc,
    findNodeList_append_left id _ _ hl, findNodeList_append_right id _ _ hr]
  cases findNodeList id cur <;> rfl

theorem findNodeList_plug (id : Nat) : ∀ (up : List Frame) (cur : List Node),
    (nodeIdsList (plugList up cur)).Nodup → id ∈ nodeIdsList cur →
    findNodeList id (plugList up cur) = findNodeList id cur
  | [], cur, _, _ => rfl
  | f :: up, cur, hnd, hin => by
    obtain ⟨h1, h2, h3, h4, h5⟩ := frame_fresh hnd hin
    rw [plugList, findNodeList_plug id up _ h1 h2, findNodeList_close id f cur h3 h4 h5]

theorem replaceInList_append_left (id : Nat) (new a b : List Node)
    (h : id ∉ nodeIdsList a) :
    replaceInList id new (a ++ b) = a ++ replaceInList id new b := by
  induction a with
  | nil => rfl
  | cons n rest ih =>
    rw [nodeIdsList_cons] at h
    have h1 : id ∉ nodeIds n := fun e => h (List.mem_append_left _ e)
    have h2 : n.id ≠ id := fun e => h1 (e ▸ id_mem_nodeIds n)
    rw [List.cons_append, replaceInList_cons, if_neg h2, replaceIn_none id new n h1,
      ih (fun e => h (List.mem_append_right _ e))]
    rfl

theorem replaceInList_append_right (id : Nat) (new a b : List Node)
    (h : id ∉ nodeIdsList b) :
    replaceInList id new (a ++ b) = replaceInList id new a ++ b := by
  induction a with
  | nil =>
    rw [List.nil_append, replaceInList_none id new b h]
    rfl
  | cons n rest ih =>
    rw [List.cons_append, replaceInList_cons, replaceInList_cons]
    by_cases hid : n.id = id
    · rw [if_pos hid, if_pos hid, List.append_assoc]
    · rw [if_neg hid, if_neg hid, ih]
      rfl

theorem replaceInList_close (id : Nat) (new : List Node) (f : Frame) (cur : List Node)
    (hf : f.id ≠ id) (hl : id ∉ nodeIdsList f.left) (hr : id ∉ nodeIdsList f.right) :
    replaceInList id new [f.close cur] = [f.close (replaceInList id new cur)] := by
  have hid : (f.close cur).id ≠ id := hf
  rw [replaceInList_cons, if_neg hid, replaceInList, Frame.close, replaceIn, List.append_assoc,
    replaceInList_append_left id new _ _ hl, replaceInList_append_right id new _ _ hr]
  simp [Frame.close]

theorem replaceInList_plug (id : Nat) (new : List Node) : ∀ (up : List Frame)
    (cur : List Node), (nodeIdsList (plugList up cur)).Nodup → id ∈ nodeIdsList cur →
    replaceInList id new (plugList up cur) = plugList up (replaceInList id new cur)
  | [], cur, _, _ => rfl
  | f :: up, cur, hnd, hin => by
    obtain ⟨h1, h2, h3, h4, h5⟩ := frame_fresh hnd hin
    rw [plugList, replaceInList_plug id new up _ h1 h2, replaceInList_close id new f cur h3 h4 h5]
    rfl

theorem clearChildrenList_cons (id : Nat) (n : Node) (rest : List Node) :
    clearChildrenList id (n :: rest) = clearChildren id n :: clearChildrenList id rest := by
  rw [clearChildrenList]

mutual
theorem clearChildren_none (id : Nat) : ∀ n : Node, id ∉ nodeIds n → clearChildren id n = n
  | .text i v, _ => by
    unfold clearChildren
    rfl
  | .comment i v, _ => by
    unfold clearChildren
    rfl
  | .element i t c a s children, h => by
    unfold nodeIds at h
    have h1 : i ≠ id := fun e => h (by simp [e])
    unfold clearChildren
    rw [if_neg h1, clearChildrenList_none id children (fun e => h (List.mem_cons_of_mem _ e))]
theorem clearChildrenList_none (id : Nat) : ∀ ns : List Node, id ∉ nodeIdsList ns →
    clearChildrenList id ns = ns
  | [], _ => by
    unfold clearChildrenList
    rfl
  | n :: rest, h => by
    rw [nodeIdsList_cons] at h
    rw [clearChildrenList_cons, clearChildren_none id n (fun e => h (List.mem_append_left _ e)),
      clearChildrenList_none id rest (fun e => h (List.mem_append_right _ e))]
end

theorem clearChildrenList_append (id : Nat) (a b : List Node) :
    clearChildrenList id (a ++ b) = clearChildrenList id a ++ clearChildrenList id b := by
  induction a with
  | nil => simp [clearChildrenList]
  | cons n rest ih =>
    rw [List.cons_append, clearChildrenList_cons, clearChildrenList_cons, ih]
    rfl

theorem clearChildrenList_close (id : Nat) (f : Frame) (cur : List Node)
    (hf : f.id ≠ id) (hl : id ∉ nodeIdsList f.left) (hr : id ∉ nodeIdsList f.right) :
    clearChildrenList id [f.close cur] = [f.close (clearChildrenList id cur)] := by
  rw [clearChildrenList_cons, clearChildrenList, Frame.close, clearChildren, if_neg hf,
    clearChildrenList_append, clearChildrenList_append, clearChildrenList_none id _ hl,
    clearChildrenList_none id _ hr]
  rfl

theorem clearChildrenList_plug (id : Nat) : ∀ (up : List Frame) (cur : List Node),
    (nodeIdsList (plugList up cur)).Nodup → id ∈ nodeIdsList cur →
    clearChildrenList id (plugList up cur) = plugList up (clearChildrenList id cur)
  | [], cur, _, _ => rfl
  | f :: up, cur, hnd, hin => by
    obtain ⟨h1, h2, h3, h4, h5⟩ := frame_fresh hnd hin
    rw [plugList, clearChildrenList_plug id up _ h1 h2, clearChildrenList_close id f cur h3 h4 h5]
    rfl

/-! ## Engine-made markers -/

theorem engineMadeList_cons (n : Node) (rest : List Node) :
    engineMadeList (n :: rest) = (engineMade n && engineMadeList rest) := by
  rw [engineMadeList]

theorem engineMadeList_append (a b : List Node) :
    engineMadeList (a ++ b) = (engineMadeList a && engineMadeList b) := by
  induction a with
  | nil => simp [engineMadeList]
  | cons n rest ih =>
    rw [List.cons_append, engineMadeList_cons, engineMadeList_cons, ih, Bool.and_assoc]

theorem engineMadeList_single (n : Node) : engineMadeList [n] = engineMade n := by
  rw [engineMadeList_cons, engineMadeList, Bool.and_true]

theorem markerTextsList_cons (n : Node) (rest : List Node) :
    markerTextsList (n :: rest) = markerTexts n ++ markerTextsList rest := by
  rw [markerTextsList]

theorem markerTextsList_append (a b : List Node) :
    markerTextsList (a ++ b) = markerTextsList a ++ markerTextsList b := by
  induction a with
  | nil => simp [markerTextsList]
  | cons n rest ih =>
    rw [List.cons_append, markerTextsList_cons, markerTextsList_cons, ih, List.append_assoc]

theorem markerTextsList_single (n : Node) : markerTextsList [n] = markerTexts n := by
  rw [markerTextsList_cons, markerTextsList, List.append_nil]

mutual
theorem markerTexts_sub : ∀ (n : Node) (p : Nat × JSString), p ∈ markerTexts n →
    p.1 ∈ nodeIds n
  | .text _ _, p, h => by
    unfold markerTexts at h
    cases h
  | .comment _ _, p, h => by
    unfold markerTexts at h
    cases h
  | .element i _ c _ _ children, p, h => by
    unfold markerTexts at h
    unfold nodeIds
    split_ifs at h
    · simp only [List.mem_singleton] at h
      subst h
      exact List.mem_cons_self _ _
    · exact List.mem_cons_of_mem _ (markerTextsList_sub children p h)
theorem markerTextsList_sub : ∀ (ns : List Node) (p : Nat × JSString),
    p ∈ markerTextsList ns → p.1 ∈ nodeIdsList ns
  | [], p, h => by
    unfold markerTextsList at h
    cases h
  | n :: rest, p, h => by
    rw [markerTextsList_cons] at h
    rw [nodeIdsList_cons]
    rcases List.mem_append.1 h with h1 | h1
    · exact List.mem_append_left _ (markerTexts_sub n p h1)
    · exact List.mem_append_right _ (markerTextsList_sub rest p h1)
end

theorem queryHighlightsList_cons (n : Node) (rest : List Node) :
    queryHighlightsList (n :: rest) = queryHighlights n ++ queryHighlightsList rest := by
  rw [queryHighlightsList]

mutual
theorem queryHighlights_made : ∀ n : Node, engineMade n = true →
    queryHighlights n = (markerTexts n).map Prod.fst
  | .text _ _, _ => by
    unfold queryHighlights markerTexts
    rfl
  | .comment _ _, _ => by
    unfold queryHighlights markerTexts
    rfl
  | .element i t c a s children, h => by
    unfold engineMade at h
    unfold queryHighlights markerTexts
    by_cases hm : c.contains highlightClass = true
    · rw [if_pos hm] at h
      rw [if_pos hm, if_pos hm]
      split at h
      · simp [queryHighlightsList, queryHighlights]
      · cases h
    · rw [if_neg hm] at h
      rw [if_neg hm, if_neg hm, List.nil_append]
      exact queryHighlightsList_made children h
theorem queryHighlightsList_made : ∀ ns : List Node, engineMadeList ns = true →
    queryHighlightsList ns = (markerTextsList ns).map Prod.fst
  | [], _ => by
    unfold queryHighlightsList markerTextsList
    rfl
  | n :: rest, h => by
    rw [engineMadeList_cons, Bool.and_eq_true] at h
    rw [queryHighlightsList_cons, markerTextsList_cons, List.map_append,
      queryHighlights_made n h.1, queryHighlightsList_made rest h.2]
end

theorem engineMade_close {f : Frame} {cur : List Node} (h : engineMade (f.close cur) = true)
    (hel : cur.any Node.isElement = true) :
    f.classList.contains highlightClass = false ∧
      engineMadeList (f.left ++ cur ++ f.right) = true := by
  unfold Frame.close engineMade at h
  by_cases hm : f.classList.contains highlightClass = true
  · exfalso
    rw [if_pos hm] at h
    obtain ⟨x, hx, hxe⟩ := List.any_eq_true.1 hel
    split at h
    · rename_i i v heq
      have hmem : x ∈ f.left ++ cur ++ f.right :=
        List.mem_append_left _ (List.mem_append_right _ hx)
      rw [heq, List.mem_singleton] at hmem
      subst hmem
      cases hxe
    · cases h
  · rw [if_neg hm] at h
    exact ⟨by simpa using hm, h⟩

theorem engineMade_close_eq (f : Frame) (cur : List Node)
    (h : f.classList.contains highlightClass = false) :
    engineMade (f.close cur) = engineMadeList (f.left ++ cur ++ f.right) := by
  unfold Frame.close engineMade
  rw [if_neg (by rw [h]; exact Bool.false_ne_true)]

theorem markerTexts_close_eq (f : Frame) (cur : List Node)
    (h : f.classList.contains highlightClass = false) :
    markerTexts (f.close cur) = markerTextsList (f.left ++ cur ++ f.right) := by
  unfold Frame.close markerTexts
  rw [if_neg (by rw [h]; exact Bool.false_ne_true)]

theorem engineMadeList_plug_of : ∀ (up : List Frame) (cur : List Node),
    engineMadeList (plugList up cur) = true → cur.any Node.isElement = true →
    ctxMade up ∧ engineMadeList cur = true
  | [], cur, h, _ => ⟨fun f hf => absurd hf (List.not_mem_nil _), h⟩
  | f :: up, cur, h, hel => by
    rw [plugList] at h
    obtain ⟨h1, h2⟩ := engineMadeList_plug_of up [f.close cur] h (by simp [Frame.close, Node.isElement])
    rw [engineMadeList_single] at h2
    obtain ⟨h3, h4⟩ := engineMade_close h2 hel
    rw [engineMadeList_append, engineMadeList_append, Bool.and_eq_true, Bool.and_eq_true] at h4
    refine ⟨?_, h4.1.2⟩
    intro g hg
    rcases List.mem_cons.1 hg with e | e
    · subst e
      exact ⟨h3, h4.1.1, h4.2⟩
    · exact h1 g e

theorem engineMadeList_plug : ∀ (up : List Frame) (cur : List Node), ctxMade up →
    engineMadeList (plugList up cur) = engineMadeList cur
  | [], cur, _ => rfl
  | f :: up, cur, h => by
    obtain ⟨h1, h2, h3⟩ := h f (List.mem_cons_self _ _)
    rw [plugList, engineMadeList_plug up _ (fun g hg => h g (List.mem_cons_of_mem _ hg)),
      engineMadeList_single, engineMade_close_eq f cur h1,
      engineMadeList_append, engineMadeList_append, h2, h3]
    simp

theorem markerTextsList_plug : ∀ (up : List Frame) (cur : List Node), ctxMade up →
    markerTextsList (plugList up cur) =
      ctxPre markerTextsList (fun _ => []) up ++ markerTextsList cur ++
        ctxPost markerTextsList up
  | [], cur, _ => by simp [plugList, ctxPre, ctxPost]
  | f :: up, cur, h => by
    obtain ⟨h1, _, _⟩ := h f (List.mem_cons_self _ _)
    rw [plugList, markerTextsList_plug up _ (fun g hg => h g (List.mem_cons_of_mem _ hg)),
      markerTextsList_single, markerTexts_close_eq f cur h1,
      markerTextsList_append, markerTextsList_append]
    simp [ctxPre, ctxPost, List.append_assoc]

theorem ctxPre_marker_sub : ∀ (up : List Frame) (p : Nat × JSString),
    p ∈ ctxPre markerTextsList (fun _ => []) up →
    p.1 ∈ ctxPre nodeIdsList (fun f => [f.id]) up
  | [], p, h => by
    simp [ctxPre] at h
  | f :: up, p, h => by
    simp only [ctxPre, List.nil_append, List.mem_append] at h ⊢
    rcases h with h | h
    · exact Or.inl (ctxPre_marker_sub up p h)
    · exact Or.inr (Or.inr (markerTextsList_sub f.left p h))

theorem ctxPost_marker_sub : ∀ (up : List Frame) (p : Nat × JSString),
    p ∈ ctxPost markerTextsList up → p.1 ∈ ctxPost nodeIdsList up
  | [], p, h => by
    simp [ctxPost] at h
  | f :: up, p, h => by
    simp only [ctxPost, List.mem_append] at h ⊢
    rcases h with h | h
    · exact Or.inl (markerTextsList_sub f.right p h)
    · exact Or.inr (ctxPost_marker_sub up p h)

/-- A marker of the whole tree whose identity occurs nowhere around the position is a marker
of the nodes at the position. -/
theorem marker_at_position (p : Nat × JSString) : ∀ (up : List Frame) (cur : List Node),
    p ∈ markerTextsList (plugList up cur) →
    p.1 ∉ ctxPre nodeIdsList (fun f => [f.id]) up → p.1 ∉ ctxPost nodeIdsList up →
    p ∈ markerTextsList cur
  | [], cur, h, _, _ => h
  | f :: up, cur, h, hpre, hpost => by
    simp only [ctxPre, ctxPost, List.mem_append, not_or, List.mem_singleton] at hpre hpost
    rw [plugList] at h
    have h1 := marker_at_position p up [f.close cur] h hpre.1 hpost.2
    rw [markerTextsList_single, Frame.close, markerTexts] at h1
    split_ifs at h1
    · simp only [List.mem_singleton] at h1
      exact absurd (by rw [h1]) hpre.2.1
    · rw [markerTextsList_append, markerTextsList_append] at h1
      rcases List.mem_append.1 h1 with h2 | h2
      · rcases List.mem_append.1 h2 with h3 | h3
        · exact absurd (markerTextsList_sub f.left p h3) hpre.2.2
        · exact h3
      · exact absurd (markerTextsList_sub f.right p h2) hpost.1

/-! ## One step of the highlight removal -/

theorem nodup_middle {α : Type} {a m b : List α} (h : (a ++ m ++ b).Nodup) :
    m.Nodup ∧ (∀ x ∈ m, x ∉ a) ∧ (∀ x ∈ m, x ∉ b) := by
  rw [List.nodup_append] at h
  obtain ⟨h1, _, h3⟩ := h
  rw [List.nodup_append] at h1
  obtain ⟨_, h5, h6⟩ := h1
  exact ⟨h5, fun x hx hxa => h6 hxa hx, fun x hx hxb => h3 (List.mem_append_right _ hx) hxb⟩

/-- The node of a marker of an engine-made, well-formed body: a highlight span with a single
text node, at a position none of whose frames is a highlight span. -/
theorem marker_node (body : Node) (hel : body.isElement = true)
    (hnm : body.isHighlight = false) (hmade : engineMade body = true)
    (hnd : (nodeIds body).Nodup) (h : Nat) (t : JSString)
    (hmem : (h, t) ∈ markerTexts body) :
    ∃ (up : List Frame) (tg : String) (c a : List String) (st : List (String × String))
      (i : Nat),
      [body] = plugList up [.element h tg c a st [.text i t]] ∧
      c.contains highlightClass = true ∧ ctxMade up ∧ body.id ≠ h := by
  have hin : h ∈ nodeIds body := markerTexts_sub body _ hmem
  have hroot : body.id ≠ h := by
    intro e
    cases body with
    | text i w => cases hel
    | comment i w => cases hel
    | element i tg c a st children =>
      have hnm2 : c.contains highlightClass = false := hnm
      unfold markerTexts at hmem
      rw [if_neg (by rw [hnm2]; exact Bool.false_ne_true)] at hmem
      have := markerTextsList_sub children _ hmem
      unfold nodeIds at hnd
      simp only [Node.id] at e
      exact (List.nodup_cons.1 hnd).1 (e ▸ this)
  obtain ⟨up, hn, _, hid, hplug⟩ := decompose_node body h hin hroot
  have hndL : (nodeIdsList (plugList up [hn])).Nodup := by
    rw [← hplug, nodeIdsList_single]
    exact hnd
  have hmid := nodup_middle (by rw [nodeIdsList_plug] at hndL; exact hndL)
  have hinhn : h ∈ nodeIdsList [hn] := by
    rw [nodeIdsList_single, ← hid]
    exact id_mem_nodeIds hn
  have hmemL : (h, t) ∈ markerTextsList (plugList up [hn]) := by
    rw [← hplug, markerTextsList_single]
    exact hmem
  have hat := marker_at_position (h, t) up [hn] hmemL (hmid.2.1 h hinhn) (hmid.2.2 h hinhn)
  rw [markerTextsList_single] at hat
  have hmadeL : engineMadeList (plugList up [hn]) = true := by
    rw [← hplug, engineMadeList_single]
    exact hmade
  cases hn with
  | text i w =>
    unfold markerTexts at hat
    cases hat
  | comment i w =>
    unfold markerTexts at hat
    cases hat
  | element j tg c a st children =>
    simp only [Node.id] at hid
    subst hid
    obtain ⟨hctx, hmhn⟩ := engineMadeList_plug_of up _ hmadeL (by simp [Node.isElement])
    rw [engineMadeList_single] at hmhn
    have hndhn : (nodeIds (.element j tg c a st children)).Nodup := by
      have := hmid.1
      rw [nodeIdsList_single] at this
      exact this
    unfold markerTexts at hat
    unfold engineMade at hmhn
    by_cases hm : c.contains highlightClass = true
    · rw [if_pos hm] at hat hmhn
      simp only [List.mem_singleton, Prod.mk.injEq, true_and] at hat
      split at hmhn
      · rename_i i v
        rw [textContentList_single, textContent] at hat
        subst hat
        exact ⟨up, tg, c, a, st, i, hplug, hm, hctx, hroot⟩
      · cases hmhn
    · exfalso
      rw [if_neg hm] at hat
      have := markerTextsList_sub children _ hat
      unfold nodeIds at hndhn
      exact (List.nodup_cons.1 hndhn).1 this

theorem nodeIdsList_textOf (pairs : List (Nat × JSString)) :
    nodeIdsList (pairs.map textOf) = pairs.map Prod.fst := by
  induction pairs with
  | nil => rfl
  | cons p rest ih =>
    rw [List.map_cons, nodeIdsList_cons, ih]
    rfl

theorem clearChildrenList_textOf (id : Nat) (pairs : List (Nat × JSString)) :
    clearChildrenList id (pairs.map textOf) = pairs.map textOf := by
  induction pairs with
  | nil => rfl
  | cons p rest ih =>
    rw [List.map_cons, clearChildrenList_cons, ih]
    rfl

theorem cloneList_textOf (pairs : List (Nat × JSString)) (next : Nat) :
    cloneList (pairs.map textOf) next =
      (textCopies next (pairs.map Prod.snd), next + pairs.length) := by
  induction pairs generalizing next with
  | nil => rfl
  | cons p rest ih =>
    rw [List.map_cons, cloneList, ih]
    simp only [textOf, cloneNode, List.map_cons, textCopies, List.length_cons]
    congr 1
    omega

theorem textCopies_ids (next : Nat) (ts : List JSString) :
    (nodeIdsList (textCopies next ts)).Nodup ∧
      ∀ x ∈ nodeIdsList (textCopies next ts), next ≤ x ∧ x < next + ts.length := by
  induction ts generalizing next with
  | nil => simp [textCopies, nodeIdsList]
  | cons t rest ih =>
    obtain ⟨h1, h2⟩ := ih (next + 1)
    rw [textCopies, nodeIdsList_cons]
    simp only [nodeIds, List.singleton_append, List.nodup_cons, List.mem_cons, List.length_cons]
    refine ⟨⟨fun hx => ?_, h1⟩, ?_⟩
    · have := h2 next hx
      omega
    · intro x hx
      rcases hx with rfl | hx
      · omega
      · have := h2 x hx
        omega

theorem textCopies_text (next : Nat) (ts : List JSString) :
    textContentList (textCopies next ts) = ts.flatten := by
  induction ts generalizing next with
  | nil => rfl
  | cons t rest ih =>
    rw [textCopies, textContentList_cons, ih, textContent, List.flatten_cons]

theorem textCopies_made (next : Nat) (ts : List JSString) :
    engineMadeList (textCopies next ts) = true ∧ markerTextsList (textCopies next ts) = [] := by
  induction ts generalizing next with
  | nil => exact ⟨rfl, rfl⟩
  | cons t rest ih =>
    obtain ⟨h1, h2⟩ := ih (next + 1)
    rw [textCopies, engineMadeList_cons, markerTextsList_cons, h1, h2]
    exact ⟨rfl, rfl⟩

theorem replaceIn_isHighlight (id : Nat) (new : List Node) (n : Node) :
    (replaceIn id new n).isHighlight = n.isHighlight := by
  cases n <;> simp [replaceIn, Node.isHighlight]

theorem clearChildren_id (id : Nat) (n : Node) : (clearChildren id n).id = n.id := by
  cases n with
  | text i v => rfl
  | comment i v => rfl
  | element i t c a s children =>
    unfold clearChildren
    split_ifs <;> rfl

theorem singleton_plug_eq {a b : Node} {up : List Frame} {cur : List Node}
    (ha : [a] = plugList up cur) (hb : [b] = plugList up cur) : a = b := by
  have := ha.trans hb.symm
  exact (List.cons.inj this).1

/-- One step of `highlights.forEach` on an engine-made document: the first remaining marker
makes way for copies of the texts of all markers up to it. -/
theorem removeHighlight_step (body : Node) (fragment : List Node) (next : Nat) (h : Nat)
    (t : JSString) (rest : List (Nat × JSString)) (earlier : List JSString)
    (inv : RevertInv body fragment next ((h, t) :: rest) earlier) :
    ∃ fragment2,
      removeHighlight (body, fragment, next) h =
        (replaceIn h (textCopies next (earlier ++ [t])) body, fragment2,
          next + earlier.length + 1) ∧
      RevertInv (replaceIn h (textCopies next (earlier ++ [t])) body) fragment2
        (next + earlier.length + 1) rest (earlier ++ [t]) ∧
      ∃ pre post, textContent body = pre ++ t ++ post ∧
        textContent (replaceIn h (textCopies next (earlier ++ [t])) body) =
          pre ++ (earlier ++ [t]).flatten ++ post := by
  obtain ⟨hel, hnm, hmade, hnd, hbound, hmark, pairs, hfrag, hearlier, hpairs⟩ := inv
  have hmem : (h, t) ∈ markerTexts body := by
    rw [hmark]
    exact List.mem_cons_self _ _
  obtain ⟨up, tg, c, a, st, i, hplug, hm, hctx, hroot⟩ :=
    marker_node body hel hnm hmade hnd h t hmem
  have hndL : (nodeIdsList (plugList up [.element h tg c a st [.text i t]])).Nodup := by
    rw [← hplug, nodeIdsList_single]
    exact hnd
  have hids : nodeIds body = ctxPre nodeIdsList (fun f => [f.id]) up ++ [h, i] ++
      ctxPost nodeIdsList up := by
    rw [← nodeIdsList_single, hplug, nodeIdsList_plug]
    simp [nodeIdsList, nodeIds]
  have hmid := nodup_middle (hids ▸ hnd)
  have hhi : h ≠ i := by
    have := hmid.1
    simp only [List.nodup_cons, List.mem_singleton] at this
    exact this.1
  have hinh : h ∈ nodeIdsList [Node.element h tg c a st [.text i t]] := by
    simp [nodeIdsList, nodeIds]
  have hcopies := textCopies_ids next (earlier ++ [t])
  have hlen : earlier.length = pairs.length := by
    rw [← hearlier, List.length_map]
  -- the lookup of the marker
  have hfindL : findNodeList h (plugList up [.element h tg c a st [.text i t]]) =
      some (.element h tg c a st [.text i t]) := by
    rw [findNodeList_plug h up _ hndL hinh, findNodeList_cons, findNode, if_pos rfl]
  have hfind : findNodeList h (body :: fragment) =
      some (.element h tg c a st [.text i t]) := by
    have h1 : findNodeList h [body] = some (.element h tg c a st [.text i t]) := by
      rw [hplug]
      exact hfindL
    rw [findNodeList_cons] at h1 ⊢
    cases hf : findNode h body with
    | some r =>
      rw [hf] at h1
      exact h1
    | none =>
      rw [hf] at h1
      simp [findNodeList] at h1
  -- the body without the children of the marker
  have hclear : [clearChildren h body] = plugList up [.element h tg c a st []] := by
    have h1 : clearChildrenList h [body] = [clearChildren h body] := by
      rw [clearChildrenList_cons]
      rfl
    rw [← h1, hplug, clearChildrenList_plug h up _ hndL hinh, clearChildrenList_cons]
    simp [clearChildren, clearChildrenList]
  have hndC : (nodeIdsList (plugList up [.element h tg c a st []])).Nodup := by
    rw [nodeIdsList_plug]
    have h0 : (ctxPre nodeIdsList (fun f => [f.id]) up ++ [h, i] ++
        ctxPost nodeIdsList up).Nodup := hids ▸ hnd
    refine h0.sublist ?_
    have h1 : nodeIdsList [Node.element h tg c a st []] = [h] := by
      simp [nodeIdsList, nodeIds]
    rw [h1]
    exact List.Sublist.append (List.Sublist.append (List.Sublist.refl _) (by simp))
      (List.Sublist.refl _)
  have hrepl1 : [replaceIn h (textCopies next (earlier ++ [t])) (clearChildren h body)] =
      plugList up (textCopies next (earlier ++ [t])) := by
    have hid : (clearChildren h body).id ≠ h := by
      rw [clearChildren_id]
      exact hroot
    have h1 : replaceInList h (textCopies next (earlier ++ [t])) [clearChildren h body] =
        [replaceIn h (textCopies next (earlier ++ [t])) (clearChildren h body)] := by
      rw [replaceInList_cons, if_neg hid]
      rfl
    rw [← h1, hclear, replaceInList_plug h _ up _ hndC (by simp [nodeIdsList, nodeIds]),
      replaceInList_cons, if_pos (show (Node.element h tg c a st []).id = h from rfl),
      List.append_nil]
  have hrepl2 : [replaceIn h (textCopies next (earlier ++ [t])) body] =
      plugList up (textCopies next (earlier ++ [t])) := by
    have h1 : replaceInList h (textCopies next (earlier ++ [t])) [body] =
        [replaceIn h (textCopies next (earlier ++ [t])) body] := by
      rw [replaceInList_cons, if_neg hroot]
      rfl
    rw [← h1, hplug, replaceInList_plug h _ up _ hndL hinh, replaceInList_cons,
      if_pos (show (Node.element h tg c a st [Node.text i t]).id = h from rfl),
      List.append_nil]
  have hsame := singleton_plug_eq hrepl1 hrepl2
  -- the fragment
  have hfrag1 : clearChildrenList h fragment ++ [Node.text i t] =
      (pairs ++ [(i, t)]).map textOf := by
    rw [hfrag, clearChildrenList_textOf]
    simp [textOf]
  have hclone : cloneList ((pairs ++ [(i, t)]).map textOf) next =
      (textCopies next (earlier ++ [t]), next + earlier.length + 1) := by
    rw [cloneList_textOf, List.map_append, hearlier, List.length_append, hlen]
    rfl
  have hnotin : h ∉ nodeIdsList ((pairs ++ [(i, t)]).map textOf) := by
    rw [nodeIdsList_textOf, List.map_append, List.mem_append]
    rintro (h1 | h1)
    · obtain ⟨p, hp, hp1⟩ := List.mem_map.1 h1
      exact (hpairs p hp).2 (hp1 ▸ markerTexts_sub body _ hmem)
    · simp only [List.map_cons, List.map_nil, List.mem_singleton] at h1
      exact hhi h1
  have hfrag2 : replaceInList h (textCopies next (earlier ++ [t]))
      ((pairs ++ [(i, t)]).map textOf) = (pairs ++ [(i, t)]).map textOf :=
    replaceInList_none h _ _ hnotin
  refine ⟨(pairs ++ [(i, t)]).map textOf, ?_, ?_, ?_⟩
  · unfold removeHighlight
    simp only [hfind, Node.children, hfrag1, hclone, hsame, hfrag2]
  · have hidsNew : nodeIds (replaceIn h (textCopies next (earlier ++ [t])) body) =
        ctxPre nodeIdsList (fun f => [f.id]) up ++
          nodeIdsList (textCopies next (earlier ++ [t])) ++ ctxPost nodeIdsList up := by
      rw [← nodeIdsList_single, hrepl2, nodeIdsList_plug]
    have hold : ∀ x, x ∈ ctxPre nodeIdsList (fun f => [f.id]) up ∨
        x ∈ ctxPost nodeIdsList up → x ∈ nodeIds body := by
      intro x hx
      rw [hids]
      rcases hx with hx | hx
      · exact List.mem_append_left _ (List.mem_append_left _ hx)
      · exact List.mem_append_right _ hx
    have hnd0 : (ctxPre nodeIdsList (fun f => [f.id]) up ++ [h, i] ++
        ctxPost nodeIdsList up).Nodup := hids ▸ hnd
    have hmarkL : ctxPre markerTextsList (fun _ => []) up ++ [(h, t)] ++
        ctxPost markerTextsList up = (h, t) :: rest := by
      rw [← hmark, ← markerTextsList_single, hplug, markerTextsList_plug up _ hctx,
        markerTextsList_single, markerTexts, if_pos hm, textContentList_single, textContent]
    have hpreM : ctxPre markerTextsList (fun _ => []) up = [] := by
      cases hp : ctxPre markerTextsList (fun _ => []) up with
      | nil => rfl
      | cons p q =>
        exfalso
        rw [hp] at hmarkL
        have hp1 : p = (h, t) := (List.cons.inj hmarkL).1
        have hin : (h, t) ∈ ctxPre markerTextsList (fun _ => []) up := by
          rw [hp, hp1]
          exact List.mem_cons_self _ _
        exact hmid.2.1 h (by simp) (ctxPre_marker_sub up _ hin)
    refine ⟨?_, ?_, ?_, ?_, ?_, ?_, pairs ++ [(i, t)], rfl, ?_, ?_⟩
    · rw [replaceIn_isElement]
      exact hel
    · rw [replaceIn_isHighlight]
      exact hnm
    · rw [← engineMadeList_single, hrepl2, engineMadeList_plug up _ hctx]
      exact (textCopies_made next _).1
    · rw [hidsNew]
      rw [List.nodup_append] at hnd0 ⊢
      obtain ⟨h1, h2, h3⟩ := hnd0
      rw [List.nodup_append] at h1 ⊢
      obtain ⟨h4, _, _⟩ := h1
      refine ⟨⟨h4, hcopies.1, ?_⟩, h2, ?_⟩
      · intro x hx1 hx2
        have := hbound x (hold x (Or.inl hx1))
        have := (hcopies.2 x hx2).1
        omega
      · intro x hx1 hx2
        rcases List.mem_append.1 hx1 with hx3 | hx3
        · exact h3 (List.mem_append_left _ hx3) hx2
        · have := hbound x (hold x (Or.inr hx2))
          have := (hcopies.2 x hx3).1
          omega
    · intro x hx
      rw [hidsNew] at hx
      have hl : (earlier ++ [t]).length = earlier.length + 1 := by simp
      rcases List.mem_append.1 hx with hx1 | hx1
      · rcases List.mem_append.1 hx1 with hx2 | hx2
        · have := hbound x (hold x (Or.inl hx2))
          omega
        · have := (hcopies.2 x hx2).2
          omega
      · have := hbound x (hold x (Or.inr hx1))
        omega
    · rw [← markerTextsList_single, hrepl2, markerTextsList_plug up _ hctx,
        (textCopies_made next _).2, hpreM]
      rw [hpreM] at hmarkL
      simp only [List.nil_append, List.singleton_append, List.cons.injEq, true_and] at hmarkL
      simpa using hmarkL
    · rw [List.map_append, hearlier]
      rfl
    · intro p hp
      have hib : i < next := hbound i (by rw [hids]; simp)
      have hp1 : p.1 < next ∧ (p.1 ∉ ctxPre nodeIdsList (fun f => [f.id]) up ∧
          p.1 ∉ ctxPost nodeIdsList up) := by
        rcases List.mem_append.1 hp with hp2 | hp2
        · obtain ⟨hp3, hp4⟩ := hpairs p hp2
          exact ⟨hp3, fun e => hp4 (hold _ (Or.inl e)), fun e => hp4 (hold _ (Or.inr e))⟩
        · rw [List.mem_singleton] at hp2
          subst hp2
          exact ⟨hib, hmid.2.1 i (by simp), hmid.2.2 i (by simp)⟩
      refine ⟨by omega, ?_⟩
      rw [hidsNew]
      intro hx
      rcases List.mem_append.1 hx with hx1 | hx1
      · rcases List.mem_append.1 hx1 with hx2 | hx2
        · exact hp1.2.1 hx2
        · have := (hcopies.2 _ hx2).1
          omega
      · exact hp1.2.2 hx1
  · refine ⟨ctxPre textContentList (fun _ => []) up, ctxPost textContentList up, ?_, ?_⟩
    · rw [← textContentList_single, hplug, textContentList_plug, textContentList_single,
        textContent, textContentList_single, textContent]
    · rw [← textContentList_single, hrepl2, textContentList_plug, textCopies_text]

/-! ## The whole highlight removal -/

theorem addedText_zero : ∀ (ts earlier : List JSString),
    addedText earlier ts = 0 ↔
      (ts = [] ∨ (earlier.flatten = [] ∧ ∀ t ∈ ts.dropLast, t = []))
  | [], earlier => by
    constructor
    · intro _
      exact Or.inl rfl
    · intro _
      rfl
  | [t], earlier => by
    have h0 : addedText earlier [t] = earlier.flatten.length := rfl
    rw [h0]
    constructor
    · intro h
      exact Or.inr ⟨List.length_eq_zero.1 h, fun x hx => absurd hx (List.not_mem_nil _)⟩
    · rintro (h | ⟨h, _⟩)
      · exact absurd h (List.cons_ne_nil _ _)
      · rw [h]
        rfl
  | t :: u :: rest, earlier => by
    have h0 : addedText earlier (t :: u :: rest) =
        earlier.flatten.length + addedText (earlier ++ [t]) (u :: rest) := rfl
    have hd : (t :: u :: rest).dropLast = t :: (u :: rest).dropLast := rfl
    have hf : (earlier ++ [t]).flatten = earlier.flatten ++ t := by
      rw [List.flatten_append, List.flatten_cons, List.flatten_nil, List.append_nil]
    rw [h0, hd, Nat.add_eq_zero_iff, addedText_zero (u :: rest) (earlier ++ [t]), hf]
    constructor
    · rintro ⟨h1, h2⟩
      rcases h2 with h2 | ⟨h2, h3⟩
      · exact absurd h2 (List.cons_ne_nil _ _)
      · refine Or.inr ⟨List.length_eq_zero.1 h1, ?_⟩
        intro x hx
        rcases List.mem_cons.1 hx with hx | hx
        · rw [hx]
          exact (List.append_eq_nil.1 h2).2
        · exact h3 x hx
    · rintro (h | ⟨h1, h2⟩)
      · exact absurd h (List.cons_ne_nil _ _)
      · refine ⟨by rw [h1]; rfl, Or.inr ⟨?_, ?_⟩⟩
        · rw [h1, h2 t (List.mem_cons_self _ _)]
          rfl
        · intro x hx
          exact h2 x (List.mem_cons_of_mem _ hx)

theorem removeAll_fold : ∀ (remaining : List (Nat × JSString)) (body : Node)
    (fragment : List Node) (next : Nat) (earlier : List JSString),
    RevertInv body fragment next remaining earlier →
    ((remaining.map Prod.fst).foldl removeHighlight (body, fragment, next)).1 =
        (replaceMarkers remaining earlier next body).1 ∧
    ((remaining.map Prod.fst).foldl removeHighlight (body, fragment, next)).2.2 =
        (replaceMarkers remaining earlier next body).2 ∧
    (textContent (replaceMarkers remaining earlier next body).1).length =
        (textContent body).length + addedText earlier (remaining.map Prod.snd) ∧
    (addedText earlier (remaining.map Prod.snd) = 0 →
      textContent (replaceMarkers remaining earlier next body).1 = textContent body) ∧
    markerTexts (replaceMarkers remaining earlier next body).1 = [] ∧
    engineMade (replaceMarkers remaining earlier next body).1 = true
  | [], body, fragment, next, earlier, inv => by
    simp only [List.map_nil, List.foldl_nil, replaceMarkers, addedText, Nat.add_zero,
      true_and, implies_true]
    exact ⟨inv.markers, inv.made⟩
  | (h, t) :: rest, body, fragment, next, earlier, inv => by
    obtain ⟨fragment2, heq, inv2, pre, post, ht1, ht2⟩ :=
      removeHighlight_step body fragment next h t rest earlier inv
    obtain ⟨i1, i2, i3, i4, i5, i6⟩ := removeAll_fold rest _ fragment2 _ _ inv2
    simp only [List.map_cons, List.foldl_cons, heq, replaceMarkers, addedText]
    refine ⟨i1, i2, ?_, ?_, i5, i6⟩
    · rw [i3, ht1, ht2]
      simp only [List.length_append, List.flatten_append, List.flatten_cons, List.flatten_nil,
        List.append_nil]
      omega
    · intro hz
      have hz1 : earlier.flatten = [] := List.length_eq_zero.1 (by omega)
      rw [i4 (by omega), ht1, ht2, List.flatten_append, hz1]
      simp


/-! ## The claims -/

theorem textContentList_materialize (fragments : List Frag) (next : Nat) :
    textContentList (materialize fragments next).1 = fragsText fragments := by
  induction fragments generalizing next with
  | nil => rfl
  | cons f rest ih =>
    cases f with
    | textNode data =>
      simp only [materialize, textContentList, textContent, ih]
      simp [fragsText, Frag.text]
    | span ty g col s =>
      simp only [materialize, textContentList, textContent, ih]
      cases s with
      | nil => simp [fragsText, Frag.text, textContentList]
      | cons c s => simp [fragsText, Frag.text, textContentList, textContent]

/-- C1 (coverage): for every text value, term list and cache, the fragments `processTextNode`
builds spell exactly the original text, and so do the DOM nodes made from them. -/
theorem C1_coverage (canon : Char → Char) (regexCache : RegexCache) (text : JSString)
    (termsToHighlight : List TermEntry) (next : Nat) :
    fragsText (buildFragments canon regexCache text termsToHighlight).fragments = text ∧
    textContentList
      (materialize (buildFragments canon regexCache text termsToHighlight).fragments next).1 =
        text := by
  refine ⟨buildFragments_text _ _ _ _, ?_⟩
  rw [textContentList_materialize, buildFragments_text]

/-- C2, as stated: the segmentation of `foo and bar and foobar` is not the sequence the
scenario lists, with both occurrences of `bar` highlighted. -/
theorem C2_scenario_as_stated_fails :
    (buildFragments canonicalizeAscii [] "foo and bar and foobar".toList
        (getTermsToHighlight fooBarMappings)).fragments ≠
      [Frag.span .searchTerm 0 "#111" "foo".toList, Frag.textNode " and ".toList,
       Frag.span .mappedTerm 0 "#222" "bar".toList, Frag.textNode " and ".toList,
       Frag.span .searchTerm 0 "#111" "foo".toList,
       Frag.span .mappedTerm 0 "#222" "bar".toList] := by
  decide

/-- C2, amended: the segmentation highlights both occurrences of `foo` and, of `bar`, only the
one after the last `foo`; the first `bar` stays inside the plain piece ` and bar and `. -/
theorem C2_scenario :
    (buildFragments canonicalizeAscii [] "foo and bar and foobar".toList
        (getTermsToHighlight fooBarMappings)).fragments =
      [Frag.span .searchTerm 0 "#111" "foo".toList, Frag.textNode " and bar and ".toList,
       Frag.span .searchTerm 0 "#111" "foo".toList,
       Frag.span .mappedTerm 0 "#222" "bar".toList] := by
  decide

/-- C3 (priority): in the segmentation over `getTermsToHighlight`, a highlight span that starts
at offset `p` was made for an entry that occurs at `p`, has the length of that entry, and no
entry occurring at `p` is longer; so no span starts at `p` for a shorter term. -/
theorem C3_priority (canon : Char → Char) (regexCache : RegexCache) (hc : CacheOk regexCache)
    (currentMappings : List Mapping) (text : JSString) (p : Nat)
    (type : TermType) (group : Nat) (color : String) (matchedText : JSString)
    (hspan : FragAt
      (buildFragments canon regexCache text (getTermsToHighlight currentMappings)).fragments p
      (Frag.span type group color matchedText)) :
    ∃ e ∈ getTermsToHighlight currentMappings,
      e.type = type ∧ e.group = group ∧ e.color = color ∧
      matchesAt canon e.term text p = true ∧
      matchedText = substring text p (p + e.term.length) ∧
      matchedText.length = e.term.length ∧
      ∀ e2 ∈ getTermsToHighlight currentMappings,
        matchesAt canon e2.term text p = true → e2.term.length ≤ e.term.length := by
  have h := buildFragments_priority canon regexCache hc text _
    (fun e he => (getTermsToHighlight_spec currentMappings e he).1)
    (getTermsToHighlight_sorted currentMappings) p _ hspan
  obtain ⟨e, he, h1, h2, h3, h4, h5, h6⟩ := h
  refine ⟨e, he, h1, h2, h3, h4, h5, ?_, h6⟩
  have hne := (getTermsToHighlight_spec currentMappings e he).1
  have hp : p ≤ text.length := by
    by_contra hgt
    rw [matchesAt_nonempty_end hne (by omega)] at h4
    cases h4
  have hlen := matchesAt_length hp h4
  rw [h5]
  simp only [substring, List.length_take, List.length_drop]
  omega

/-- Witness of C3: in `xabcab` both `ab` and `abc` occur at offset 1, and the span there is
the one of `abc`. -/
theorem C3_priority_witness :
    CacheOk [] ∧
    FragAt (buildFragments canonicalizeAscii [] "xabcab".toList
        (getTermsToHighlight abAbcMappings)).fragments 1
      (Frag.span .mappedTerm 0 "#222" "abc".toList) ∧
    ∃ e ∈ getTermsToHighlight abAbcMappings,
      e.type = .mappedTerm ∧ e.group = 0 ∧ e.color = "#222" ∧
      matchesAt canonicalizeAscii e.term "xabcab".toList 1 = true ∧
      "abc".toList = substring "xabcab".toList 1 (1 + e.term.length) ∧
      "abc".toList.length = e.term.length ∧
      ∀ e2 ∈ getTermsToHighlight abAbcMappings,
        matchesAt canonicalizeAscii e2.term "xabcab".toList 1 = true →
          e2.term.length ≤ e.term.length :=
  have hc : CacheOk [] := fun _ _ h => absurd h (List.not_mem_nil _)
  have hf : FragAt (buildFragments canonicalizeAscii [] "xabcab".toList
        (getTermsToHighlight abAbcMappings)).fragments 1
      (Frag.span .mappedTerm 0 "#222" "abc".toList) :=
    ⟨[Frag.textNode "x".toList], [Frag.span .searchTerm 0 "#111" "ab".toList],
      by decide, by decide⟩
  ⟨hc, hf, C3_priority canonicalizeAscii [] hc abAbcMappings "xabcab".toList 1 _ _ _ _ hf⟩

/-- C4 (reversibility), evaluated on the body with the text `ab` and the terms `a`, `b`: the
pass makes two spans, and `removeAllHighlights` then leaves the text `aab`, not `ab`; the
second span is replaced by a copy of both spans' text. -/
theorem C4_revert_duplicates_text :
    returned (highlightPass canonicalizeAscii (getTermsToHighlight abMappings)
      (idleEngine abMappings abBody 2)) = true ∧
    textContent abBody = "ab".toList ∧
    queryHighlights (stateOf (highlightPass canonicalizeAscii (getTermsToHighlight abMappings)
      (idleEngine abMappings abBody 2))).body = [2, 4] ∧
    (removeAllHighlights (stateOf (highlightPass canonicalizeAscii
      (getTermsToHighlight abMappings) (idleEngine abMappings abBody 2)))).body =
      .element 0 "BODY" [] [] [] [.text 6 "a".toList, .text 7 "a".toList, .text 8 "b".toList] ∧
    textContent (removeAllHighlights (stateOf (highlightPass canonicalizeAscii
      (getTermsToHighlight abMappings) (idleEngine abMappings abBody 2)))).body =
      "aab".toList :=
  ⟨by decide, by decide, by decide, rfl, by decide⟩

/-- C5, as stated: on the text `foo and bar and foobar` with the terms `foo` and `bar` the
second pass changes the document; it highlights the `bar` the first pass left in the plain
piece ` and bar and `. -/
theorem C5_second_pass_changes_document :
    returned (highlightPass canonicalizeAscii (getTermsToHighlight fooBarMappings)
      (idleEngine fooBarMappings fooBarBody 2)) = true ∧
    returned (highlightPass canonicalizeAscii (getTermsToHighlight fooBarMappings)
      (stateOf (highlightPass canonicalizeAscii (getTermsToHighlight fooBarMappings)
        (idleEngine fooBarMappings fooBarBody 2)))) = true ∧
    (stateOf (highlightPass canonicalizeAscii (getTermsToHighlight fooBarMappings)
      (stateOf (highlightPass canonicalizeAscii (getTermsToHighlight fooBarMappings)
        (idleEngine fooBarMappings fooBarBody 2))))).body ≠
    (stateOf (highlightPass canonicalizeAscii (getTermsToHighlight fooBarMappings)
      (idleEngine fooBarMappings fooBarBody 2))).body :=
  ⟨by decide, by decide, fun h => absurd (congrArg queryHighlights h) (by decide)⟩

/-- C5, amended: on a well-formed page, when the term index of the mapping set has a single
entry, the full pass returns, a second full pass returns too, and the document after the
second pass is the document after the first. -/
theorem C5_idempotent_single_entry (canon : Char → Char) (currentMappings : List Mapping)
    (e : TermEntry) (hterms : getTermsToHighlight currentMappings = [e])
    (s : Engine) (hwf : WellFormed s) (hc : CacheOk s.regexCache) :
    ∃ s1 s2,
      highlightPass canon (getTermsToHighlight currentMappings) s = .ok s1 ∧
      highlightPass canon (getTermsToHighlight currentMappings) s1 = .ok s2 ∧
      s2.body = s1.body := by
  have hne : e.term ≠ [] :=
    (getTermsToHighlight_spec currentMappings e (by rw [hterms]; exact List.mem_singleton_self _)).1
  rw [hterms]
  exact highlightPass_twice_single canon e hne s hwf hc

/-- Witness of C5 amended: the page with the text `foo and bar and foobar` and the single
term `foo`. -/
theorem C5_idempotent_single_entry_witness :
    getTermsToHighlight fooMappings = [fooEntry] ∧
    WellFormed (idleEngine fooMappings fooBarBody 2) ∧
    CacheOk (idleEngine fooMappings fooBarBody 2).regexCache ∧
    ∃ s1 s2,
      highlightPass canonicalizeAscii (getTermsToHighlight fooMappings)
        (idleEngine fooMappings fooBarBody 2) = .ok s1 ∧
      highlightPass canonicalizeAscii (getTermsToHighlight fooMappings) s1 = .ok s2 ∧
      s2.body = s1.body :=
  have h1 : getTermsToHighlight fooMappings = [fooEntry] := by decide
  have h2 : WellFormed (idleEngine fooMappings fooBarBody 2) :=
    ⟨rfl, rfl, by decide, by decide⟩
  have h3 : CacheOk (idleEngine fooMappings fooBarBody 2).regexCache :=
    fun _ _ h => absurd h (List.not_mem_nil _)
  ⟨h1, h2, h3,
    C5_idempotent_single_entry canonicalizeAscii fooMappings fooEntry h1 _ h2 h3⟩

/-- C6 (DOM exclusion), evaluated: the full pass collects nothing under the ignored `div`, but
when the paragraph inside it is reported as an added node, the incremental pass rewrites its
text `foo` into a highlight span. -/
theorem C6_incremental_pass_enters_ignored :
    walkTextNodes ignoredBody = [] ∧
    (onMutations [.childList [2]] (idleEngine fooMappings ignoredBody 4)).idleQueue =
      [IdleTask.processNewContent [some 2]] ∧
    (runIdle canonicalizeAscii 0
        (onMutations [.childList [2]] (idleEngine fooMappings ignoredBody 4))).body =
      .element 0 "BODY" [] [] []
        [.element 1 "DIV" [] [ignoreAttribute] []
          [.element 2 "P" [] [] [] [searchSpan 4 "#111" "foo".toList]]] :=
  ⟨by decide, rfl, rfl⟩

/-- C7 (failure handling), evaluated: a text node collected by the pass is removed by the page
before its chunk runs; `processTextNode` throws in the idle callback, outside the `try` of
`applyHighlights`; the exception reaches the host, `isProcessing` stays `true`, and
afterwards neither a mapping update nor a mutation batch highlights the remaining `foo`. -/
theorem C7_uncaught_exception_leaves_busy :
    (runIdle canonicalizeAscii 5
      (pageRemoveNode 2 (applyHighlights (idleEngine fooMappings twoFooBody 5)))).uncaught = 1 ∧
    (runIdle canonicalizeAscii 5
      (pageRemoveNode 2 (applyHighlights (idleEngine fooMappings twoFooBody 5)))).isProcessing =
        true ∧
    (runIdle canonicalizeAscii 5
      (pageRemoveNode 2 (applyHighlights (idleEngine fooMappings twoFooBody 5)))).idleQueue =
        [] ∧
    (runIdle canonicalizeAscii 5 (onUpdateData fooMappings (runIdle canonicalizeAscii 5
      (pageRemoveNode 2 (applyHighlights (idleEngine fooMappings twoFooBody 5)))))).body =
      .element 0 "BODY" [] [] []
        [.element 1 "P" [] [] [] [], .element 3 "P" [] [] [] [.text 4 "foo".toList]] ∧
    (runIdle canonicalizeAscii 5 (onUpdateData fooMappings (runIdle canonicalizeAscii 5
      (pageRemoveNode 2 (applyHighlights (idleEngine fooMappings twoFooBody 5)))))).idleQueue =
        [] ∧
    (runIdle canonicalizeAscii 5 (onMutations [.characterData 4] (runIdle canonicalizeAscii 5
      (pageRemoveNode 2 (applyHighlights (idleEngine fooMappings twoFooBody 5)))))).body =
      .element 0 "BODY" [] [] []
        [.element 1 "P" [] [] [] [], .element 3 "P" [] [] [] [.text 4 "foo".toList]] :=
  ⟨by decide, by decide, rfl, rfl, rfl, rfl⟩

/-- C8 (last update wins), evaluated: an update to the term `qux` arrives while the pass for
`foo` is in flight; the scheduled `applyHighlights` returns at its `isProcessing` guard, the
old pass runs to its end with the old term list, and the queue is then empty: `foo` is
highlighted, `qux` never is. -/
theorem C8_update_during_pass_is_dropped :
    (onUpdateData quxMappings
      (applyHighlights (idleEngine fooMappings fooQuxBody 5))).idleQueue =
      [IdleTask.processNextChunk [2, 4] 0 (getTermsToHighlight fooMappings),
       IdleTask.applyHighlights] ∧
    (runIdle canonicalizeAscii 1 (runIdle canonicalizeAscii 1 (onUpdateData quxMappings
      (applyHighlights (idleEngine fooMappings fooQuxBody 5))))).idleQueue =
      [IdleTask.processNextChunk [2, 4] 1 (getTermsToHighlight fooMappings)] ∧
    (runIdle canonicalizeAscii 1 (runIdle canonicalizeAscii 1 (runIdle canonicalizeAscii 1
      (onUpdateData quxMappings
        (applyHighlights (idleEngine fooMappings fooQuxBody 5)))))).idleQueue = [] ∧
    (runIdle canonicalizeAscii 1 (runIdle canonicalizeAscii 1 (runIdle canonicalizeAscii 1
      (onUpdateData quxMappings
        (applyHighlights (idleEngine fooMappings fooQuxBody 5)))))).currentMappings =
      quxMappings ∧
    (runIdle canonicalizeAscii 1 (runIdle canonicalizeAscii 1 (runIdle canonicalizeAscii 1
      (onUpdateData quxMappings
        (applyHighlights (idleEngine fooMappings fooQuxBody 5)))))).body =
      .element 0 "BODY" [] [] []
        [.element 1 "P" [] [] [] [searchSpan 5 "#111" "foo".toList],
         .element 3 "P" [] [] [] [searchSpan 7 "#111" "foo".toList, .text 9 " qux".toList]] :=
  ⟨rfl, rfl, rfl, rfl, rfl⟩

/-- C9 (escaping): `escapeRegExp` copies the term and puts one backslash before each of the
fourteen syntax characters and nothing else; the pattern it returns always compiles, to the
literal `term`; the matcher matches at an index exactly when the text there is `term` up to
case.  The term `a.b*c` matches `a.b*c` and neither `aXbc` nor `abbbc`. -/
theorem C9_escaping :
    (∀ term : JSString,
      escapeRegExp term =
          term.flatMap (fun c => if isSyntaxCharacter c then [Char.ofNat 92, c] else [c]) ∧
      literalOfPattern (escapeRegExp term) = some term ∧
      ∀ (canon : Char → Char) (text : JSString) (i : Nat),
        (∃ m, regexExec canon (escapeRegExp term) text i = some (i, m)) ↔
          (i + term.length ≤ text.length ∧
            (substring text i (i + term.length)).map canon = term.map canon)) ∧
    (∀ c : Char, isSyntaxCharacter c = true ↔
      c ∈ ['.', '*', '+', '?', '^', '$', Char.ofNat 123, Char.ofNat 125, '(', ')', '|', '[',
        ']', Char.ofNat 92]) ∧
    regexExec canonicalizeAscii (escapeRegExp "a.b*c".toList) "a.b*c".toList 0 =
      some (0, "a.b*c".toList) ∧
    regexExec canonicalizeAscii (escapeRegExp "a.b*c".toList) "aXbc".toList 0 = none ∧
    regexExec canonicalizeAscii (escapeRegExp "a.b*c".toList) "abbbc".toList 0 = none := by
  refine ⟨fun term => ⟨?_, literalOfPattern_escapeRegExp term, fun canon text i => regexExec_at_iff canon term text i⟩, ?_,
    by decide, by decide, by decide⟩
  · induction term with
    | nil => rfl
    | cons c s ih =>
      rw [escapeRegExp, ih, List.flatMap_cons]
      cases hs : isSyntaxCharacter c <;> simp
  · intro c
    simp only [isSyntaxCharacter, Bool.or_eq_true, decide_eq_true_eq, List.mem_cons,
      List.mem_singleton, List.not_mem_nil, or_false, or_assoc]

/-- C10 (case-insensitivity): a text that equals a non-empty term up to case is segmented,
with that single entry, into exactly one highlight span holding the text itself. -/
theorem C10_case_insensitive (canon : Char → Char) (regexCache : RegexCache)
    (hc : CacheOk regexCache) (e : TermEntry) (text : JSString) (hne : e.term ≠ [])
    (heq : text.map canon = e.term.map canon) :
    (buildFragments canon regexCache text [e]).fragments =
        [Frag.span e.type e.group e.color text] ∧
      (buildFragments canon regexCache text [e]).matched = true :=
  buildFragments_whole canon regexCache hc e text hne heq

/-- Witness of C10: the term `Cat` highlights each of `cat`, `CAT` and `CaT`, whole and in
its own casing. -/
theorem C10_case_insensitive_witness :
    (CacheOk [] ∧ catEntry.term ≠ [] ∧
      "cat".toList.map canonicalizeAscii = catEntry.term.map canonicalizeAscii ∧
      "CAT".toList.map canonicalizeAscii = catEntry.term.map canonicalizeAscii ∧
      "CaT".toList.map canonicalizeAscii = catEntry.term.map canonicalizeAscii) ∧
    ((buildFragments canonicalizeAscii [] "cat".toList [catEntry]).fragments =
        [Frag.span .searchTerm 0 "#fff34d" "cat".toList] ∧
      (buildFragments canonicalizeAscii [] "cat".toList [catEntry]).matched = true) ∧
    ((buildFragments canonicalizeAscii [] "CAT".toList [catEntry]).fragments =
        [Frag.span .searchTerm 0 "#fff34d" "CAT".toList] ∧
      (buildFragments canonicalizeAscii [] "CAT".toList [catEntry]).matched = true) ∧
    ((buildFragments canonicalizeAscii [] "CaT".toList [catEntry]).fragments =
        [Frag.span .searchTerm 0 "#fff34d" "CaT".toList] ∧
      (buildFragments canonicalizeAscii [] "CaT".toList [catEntry]).matched = true) :=
  have hc : CacheOk [] := fun _ _ h => absurd h (List.not_mem_nil _)
  ⟨⟨hc, by decide, by decide, by decide, by decide⟩,
    C10_case_insensitive canonicalizeAscii [] hc catEntry "cat".toList (by decide) (by decide),
    C10_case_insensitive canonicalizeAscii [] hc catEntry "CAT".toList (by decide) (by decide),
    C10_case_insensitive canonicalizeAscii [] hc catEntry "CaT".toList (by decide) (by decide)⟩

/-- C11 (term index): `getTermsToHighlight` returns the stable length-descending sort of the
emission sequence: a permutation of it, sorted by descending `length`, in which the entries of
each length keep their emission order; it is the only list with the last two properties.
The emission sequence is the one of the specification, and every entry has a non-empty term
and `length = term.length`. -/
theorem C11_term_index (currentMappings : List Mapping) :
    (getTermsToHighlight currentMappings).Perm (emissionSequence currentMappings) ∧
    List.Pairwise (fun a b : TermEntry => b.length ≤ a.length)
      (getTermsToHighlight currentMappings) ∧
    (∀ n, entriesOfLength n (getTermsToHighlight currentMappings) =
      entriesOfLength n (emissionSequence currentMappings)) ∧
    (∀ l : List TermEntry, List.Pairwise (fun a b : TermEntry => b.length ≤ a.length) l →
      (∀ n, entriesOfLength n l = entriesOfLength n (emissionSequence currentMappings)) →
      l = getTermsToHighlight currentMappings) ∧
    (∀ e ∈ getTermsToHighlight currentMappings, e.term ≠ [] ∧ e.length = e.term.length) ∧
    getTermsToHighlight tieMappings =
      [{ term := "xyz".toList, type := .mappedTerm, group := 0, color := "#222", length := 3 },
       { term := "ab".toList, type := .searchTerm, group := 0, color := "#111", length := 2 },
       { term := "de".toList, type := .mappedTerm, group := 0, color := "#222", length := 2 },
       { term := "fg".toList, type := .searchTerm, group := 1, color := "#333", length := 2 },
       { term := "c".toList, type := .searchTerm, group := 0, color := "#111", length := 1 }] := by
  have hsorted : List.Pairwise (fun a b : TermEntry => b.length ≤ a.length)
      (getTermsToHighlight currentMappings) := by
    have h : List.Sorted longerFirst (getTermsToHighlight currentMappings) :=
      List.sorted_insertionSort _ _
    exact h
  have hstable : ∀ n, entriesOfLength n (getTermsToHighlight currentMappings) =
      entriesOfLength n (emissionSequence currentMappings) := by
    intro n
    unfold getTermsToHighlight
    rw [entriesOfLength_insertionSort, collectEntries_emission]
  refine ⟨?_, hsorted, hstable, ?_, getTermsToHighlight_spec currentMappings, by decide⟩
  · unfold getTermsToHighlight
    rw [collectEntries_emission]
    exact List.perm_insertionSort _ _
  · intro l hl hn
    exact sorted_determined l _ hl hsorted (fun n => by rw [hn n, hstable n])

/-- C12 (text walk), the divergence: in `body > svg > text > foo` the text leaf lies below an
svg element, which the specification excludes, and `walkTextNodes` visits it, so the full pass
rewrites it into a highlight span: the code compares `tagName`, which is `svg` for an inline
SVG element, with the upper-case string `SVG`.  On every tree the walk visits, in depth-first
document order, exactly the text leaves that are not entirely white space and lie below none
of the nodes at which the code returns early; on the tree `walkBody` of HTML elements this is
the list the specification describes. -/
theorem C12_walk_enters_svg :
    (textLeaves [] svgBody).map (fun leaf => leaf.2.1) = [3] ∧
    ((textLeaves [] svgBody).filter eligibleLeaf).map (fun leaf => leaf.2.1) = [] ∧
    walkTextNodes svgBody = [3] ∧
    hasExcludedTag "svg" = true ∧
    excludedTags.contains "svg" = false ∧
    returned (highlightPass canonicalizeAscii (getTermsToHighlight fooMappings)
      (idleEngine fooMappings svgBody 4)) = true ∧
    (stateOf (highlightPass canonicalizeAscii (getTermsToHighlight fooMappings)
      (idleEngine fooMappings svgBody 4))).body =
      .element 0 "BODY" [] [] []
        [.element 1 "svg" [] [] []
          [.element 2 "text" [] [] [] [searchSpan 4 "#111" "foo".toList]]] ∧
    (∀ root : Node, walkTextNodes root =
      ((textLeaves [] root).filter visitedLeaf).map (fun leaf => leaf.2.1)) ∧
    ((textLeaves [] walkBody).filter eligibleLeaf).map (fun leaf => leaf.2.1) = [1, 11] ∧
    walkTextNodes walkBody = [1, 11] :=
  ⟨by decide, by decide, by decide, by decide, by decide, by decide, rfl,
    walkTextNodes_leaves [] rfl, by decide, by decide⟩

/-- C13, as stated: two states that differ only in `isProcessing` do not give the same
document; with the flag set `processNewContent` leaves the text `foo` as it is, without it
the text is highlighted. -/
theorem C13_busy_flag_changes_result :
    (stateOf (processNewContent canonicalizeAscii [some 1]
      { idleEngine fooMappings twoFooBody 5 with isProcessing := true })).body ≠
    (stateOf (processNewContent canonicalizeAscii [some 1]
      { idleEngine fooMappings twoFooBody 5 with isProcessing := false })).body :=
  fun h => absurd (congrArg queryHighlights h) (by decide)

/-- C13, amended: with `isProcessing` set, `processNewContent` returns at once and changes
nothing; with `isProcessing` clear and a non-empty mapping set it processes the affected
nodes with the current term index; in every case it leaves `isProcessing` as it was. -/
theorem C13_incremental_pass_gated (canon : Char → Char) (nodes : List (Option Nat))
    (s : Engine) :
    processNewContent canon nodes { s with isProcessing := true } =
      .ok { s with isProcessing := true } ∧
    processNewContent canon nodes { s with isProcessing := false } =
      (if s.currentMappings.length = 0 then .ok { s with isProcessing := false }
       else processNodes canon (getTermsToHighlight s.currentMappings) nodes
         { s with isProcessing := false }) ∧
    (stateOf (processNewContent canon nodes s)).isProcessing = s.isProcessing := by
  refine ⟨by simp [processNewContent], ?_, processNewContent_isProcessing canon nodes s⟩
  unfold processNewContent
  by_cases h : s.currentMappings.length = 0 <;> simp [h]

/-- C14, as stated: the record of current shape with empty `searchTerms` and `mappedTerms` is
normalized, at load time and in the popup alike, to a mapping whose sequences are empty. -/
theorem C14_empty_record_stays_empty :
    ¬ ((normalizeStored emptyRecord).searchTerms ≠ [] ∧
        (normalizeStored emptyRecord).mappedTerms ≠ []) ∧
    ¬ ((normalizePopup emptyRecord).searchTerms ≠ [] ∧
        (normalizePopup emptyRecord).mappedTerms ≠ []) ∧
    ¬ ((normalizeImport emptyRecord).searchTerms ≠ [] ∧
        (normalizeImport emptyRecord).mappedTerms ≠ []) ∧
    (initHighlighter (some [emptyRecord]) (idleEngine [] abBody 2)).currentMappings =
      [{ searchTerms := [], mappedTerms := [], searchColor := "#fff34d",
         mappedColor := "#4dd0e1" }] := by
  decide

/-- C14, amended: the three normalizations agree; they keep the record's `searchTerms`; a legacy
record gets `mappedTerms = [mappedTerm]` when its `mappedTerm` is non-empty and the empty
sequence otherwise; a current record keeps its `mappedTerms`; absent or empty colours get
the defaults.  So a sequence of the result is non-empty exactly when the record's own
sequence (or scalar) is. -/
theorem C14_normalization (searchTerms : List JSString) (mappedTerm : JSString)
    (mappedTerms : List JSString) (searchColor mappedColor : Option String) :
    (∀ mapping : RawMapping,
      normalizePopup mapping = normalizeStored mapping ∧
      normalizeImport mapping = normalizeStored mapping) ∧
    normalizeStored
        { searchTerms := some searchTerms, mappedTerm := some mappedTerm, mappedTerms := none,
          searchColor := searchColor, mappedColor := mappedColor } =
      { searchTerms := searchTerms
        mappedTerms := if mappedTerm = [] then [] else [mappedTerm]
        searchColor := colorOr searchColor "#fff34d"
        mappedColor := colorOr mappedColor "#4dd0e1" } ∧
    normalizeStored
        { searchTerms := some searchTerms, mappedTerm := none,
          mappedTerms := some mappedTerms,
          searchColor := searchColor, mappedColor := mappedColor } =
      { searchTerms := searchTerms
        mappedTerms := mappedTerms
        searchColor := colorOr searchColor "#fff34d"
        mappedColor := colorOr mappedColor "#4dd0e1" } ∧
    (((normalizeStored
        { searchTerms := some searchTerms, mappedTerm := some mappedTerm, mappedTerms := none,
          searchColor := searchColor, mappedColor := mappedColor }).searchTerms ≠ [] ∧
      (normalizeStored
        { searchTerms := some searchTerms, mappedTerm := some mappedTerm, mappedTerms := none,
          searchColor := searchColor, mappedColor := mappedColor }).mappedTerms ≠ []) ↔
      (searchTerms ≠ [] ∧ mappedTerm ≠ [])) ∧
    (((normalizeStored
        { searchTerms := some searchTerms, mappedTerm := none,
          mappedTerms := some mappedTerms,
          searchColor := searchColor, mappedColor := mappedColor }).searchTerms ≠ [] ∧
      (normalizeStored
        { searchTerms := some searchTerms, mappedTerm := none,
          mappedTerms := some mappedTerms,
          searchColor := searchColor, mappedColor := mappedColor }).mappedTerms ≠ []) ↔
      (searchTerms ≠ [] ∧ mappedTerms ≠ [])) := by
  have hlegacy : normalizeStored
        { searchTerms := some searchTerms, mappedTerm := some mappedTerm, mappedTerms := none,
          searchColor := searchColor, mappedColor := mappedColor } =
      { searchTerms := searchTerms
        mappedTerms := if mappedTerm = [] then [] else [mappedTerm]
        searchColor := colorOr searchColor "#fff34d"
        mappedColor := colorOr mappedColor "#4dd0e1" } := by
    cases mappedTerm <;> simp [normalizeStored, isLegacyRecord]
  have hcurrent : normalizeStored
        { searchTerms := some searchTerms, mappedTerm := none,
          mappedTerms := some mappedTerms,
          searchColor := searchColor, mappedColor := mappedColor } =
      { searchTerms := searchTerms
        mappedTerms := mappedTerms
        searchColor := colorOr searchColor "#fff34d"
        mappedColor := colorOr mappedColor "#4dd0e1" } := by
    simp [normalizeStored, isLegacyRecord]
  refine ⟨?_, hlegacy, hcurrent, ?_, ?_⟩
  · intro mapping
    have h : withDefaults (migrateRecord mapping) = normalizeStored mapping := by
      unfold withDefaults migrateRecord normalizeStored
      by_cases hl : isLegacyRecord mapping = true
      · simp [hl]
      · simp [hl]
    exact ⟨h, h⟩
  · rw [hlegacy]
    cases mappedTerm <;> simp
  · rw [hcurrent]

/-- C15 (revert accumulates): on a document whose markers are engine-made (each a highlight
span holding a single text node), `removeAllHighlights` replaces the markers in document
order, the `k`-th by copies of the text nodes of the markers 1 to `k`, whose text is the
concatenation of their texts; no marker remains; and the text content is the one before
exactly when there is at most one marker or every marker but the last has empty text. -/
theorem C15_revert_accumulates (s : Engine) (hel : s.body.isElement = true)
    (hnm : s.body.isHighlight = false) (hmade : engineMade s.body = true)
    (hnd : (nodeIds s.body).Nodup) (hbound : ∀ x ∈ nodeIds s.body, x < s.nextId) :
    queryHighlights s.body = (markerTexts s.body).map Prod.fst ∧
    (removeAllHighlights s).body =
      (replaceMarkers (markerTexts s.body) [] s.nextId s.body).1 ∧
    (∀ (next : Nat) (ts : List JSString), textContentList (textCopies next ts) = ts.flatten) ∧
    queryHighlights (removeAllHighlights s).body = [] ∧
    (textContent (removeAllHighlights s).body = textContent s.body ↔
      ((markerTexts s.body).length ≤ 1 ∨
        ∀ t ∈ ((markerTexts s.body).map Prod.snd).dropLast, t = [])) := by
  have hq := queryHighlights_made s.body hmade
  have inv : RevertInv s.body [] s.nextId (markerTexts s.body) [] :=
    ⟨hel, hnm, hmade, hnd, hbound, rfl, [], rfl, rfl, fun p hp => absurd hp (List.not_mem_nil _)⟩
  obtain ⟨f1, _, f3, f4, f5, f6⟩ := removeAll_fold _ _ _ _ _ inv
  have hbody : (removeAllHighlights s).body =
      (replaceMarkers (markerTexts s.body) [] s.nextId s.body).1 := by
    unfold removeAllHighlights
    simp only
    rw [hq]
    exact f1
  refine ⟨hq, hbody, textCopies_text, ?_, ?_⟩
  · rw [hbody, queryHighlights_made _ f6, f5]
    rfl
  · rw [hbody]
    have hz := addedText_zero ((markerTexts s.body).map Prod.snd) []
    constructor
    · intro heq
      have h0 : addedText [] ((markerTexts s.body).map Prod.snd) = 0 := by
        rw [heq] at f3
        omega
      rcases hz.1 h0 with h1 | h1
      · left
        have := congrArg List.length h1
        simp only [List.length_map, List.length_nil] at this
        omega
      · exact Or.inr h1.2
    · intro hc
      apply f4
      apply hz.2
      rcases hc with h1 | h1
      · right
        refine ⟨rfl, ?_⟩
        intro t ht
        exfalso
        have hl := List.length_dropLast ((markerTexts s.body).map Prod.snd)
        have hpos : 0 < (((markerTexts s.body).map Prod.snd).dropLast).length :=
          List.length_pos_of_mem ht
        rw [List.length_map] at hl
        omega
      · exact Or.inr ⟨rfl, h1⟩

/-- Witness of C15: the body with the spans for `a` and `b`; the second span is replaced by
copies of both texts and the text content `ab` becomes `aab`. -/
theorem C15_revert_accumulates_witness :
    ((idleEngine abMappings abHighlighted 6).body.isElement = true ∧
      (idleEngine abMappings abHighlighted 6).body.isHighlight = false ∧
      engineMade (idleEngine abMappings abHighlighted 6).body = true ∧
      (nodeIds (idleEngine abMappings abHighlighted 6).body).Nodup ∧
      ∀ x ∈ nodeIds (idleEngine abMappings abHighlighted 6).body,
        x < (idleEngine abMappings abHighlighted 6).nextId) ∧
    markerTexts abHighlighted = [(2, "a".toList), (4, "b".toList)] ∧
    (removeAllHighlights (idleEngine abMappings abHighlighted 6)).body =
      .element 0 "BODY" [] [] [] [.text 6 "a".toList, .text 7 "a".toList, .text 8 "b".toList] ∧
    (queryHighlights (idleEngine abMappings abHighlighted 6).body =
        (markerTexts (idleEngine abMappings abHighlighted 6).body).map Prod.fst ∧
      (removeAllHighlights (idleEngine abMappings abHighlighted 6)).body =
        (replaceMarkers (markerTexts (idleEngine abMappings abHighlighted 6).body) []
          (idleEngine abMappings abHighlighted 6).nextId
          (idleEngine abMappings abHighlighted 6).body).1 ∧
      (∀ (next : Nat) (ts : List JSString),
        textContentList (textCopies next ts) = ts.flatten) ∧
      queryHighlights (removeAllHighlights (idleEngine abMappings abHighlighted 6)).body = [] ∧
      (textContent (removeAllHighlights (idleEngine abMappings abHighlighted 6)).body =
          textContent (idleEngine abMappings abHighlighted 6).body ↔
        ((markerTexts (idleEngine abMappings abHighlighted 6).body).length ≤ 1 ∨
          ∀ t ∈ ((markerTexts (idleEngine abMappings abHighlighted 6).body).map
            Prod.snd).dropLast, t = []))) :=
  ⟨⟨rfl, rfl, by decide, by decide, by decide⟩, by decide, rfl,
    C15_revert_accumulates (idleEngine abMappings abHighlighted 6) rfl rfl (by decide)
      (by decide) (by decide)⟩

end BMHP
